import Mathlib

/-!
# TurboPFor-CPP: verification of the P4 (PFor) delta1 block codec

Shallow embedding of the scalar reference implementation of the TurboPFor-CPP
integer codec (namespace `turbopfor::scalar` and `turbopfor::scalar::detail`),
together with proofs of the specification claims.

Modelling conventions:
* `uint32` values are `Nat` kept below `2 ^ 32 = 4294967296`; wrap-around
  arithmetic is explicit `% 4294967296`.
* Byte streams are `List Nat`; each element models one `unsigned char` (the
  functions defensively reduce every byte `% 256`, a no-op on real bytes).
* Pointer-advancing C functions become functions returning the produced bytes
  (encoders) or the decoded values together with the unconsumed suffix of the
  input (decoders).
* Out-of-bounds dispatch-table accesses in the decoder (undefined behavior in
  the C++ source: `table[b]` for `b > 32` on a 33-entry table) are modelled as
  `Except.error .oobTable`.
-/

namespace TurboPFor

/-- `pad8` from `p4_scalar_internal.h`: bits-to-bytes, rounding up. -/
def pad8 (x : Nat) : Nat := (x + 7) / 8

/-- `bitWidth32` from `p4_scalar_internal.h`: position of the highest set bit
plus one (`32 - lzcnt`), 0 for 0.  On `Nat` this is exactly `Nat.size`. -/
def bitWidth32 (v : Nat) : Nat := Nat.size v

theorem bitWidth32_le_iff (v k : Nat) : bitWidth32 v ≤ k ↔ v < 2 ^ k :=
  Nat.size_le

theorem lt_two_pow_bitWidth32 (v : Nat) : v < 2 ^ bitWidth32 v :=
  Nat.lt_size_self v

theorem bitWidth32_zero : bitWidth32 0 = 0 := Nat.size_zero

theorem bitWidth32_le_32 (v : Nat) (h : v < 4294967296) : bitWidth32 v ≤ 32 := by
  rw [bitWidth32_le_iff]; exact h

theorem bitWidth32_pos (v : Nat) (h : 0 < v) : 0 < bitWidth32 v := by
  by_contra hc
  have : bitWidth32 v ≤ 0 := Nat.le_of_not_lt hc
  rw [bitWidth32_le_iff] at this
  omega

/-- Little-endian byte list of length `len` of a natural number (the semantics
of the `storeU32Fast`/`storeU64Fast`/`store_partial` helpers). -/
def leBytes : Nat → Nat → List Nat
  | 0, _ => []
  | len + 1, x => (x % 256) :: leBytes len (x / 256)

/-- Read a little-endian byte list back into a natural number (the semantics of
`loadU16Fast`/`loadU32Fast`/`loadU64Fast`/`load_partial`).  Each byte is
reduced `% 256` (a no-op for real bytes). -/
def bytesToNat : List Nat → Nat
  | [] => 0
  | c :: cs => c % 256 + 256 * bytesToNat cs

theorem leBytes_length (len x : Nat) : (leBytes len x).length = len := by
  induction len generalizing x with
  | zero => rfl
  | succ n ih => simp [leBytes, ih]

theorem bytesToNat_leBytes (len x : Nat) :
    bytesToNat (leBytes len x) = x % 256 ^ len := by
  induction len generalizing x with
  | zero => simp [leBytes, bytesToNat, Nat.mod_one]
  | succ n ih =>
    simp only [leBytes, bytesToNat, ih]
    rw [pow_succ, mul_comm (256 ^ n) 256, Nat.mod_mul]
    omega

theorem bytesToNat_lt (bs : List Nat) : bytesToNat bs < 256 ^ bs.length := by
  induction bs with
  | nil => simp [bytesToNat]
  | cons c cs ih =>
    simp only [bytesToNat, List.length_cons, pow_succ]
    have : c % 256 < 256 := Nat.mod_lt _ (by omega)
    calc c % 256 + 256 * bytesToNat cs < 256 + 256 * bytesToNat cs := by omega
    _ ≤ 256 * (bytesToNat cs + 1) := by ring_nf; omega
    _ ≤ 256 * 256 ^ cs.length := by
        have := ih; exact Nat.mul_le_mul_left _ (by omega)
    _ = 256 ^ cs.length * 256 := by ring

theorem bytesToNat_append (xs ys : List Nat) :
    bytesToNat (xs ++ ys) = bytesToNat xs + 256 ^ xs.length * bytesToNat ys := by
  induction xs with
  | nil => simp [bytesToNat]
  | cons c cs ih =>
    have : (c :: cs) ++ ys = c :: (cs ++ ys) := rfl
    rw [this]
    show c % 256 + 256 * bytesToNat (cs ++ ys) = _
    rw [ih]
    simp only [List.length_cons, pow_succ, bytesToNat]
    ring

theorem leBytes_append_eq (len x : Nat) (h : x < 256 ^ len) :
    bytesToNat (leBytes len x) = x := by
  rw [bytesToNat_leBytes]; exact Nat.mod_eq_of_lt h

/-! ## Variable-byte codec (`vbPut32` / `vbGet32` / `vbEnc32` / `vbDec32`,
from `src/unnamed/part_003` and the constants in `p4_scalar_internal.h`).

Thresholds: `VBYTE_THRESHOLD_2BYTE = 156`, `VBYTE_THRESHOLD_3BYTE = 16540`,
`VBYTE_THRESHOLD_4PLUS = 2113692`; markers `0x9C = 156`, `0xDC = 220`,
`0xFC = 252`; escape `0xFF = 255`. -/

/-- `vbPut32`: encode one uint32 into 1–5 bytes. -/
def vbPut32 (x : Nat) : List Nat :=
  if x < 156 then [x]
  else if x < 16540 then
    [156 + (x - 156) / 256, (x - 156) % 256]
  else if x < 2113692 then
    [220 + (x - 16540) / 65536, (x - 16540) % 256, (x - 16540) / 256 % 256]
  else if x ≤ 16777215 then
    [252, x % 256, x / 256 % 256, x / 65536 % 256]
  else
    253 :: leBytes 4 x

/-- `vbGet32`: decode one value, returning it with the unread suffix.
(`vbGet32Inline` in `p4_scalar_internal.h` is byte-for-byte the same logic.)
The `0xFC` branch mirrors `loadU32Fast(in) & 0xFFFFFF`: it reads four bytes
but masks the fourth away, and advances by three.  Reading past the provided
bytes (impossible on well-formed streams) yields 0-bytes. -/
def vbGet32 : List Nat → Nat × List Nat
  | [] => (0, [])
  | b0 :: t =>
    let m := b0 % 256
    if m < 156 then (m, t)
    else if m < 220 then
      ((m - 156) * 256 + t.headD 0 % 256 + 156, t.tail)
    else if m < 252 then
      (t.headD 0 % 256 + 256 * (t.tail.headD 0 % 256) + (m - 220) * 65536 + 16540,
        t.tail.tail)
    else if m = 252 then
      (bytesToNat (t.take 4) % 16777216, t.drop 3)
    else
      (bytesToNat (t.take 4), t.drop 4)

/-- `vbEnc32`: array encoder.  Encodes every value with `vbPut32`; if that
saves fewer than 32 bytes over raw storage (`op + 32 > out + n*4`), it is
discarded for the escape form `0xFF` followed by the values as raw LE uint32s
(`copyU32ArrayToLe`). -/
def vbEnc32 (vals : List Nat) : List Nat :=
  let enc := (vals.map vbPut32).flatten
  if enc.length + 32 > 4 * vals.length then
    255 :: (vals.map (leBytes 4)).flatten
  else enc

/-- The `vbGet32Inline` loop of `vbDec32` (compressed branch). -/
def vbGetLoop : Nat → List Nat → List Nat × List Nat
  | 0, bs => ([], bs)
  | n + 1, bs =>
    let r := vbGet32 bs
    let rs := vbGetLoop n r.2
    (r.1 :: rs.1, rs.2)

/-- The raw branch of `vbDec32` (`copyU32ArrayFromLe`): read `n` LE uint32s. -/
def vbDecRaw : Nat → List Nat → List Nat × List Nat
  | 0, bs => ([], bs)
  | n + 1, bs =>
    let rs := vbDecRaw n (bs.drop 4)
    (bytesToNat (bs.take 4) :: rs.1, rs.2)

/-- `vbDec32`: array decoder, dispatching on the `0xFF` escape byte. -/
def vbDec32 (n : Nat) : List Nat → List Nat × List Nat
  | [] => vbGetLoop n []
  | b0 :: t => if b0 % 256 = 255 then vbDecRaw n t else vbGetLoop n (b0 :: t)

/-- `vbGet32` on a 1-byte (small value) head. -/
theorem vbGet32_case1 (b0 : Nat) (t : List Nat) (h : b0 % 256 < 156) :
    vbGet32 (b0 :: t) = (b0 % 256, t) := by
  simp only [vbGet32]
  rw [if_pos h]

/-- `vbGet32` on a 2-byte head. -/
theorem vbGet32_case2 (b0 b1 : Nat) (t : List Nat) (h1 : ¬ b0 % 256 < 156)
    (h2 : b0 % 256 < 220) :
    vbGet32 (b0 :: b1 :: t) = ((b0 % 256 - 156) * 256 + b1 % 256 + 156, t) := by
  simp only [vbGet32, List.headD_cons, List.tail_cons]
  rw [if_neg h1, if_pos h2]

/-- `vbGet32` on a 3-byte head. -/
theorem vbGet32_case3 (b0 b1 b2 : Nat) (t : List Nat) (h1 : ¬ b0 % 256 < 156)
    (h2 : ¬ b0 % 256 < 220) (h3 : b0 % 256 < 252) :
    vbGet32 (b0 :: b1 :: b2 :: t) =
      (b1 % 256 + 256 * (b2 % 256) + (b0 % 256 - 220) * 65536 + 16540, t) := by
  simp only [vbGet32, List.headD_cons, List.tail_cons]
  rw [if_neg h1, if_neg h2, if_pos h3]

/-- `vbGet32` on a `0xFC` head (3 LE data bytes; the fourth byte read by
`loadU32Fast` is masked away by `& 0xFFFFFF`). -/
theorem vbGet32_case4 (b1 b2 b3 : Nat) (t : List Nat) :
    vbGet32 (252 :: b1 :: b2 :: b3 :: t) =
      (b1 % 256 + 256 * (b2 % 256) + 65536 * (b3 % 256), t) := by
  simp only [vbGet32]
  have hm : ¬ (252 : Nat) % 256 < 156 := by omega
  have hm2 : ¬ (252 : Nat) % 256 < 220 := by omega
  have hm3 : ¬ (252 : Nat) % 256 < 252 := by omega
  rw [if_neg hm, if_neg hm2, if_neg hm3]
  simp only [if_true]
  refine Prod.ext ?_ ?_
  · show bytesToNat ((b1 :: b2 :: b3 :: t).take 4) % 16777216 = _
    cases t with
    | nil =>
      show bytesToNat [b1, b2, b3] % 16777216 = _
      simp only [bytesToNat]
      omega
    | cons r rs =>
      show bytesToNat [b1, b2, b3, r] % 16777216 = _
      simp only [bytesToNat]
      omega
  · rfl

/-- `vbGet32` on a `0xFD` head (4 LE data bytes). -/
theorem vbGet32_case5 (b1 b2 b3 b4 : Nat) (t : List Nat) :
    vbGet32 (253 :: b1 :: b2 :: b3 :: b4 :: t) =
      (b1 % 256 + 256 * (b2 % 256) + 65536 * (b3 % 256) + 16777216 * (b4 % 256), t) := by
  simp only [vbGet32]
  have hm : ¬ (253 : Nat) % 256 < 156 := by omega
  have hm2 : ¬ (253 : Nat) % 256 < 220 := by omega
  have hm3 : ¬ (253 : Nat) % 256 < 252 := by omega
  rw [if_neg hm, if_neg hm2, if_neg hm3, if_neg (by omega : ¬ (253 : Nat) % 256 = 252)]
  refine Prod.ext ?_ ?_
  · show bytesToNat [b1, b2, b3, b4] = _
    simp only [bytesToNat]
    ring
  · rfl

/-- Single-value round trip with the unread suffix preserved. -/
theorem vbGet32_vbPut32 (v : Nat) (hv : v < 4294967296) (rest : List Nat) :
    vbGet32 (vbPut32 v ++ rest) = (v, rest) := by
  by_cases h1 : v < 156
  · rw [vbPut32, if_pos h1]
    simp only [List.cons_append, List.nil_append]
    rw [vbGet32_case1 v rest (by omega), Nat.mod_eq_of_lt (by omega : v < 256)]
  · by_cases h2 : v < 16540
    · rw [vbPut32, if_neg h1, if_pos h2]
      simp only [List.cons_append, List.nil_append]
      have hd : (v - 156) / 256 < 64 := by omega
      rw [vbGet32_case2 _ _ rest
        (by rw [Nat.mod_eq_of_lt (by omega : 156 + (v - 156) / 256 < 256)]; omega)
        (by rw [Nat.mod_eq_of_lt (by omega : 156 + (v - 156) / 256 < 256)]; omega)]
      rw [Nat.mod_eq_of_lt (by omega : 156 + (v - 156) / 256 < 256)]
      have h6 : (156 + (v - 156) / 256 - 156) * 256 + (v - 156) % 256 % 256 + 156
          = v := by omega
      rw [h6]
    · by_cases h3 : v < 2113692
      · rw [vbPut32, if_neg h1, if_neg h2, if_pos h3]
        simp only [List.cons_append, List.nil_append]
        have hd : (v - 16540) / 65536 < 32 := by omega
        rw [vbGet32_case3 _ _ _ rest
          (by rw [Nat.mod_eq_of_lt (by omega : 220 + (v - 16540) / 65536 < 256)]; omega)
          (by rw [Nat.mod_eq_of_lt (by omega : 220 + (v - 16540) / 65536 < 256)]; omega)
          (by rw [Nat.mod_eq_of_lt (by omega : 220 + (v - 16540) / 65536 < 256)]; omega)]
        rw [Nat.mod_eq_of_lt (by omega : 220 + (v - 16540) / 65536 < 256)]
        have h7 : (v - 16540) % 256 % 256 + 256 * ((v - 16540) / 256 % 256 % 256) +
            (220 + (v - 16540) / 65536 - 220) * 65536 + 16540 = v := by omega
        rw [h7]
      · by_cases h4 : v ≤ 16777215
        · rw [vbPut32, if_neg h1, if_neg h2, if_neg h3, if_pos h4]
          simp only [List.cons_append, List.nil_append]
          rw [vbGet32_case4]
          have h8 : v % 256 % 256 + 256 * (v / 256 % 256 % 256) +
              65536 * (v / 65536 % 256 % 256) = v := by omega
          rw [h8]
        · rw [vbPut32, if_neg h1, if_neg h2, if_neg h3, if_neg h4]
          have hle : leBytes 4 v =
              [v % 256, v / 256 % 256, v / 65536 % 256, v / 16777216 % 256] := by
            simp only [leBytes]
            norm_num [Nat.div_div_eq_div_mul]
          rw [hle]
          simp only [List.cons_append, List.nil_append]
          rw [vbGet32_case5]
          have h9 : v % 256 % 256 + 256 * (v / 256 % 256 % 256) +
              65536 * (v / 65536 % 256 % 256) + 16777216 * (v / 16777216 % 256 % 256)
              = v := by omega
          rw [h9]

/-- `leBytes 3` spelled out (the three data bytes of the `0xFC` form). -/
theorem leBytes_three (v : Nat) :
    leBytes 3 v = [v % 256, v / 256 % 256, v / 65536 % 256] := by
  simp only [leBytes]
  rw [Nat.div_div_eq_div_mul]

/-- `leBytes 4` spelled out (the four data bytes of the `0xFD` form). -/
theorem leBytes_four (v : Nat) :
    leBytes 4 v = [v % 256, v / 256 % 256, v / 65536 % 256, v / 16777216 % 256] := by
  simp only [leBytes, Nat.div_div_eq_div_mul]

theorem vbPut32_ne_nil (v : Nat) : vbPut32 v ≠ [] := by
  by_cases h1 : v < 156
  · rw [vbPut32, if_pos h1]; simp
  · by_cases h2 : v < 16540
    · rw [vbPut32, if_neg h1, if_pos h2]; simp
    · by_cases h3 : v < 2113692
      · rw [vbPut32, if_neg h1, if_neg h2, if_pos h3]; simp
      · by_cases h4 : v ≤ 16777215
        · rw [vbPut32, if_neg h1, if_neg h2, if_neg h3, if_pos h4]; simp
        · rw [vbPut32, if_neg h1, if_neg h2, if_neg h3, if_neg h4]; simp

/-- Case analysis of `vbPut32`: the five magnitude classes with their
encodings spelled out. -/
theorem vbPut32_eq_cases (v : Nat) :
    (v < 156 ∧ vbPut32 v = [v]) ∨
    (156 ≤ v ∧ v < 16540 ∧ vbPut32 v = [156 + (v - 156) / 256, (v - 156) % 256]) ∨
    (16540 ≤ v ∧ v < 2113692 ∧
      vbPut32 v = [220 + (v - 16540) / 65536, (v - 16540) % 256,
        (v - 16540) / 256 % 256]) ∨
    (2113692 ≤ v ∧ v < 16777216 ∧
      vbPut32 v = [252, v % 256, v / 256 % 256, v / 65536 % 256]) ∨
    (16777216 ≤ v ∧ vbPut32 v = 253 :: leBytes 4 v) := by
  by_cases h1 : v < 156
  · exact Or.inl ⟨h1, by rw [vbPut32, if_pos h1]⟩
  · by_cases h2 : v < 16540
    · exact Or.inr (Or.inl ⟨by omega, h2, by rw [vbPut32, if_neg h1, if_pos h2]⟩)
    · by_cases h3 : v < 2113692
      · exact Or.inr (Or.inr (Or.inl ⟨by omega, h3,
          by rw [vbPut32, if_neg h1, if_neg h2, if_pos h3]⟩))
      · by_cases h4 : v ≤ 16777215
        · exact Or.inr (Or.inr (Or.inr (Or.inl ⟨by omega, by omega,
            by rw [vbPut32, if_neg h1, if_neg h2, if_neg h3, if_pos h4]⟩)))
        · exact Or.inr (Or.inr (Or.inr (Or.inr ⟨by omega,
            by rw [vbPut32, if_neg h1, if_neg h2, if_neg h3, if_neg h4]⟩)))

theorem vbPut32_length_class1 (v : Nat) (hv : v < 4294967296) :
    (vbPut32 v).length = 1 ↔ v < 156 := by
  rcases vbPut32_eq_cases v with ⟨h, he⟩ | ⟨h, h2, he⟩ | ⟨h, h2, he⟩ | ⟨h, h2, he⟩ |
    ⟨h, he⟩
  · rw [he]; exact iff_of_true rfl h
  · rw [he]; exact iff_of_false (show ¬ (2 : Nat) = 1 by decide) (by omega)
  · rw [he]; exact iff_of_false (show ¬ (3 : Nat) = 1 by decide) (by omega)
  · rw [he]; exact iff_of_false (show ¬ (4 : Nat) = 1 by decide) (by omega)
  · rw [he, leBytes_four]; exact iff_of_false (show ¬ (5 : Nat) = 1 by decide) (by omega)

theorem vbPut32_length_class2 (v : Nat) (hv : v < 4294967296) :
    (vbPut32 v).length = 2 ↔ 156 ≤ v ∧ v < 16540 := by
  rcases vbPut32_eq_cases v with ⟨h, he⟩ | ⟨h, h2, he⟩ | ⟨h, h2, he⟩ | ⟨h, h2, he⟩ |
    ⟨h, he⟩
  · rw [he]; exact iff_of_false (show ¬ (1 : Nat) = 2 by decide) (by omega)
  · rw [he]; exact iff_of_true rfl ⟨h, h2⟩
  · rw [he]; exact iff_of_false (show ¬ (3 : Nat) = 2 by decide) (by omega)
  · rw [he]; exact iff_of_false (show ¬ (4 : Nat) = 2 by decide) (by omega)
  · rw [he, leBytes_four]; exact iff_of_false (show ¬ (5 : Nat) = 2 by decide) (by omega)

theorem vbPut32_length_class3 (v : Nat) (hv : v < 4294967296) :
    (vbPut32 v).length = 3 ↔ 16540 ≤ v ∧ v < 2113692 := by
  rcases vbPut32_eq_cases v with ⟨h, he⟩ | ⟨h, h2, he⟩ | ⟨h, h2, he⟩ | ⟨h, h2, he⟩ |
    ⟨h, he⟩
  · rw [he]; exact iff_of_false (show ¬ (1 : Nat) = 3 by decide) (by omega)
  · rw [he]; exact iff_of_false (show ¬ (2 : Nat) = 3 by decide) (by omega)
  · rw [he]; exact iff_of_true rfl ⟨h, h2⟩
  · rw [he]; exact iff_of_false (show ¬ (4 : Nat) = 3 by decide) (by omega)
  · rw [he, leBytes_four]; exact iff_of_false (show ¬ (5 : Nat) = 3 by decide) (by omega)

theorem vbPut32_length_class4 (v : Nat) (hv : v < 4294967296) :
    (vbPut32 v).length = 4 ↔ 2113692 ≤ v ∧ v < 16777216 := by
  rcases vbPut32_eq_cases v with ⟨h, he⟩ | ⟨h, h2, he⟩ | ⟨h, h2, he⟩ | ⟨h, h2, he⟩ |
    ⟨h, he⟩
  · rw [he]; exact iff_of_false (show ¬ (1 : Nat) = 4 by decide) (by omega)
  · rw [he]; exact iff_of_false (show ¬ (2 : Nat) = 4 by decide) (by omega)
  · rw [he]; exact iff_of_false (show ¬ (3 : Nat) = 4 by decide) (by omega)
  · rw [he]; exact iff_of_true rfl ⟨h, h2⟩
  · rw [he, leBytes_four]; exact iff_of_false (show ¬ (5 : Nat) = 4 by decide) (by omega)

theorem vbPut32_length_class5 (v : Nat) (hv : v < 4294967296) :
    (vbPut32 v).length = 5 ↔ 16777216 ≤ v := by
  rcases vbPut32_eq_cases v with ⟨h, he⟩ | ⟨h, h2, he⟩ | ⟨h, h2, he⟩ | ⟨h, h2, he⟩ |
    ⟨h, he⟩
  · rw [he]; exact iff_of_false (show ¬ (1 : Nat) = 5 by decide) (by omega)
  · rw [he]; exact iff_of_false (show ¬ (2 : Nat) = 5 by decide) (by omega)
  · rw [he]; exact iff_of_false (show ¬ (3 : Nat) = 5 by decide) (by omega)
  · rw [he]; exact iff_of_false (show ¬ (4 : Nat) = 5 by decide) (by omega)
  · rw [he, leBytes_four]; exact iff_of_true rfl h

theorem vbPut32_of_class1 (v : Nat) (h : v < 156) : vbPut32 v = [v] := by
  rw [vbPut32, if_pos h]

theorem vbPut32_head_class2 (v : Nat) (h : 156 ≤ v) (h2 : v < 16540) :
    (vbPut32 v).headD 0 = 156 + (v - 156) / 256 ∧
      156 ≤ (vbPut32 v).headD 0 ∧ (vbPut32 v).headD 0 ≤ 219 := by
  rw [vbPut32, if_neg (by omega), if_pos h2, List.headD_cons]
  refine ⟨rfl, by omega, by omega⟩

theorem vbPut32_head_class3 (v : Nat) (h : 16540 ≤ v) (h2 : v < 2113692) :
    (vbPut32 v).headD 0 = 220 + (v - 16540) / 65536 ∧
      220 ≤ (vbPut32 v).headD 0 ∧ (vbPut32 v).headD 0 ≤ 251 := by
  rw [vbPut32, if_neg (by omega), if_neg (by omega), if_pos h2, List.headD_cons]
  refine ⟨rfl, by omega, by omega⟩

theorem vbPut32_of_class4 (v : Nat) (h : 2113692 ≤ v) (h2 : v < 16777216) :
    vbPut32 v = 252 :: leBytes 3 v := by
  rw [vbPut32, if_neg (by omega), if_neg (by omega), if_neg (by omega),
    if_pos (by omega), leBytes_three]

theorem vbPut32_of_class5 (v : Nat) (h : 16777216 ≤ v) :
    vbPut32 v = 253 :: leBytes 4 v := by
  rw [vbPut32, if_neg (by omega), if_neg (by omega), if_neg (by omega),
    if_neg (by omega)]

/-- Every first byte written by `vbPut32` is at most `0xFD = 253`; in
particular it never collides with the `0xFF` escape marker of `vbEnc32`. -/
theorem vbPut32_head_le (v : Nat) (hv : v < 4294967296) :
    (vbPut32 v).headD 0 ≤ 253 := by
  by_cases h1 : v < 156
  · rw [vbPut32, if_pos h1, List.headD_cons]
    omega
  · by_cases h2 : v < 16540
    · rw [vbPut32, if_neg h1, if_pos h2, List.headD_cons]
      omega
    · by_cases h3 : v < 2113692
      · rw [vbPut32, if_neg h1, if_neg h2, if_pos h3, List.headD_cons]
        omega
      · by_cases h4 : v ≤ 16777215
        · rw [vbPut32, if_neg h1, if_neg h2, if_neg h3, if_pos h4, List.headD_cons]
          omega
        · rw [vbPut32, if_neg h1, if_neg h2, if_neg h3, if_neg h4, List.headD_cons]

theorem vbGetLoop_flatten (vals : List Nat) (h : ∀ v ∈ vals, v < 4294967296)
    (rest : List Nat) :
    vbGetLoop vals.length ((vals.map vbPut32).flatten ++ rest) = (vals, rest) := by
  induction vals with
  | nil => simp [vbGetLoop]
  | cons v vs ih =>
    simp only [List.map_cons, List.flatten_cons, List.append_assoc, List.length_cons]
    simp only [vbGetLoop]
    rw [vbGet32_vbPut32 v (h v (List.mem_cons_self v vs)) _]
    rw [ih (fun x hx => h x (List.mem_cons_of_mem v hx))]

theorem vbDecRaw_reads (vals : List Nat) (h : ∀ v ∈ vals, v < 4294967296)
    (rest : List Nat) :
    vbDecRaw vals.length ((vals.map (leBytes 4)).flatten ++ rest) = (vals, rest) := by
  induction vals with
  | nil => simp [vbDecRaw]
  | cons v vs ih =>
    simp only [List.map_cons, List.flatten_cons, List.append_assoc, List.length_cons]
    simp only [vbDecRaw]
    have hlen : (leBytes 4 v).length = 4 := leBytes_length 4 v
    rw [List.take_left' hlen, List.drop_left' hlen]
    rw [ih (fun x hx => h x (List.mem_cons_of_mem v hx))]
    rw [leBytes_append_eq 4 v (by
      have hx : (256 : Nat) ^ 4 = 4294967296 := by norm_num
      have := h v (List.mem_cons_self v vs)
      omega)]

/-- The non-escape branch of `vbDec32`. -/
theorem vbDec32_not_escape (n b0 : Nat) (t : List Nat) (h : ¬ b0 % 256 = 255) :
    vbDec32 n (b0 :: t) = vbGetLoop n (b0 :: t) := by
  simp only [vbDec32]
  rw [if_neg h]

/-- The escape branch of `vbDec32`. -/
theorem vbDec32_escape (n : Nat) (t : List Nat) :
    vbDec32 n (255 :: t) = vbDecRaw n t := by
  simp only [vbDec32]
  rw [if_pos (by norm_num)]

/-- **C6.** The array-level vbyte encoder emits the escape form (`0xFF`
followed by the `n` values as raw LE uint32s) exactly when the per-value
encoding of the whole array is longer than `4n - 32` bytes (the code's
condition `op + 32 > out + n*4`), and otherwise returns the per-value
encoding; `vbDec32` reads back whichever form the first byte indicates,
recovering the array and leaving the rest of the input untouched. -/
theorem claim_C6_vbyte_escape (vals rest : List Nat)
    (h : ∀ v ∈ vals, v < 4294967296) :
    ((vbEnc32 vals).headD 0 = 255 ↔
      (vals.map vbPut32).flatten.length + 32 > 4 * vals.length) ∧
    ((vals.map vbPut32).flatten.length + 32 > 4 * vals.length →
      vbEnc32 vals = 255 :: (vals.map (leBytes 4)).flatten) ∧
    (¬ (vals.map vbPut32).flatten.length + 32 > 4 * vals.length →
      vbEnc32 vals = (vals.map vbPut32).flatten) ∧
    vbDec32 vals.length (vbEnc32 vals ++ rest) = (vals, rest) := by
  by_cases hesc : (vals.map vbPut32).flatten.length + 32 > 4 * vals.length
  · have henc : vbEnc32 vals = 255 :: (vals.map (leBytes 4)).flatten := by
      unfold vbEnc32
      rw [if_pos hesc]
    refine ⟨?_, fun _ => henc, fun hc => absurd hesc hc, ?_⟩
    · rw [henc]
      exact iff_of_true rfl hesc
    · rw [henc]
      show vbDec32 vals.length (255 :: ((vals.map (leBytes 4)).flatten ++ rest))
        = (vals, rest)
      rw [vbDec32_escape]
      exact vbDecRaw_reads vals h rest
  · have henc : vbEnc32 vals = (vals.map vbPut32).flatten := by
      unfold vbEnc32
      rw [if_neg hesc]
    have hne : vals ≠ [] := by
      intro hnil
      rw [hnil] at hesc
      simp at hesc
    obtain ⟨v0, vs, rfl⟩ := List.exists_cons_of_ne_nil hne
    have hv0 : v0 < 4294967296 := h v0 (List.mem_cons_self v0 vs)
    obtain ⟨b0, bt, hb⟩ := List.exists_cons_of_ne_nil (vbPut32_ne_nil v0)
    have hhead : (vbPut32 v0).headD 0 ≤ 253 := vbPut32_head_le v0 hv0
    rw [hb] at hhead
    simp only [List.headD_cons] at hhead
    have hflat : ((v0 :: vs).map vbPut32).flatten
        = b0 :: (bt ++ (vs.map vbPut32).flatten) := by
      simp [hb]
    refine ⟨?_, fun hc => absurd hc hesc, fun _ => henc, ?_⟩
    · have hesc2 := hesc
      rw [hflat] at hesc2
      rw [henc, hflat]
      simp only [List.headD_cons]
      exact iff_of_false (by omega) hesc2
    · have hloop := vbGetLoop_flatten (v0 :: vs) h rest
      rw [henc, hflat]
      show vbDec32 (v0 :: vs).length (b0 :: (bt ++ (vs.map vbPut32).flatten ++ rest))
        = (v0 :: vs, rest)
      rw [vbDec32_not_escape _ _ _ (by omega)]
      rw [hflat] at hloop
      simpa using hloop

/-- **C7.** The single-value vbyte codec realizes the magnitude-class table:
1 byte with first byte `0x00..0x9B` for `v < 156`; 2 bytes with first byte
`0x9C..0xDB` carrying `(v-156) >> 8` for `v < 16540`; 3 bytes with first byte
`0xDC..0xFB` carrying `(v-16540) >> 16` for `v < 2113692`; marker `0xFC` plus
3 LE data bytes for `v < 2^24`; marker `0xFD` plus 4 LE data bytes otherwise —
and `vbGet32` inverts `vbPut32` on every uint32, preserving the suffix.
The five ranges partition `[0, 2^32)`, so each implication is an equivalence. -/
theorem claim_C7_vbyte_single (v : Nat) (hv : v < 4294967296) (rest : List Nat) :
    ((vbPut32 v).length = 1 ↔ v < 156) ∧
    ((vbPut32 v).length = 2 ↔ 156 ≤ v ∧ v < 16540) ∧
    ((vbPut32 v).length = 3 ↔ 16540 ≤ v ∧ v < 2113692) ∧
    ((vbPut32 v).length = 4 ↔ 2113692 ≤ v ∧ v < 16777216) ∧
    ((vbPut32 v).length = 5 ↔ 16777216 ≤ v) ∧
    (v < 156 → vbPut32 v = [v]) ∧
    (156 ≤ v → v < 16540 →
      (vbPut32 v).headD 0 = 156 + (v - 156) / 256 ∧ 156 ≤ (vbPut32 v).headD 0 ∧
        (vbPut32 v).headD 0 ≤ 219) ∧
    (16540 ≤ v → v < 2113692 →
      (vbPut32 v).headD 0 = 220 + (v - 16540) / 65536 ∧ 220 ≤ (vbPut32 v).headD 0 ∧
        (vbPut32 v).headD 0 ≤ 251) ∧
    (2113692 ≤ v → v < 16777216 → vbPut32 v = 252 :: leBytes 3 v) ∧
    (16777216 ≤ v → vbPut32 v = 253 :: leBytes 4 v) ∧
    vbGet32 (vbPut32 v ++ rest) = (v, rest) :=
  ⟨vbPut32_length_class1 v hv, vbPut32_length_class2 v hv, vbPut32_length_class3 v hv,
    vbPut32_length_class4 v hv, vbPut32_length_class5 v hv, vbPut32_of_class1 v,
    vbPut32_head_class2 v, vbPut32_head_class3 v, vbPut32_of_class4 v,
    vbPut32_of_class5 v, vbGet32_vbPut32 v hv rest⟩

theorem claim_C7_vbyte_single_witness :
    (300 : Nat) < 4294967296 ∧
      (((vbPut32 300).length = 1 ↔ (300 : Nat) < 156) ∧
      ((vbPut32 300).length = 2 ↔ 156 ≤ 300 ∧ (300 : Nat) < 16540) ∧
      ((vbPut32 300).length = 3 ↔ 16540 ≤ 300 ∧ (300 : Nat) < 2113692) ∧
      ((vbPut32 300).length = 4 ↔ 2113692 ≤ 300 ∧ (300 : Nat) < 16777216) ∧
      ((vbPut32 300).length = 5 ↔ 16777216 ≤ 300) ∧
      ((300 : Nat) < 156 → vbPut32 300 = [300]) ∧
      ((156 : Nat) ≤ 300 → (300 : Nat) < 16540 →
        (vbPut32 300).headD 0 = 156 + (300 - 156) / 256 ∧
          156 ≤ (vbPut32 300).headD 0 ∧ (vbPut32 300).headD 0 ≤ 219) ∧
      ((16540 : Nat) ≤ 300 → (300 : Nat) < 2113692 →
        (vbPut32 300).headD 0 = 220 + (300 - 16540) / 65536 ∧
          220 ≤ (vbPut32 300).headD 0 ∧ (vbPut32 300).headD 0 ≤ 251) ∧
      ((2113692 : Nat) ≤ 300 → (300 : Nat) < 16777216 →
        vbPut32 300 = 252 :: leBytes 3 300) ∧
      ((16777216 : Nat) ≤ 300 → vbPut32 300 = 253 :: leBytes 4 300) ∧
      vbGet32 (vbPut32 300 ++ [9, 9]) = (300, [9, 9])) :=
  ⟨by decide, claim_C7_vbyte_single 300 (by decide) [9, 9]⟩

theorem claim_C6_vbyte_escape_witness :
    (∀ v ∈ [1000, 2000, 3000], v < 4294967296) ∧
      (((vbEnc32 [1000, 2000, 3000]).headD 0 = 255 ↔
        (([1000, 2000, 3000].map vbPut32).flatten.length + 32 >
          4 * ([1000, 2000, 3000] : List Nat).length)) ∧
      (([1000, 2000, 3000].map vbPut32).flatten.length + 32 >
          4 * ([1000, 2000, 3000] : List Nat).length →
        vbEnc32 [1000, 2000, 3000] = 255 :: ([1000, 2000, 3000].map (leBytes 4)).flatten) ∧
      (¬ ([1000, 2000, 3000].map vbPut32).flatten.length + 32 >
          4 * ([1000, 2000, 3000] : List Nat).length →
        vbEnc32 [1000, 2000, 3000] = ([1000, 2000, 3000].map vbPut32).flatten) ∧
      vbDec32 ([1000, 2000, 3000] : List Nat).length (vbEnc32 [1000, 2000, 3000] ++ [4])
        = ([1000, 2000, 3000], [4])) :=
  ⟨by decide, claim_C6_vbyte_escape [1000, 2000, 3000] [4] (by decide)⟩

/-! ## Horizontal bit-packing (`bitpack32Scalar` / `bitunpack32Scalar` /
`bitunpackd1_32Scalar`, from `p4_scalar_bitpack_impl.h`,
`p4_scalar_bitunpack_impl.h` (`src/unnamed/part_008`) and their thin wrappers).

The template kernels process the input in 32-value chunks and, inside each
chunk, in sub-blocks of `choose_block_size(b, n)` values.  Every sub-block
except possibly the final one ends on a byte boundary (`(k*b) % 8 == 0`, see
`chooseBlockSize_spec` below), and a sub-block of `K` values writes exactly
`⌈K·b/8⌉` bytes in which value `I` occupies bits `[I·b, (I+1)·b)`
(`pack_one`: `w[wi] |= v << sh` with the `sh + B > 64` spill into `w[wi+1]`).
The concatenated output is therefore the little-endian bitstream in which
value `i` of the whole block occupies bits `[i·b, (i+1)·b)`, which is what
`bitpack32Scalar` below produces.  All call sites supply values below `2^b`
(base values are masked with `(1<<b)-1`, exception high bits are bounded by
the analyzer), where the kernel's bitwise OR agrees with the addition used
here; `packNat` masks each value to its low `b` bits to stay total. -/

/-- The packed bitstream of a value list at width `b`: value `i` occupies
bits `[i·b, (i+1)·b)`. -/
def packNat (b : Nat) : List Nat → Nat
  | [] => 0
  | v :: vs => v % 2 ^ b + 2 ^ b * packNat b vs

/-- `choose_block_size` from `p4_scalar_bitunpack_impl.h`: the `while`
loop shrinking `k` below `n`.  `k` halves each step, so 64 fuel covers every
starting value `k ≤ 64`. -/
def cbsShrink (n : Nat) : Nat → Nat → Nat
  | 0, k => k
  | fuel + 1, k => if 1 < k ∧ n < k then cbsShrink n fuel (k / 2) else k

/-- `choose_block_size`: the `for(;;)` halving search. -/
def cbsLoop (b n maxWords : Nat) : Nat → Nat → Nat
  | 0, _ => n
  | fuel + 1, k =>
    if (k * b + 63) / 64 ≤ maxWords ∧ k * b % 8 = 0 then k
    else if k ≤ 1 then n
    else cbsLoop b n maxWords fuel (k / 2)

/-- `choose_block_size(b, n)` from `p4_scalar_bitunpack_impl.h`. -/
def chooseBlockSize (b n : Nat) : Nat :=
  if n = 0 then 0
  else
    let g := Nat.gcd 64 b
    let period := 64 / g
    let maxWords := if g ≤ 2 then 12 else 16
    let k0 := cbsShrink n 64 period
    let k1 := if n < k0 then 1 else k0
    cbsLoop b n maxWords 64 k1

/-- Byte alignment of the kernel's sub-block decomposition, for every width
`b ∈ [1, 32]` and count `n ∈ [1, 32]`: the chosen sub-block is in `[1, n]`,
and either covers all of `n` (it is then the final sub-block) or ends on a
byte boundary.  This is the fact that lets `bitpack32Scalar` describe the
concatenated sub-block output as one little-endian bitstream. -/
theorem chooseBlockSize_spec : ((List.range 32).all fun b =>
    (List.range 32).all fun n =>
      decide (1 ≤ chooseBlockSize (b + 1) (n + 1)) &&
        decide (chooseBlockSize (b + 1) (n + 1) ≤ n + 1) &&
        (chooseBlockSize (b + 1) (n + 1) = n + 1 ||
          decide (chooseBlockSize (b + 1) (n + 1) * (b + 1) % 8 = 0))) = true := by
  decide

/-- Little-endian byte-stream packing with truncation to `⌈n·b/8⌉` bytes
(`pack_block` stores `total_bytes = (K*B + 7) / 8` bytes of the word array). -/
def bitpack32Scalar (b : Nat) (vals : List Nat) : List Nat :=
  leBytes (pad8 (vals.length * b)) (packNat b vals)

/-- `bitunpack32Scalar`: value `i` is `(stream >> (i*b)) & ((1<<b)-1)`
(`unpack_emit_one`), the stream being the first `⌈n·b/8⌉` input bytes.
`b = 0` yields zeros (the `dispatch` special case). -/
def bitunpack32Scalar (n b : Nat) (bs : List Nat) : List Nat :=
  (List.range n).map (fun i => bytesToNat (bs.take (pad8 (n * b))) / 2 ^ (i * b) % 2 ^ b)

/-- The running delta1 accumulator of the fused decoders:
`out[i] = (acc += d) + (i + 1)` in uint32 arithmetic. -/
def d1go (acc i : Nat) : List Nat → List Nat
  | [] => []
  | d :: ds =>
    ((acc + d) % 4294967296 + i + 1) % 4294967296 ::
      d1go ((acc + d) % 4294967296) (i + 1) ds

/-- Delta1 reconstruction pass (`apply_delta1` / the fused stores). -/
def d1scan (start : Nat) (ds : List Nat) : List Nat := d1go start 0 ds

/-- `bitunpackd1_32Scalar`: fused unpack + delta1
(`Bitunpack32ScalarImpl<true>`); semantically unpack then scan. -/
def bitunpackd1_32Scalar (n b : Nat) (bs : List Nat) (start : Nat) : List Nat :=
  d1scan start (bitunpack32Scalar n b bs)

/-- The delta1 transform of the claims: `d[i] = x[i] - x[i-1] - 1` with
wrap-around, `x[-1] = prev`. -/
def delta1of (prev : Nat) : List Nat → List Nat
  | [] => []
  | x :: xs => (x % 4294967296 + 4294967296 - prev % 4294967296 - 1) % 4294967296 ::
      delta1of x xs

theorem packNat_lt (b : Nat) (vals : List Nat) :
    packNat b vals < 2 ^ (vals.length * b) := by
  induction vals with
  | nil => simp [packNat]
  | cons v vs ih =>
    show v % 2 ^ b + 2 ^ b * packNat b vs < 2 ^ ((vs.length + 1) * b)
    have h1 : v % 2 ^ b < 2 ^ b := Nat.mod_lt _ (Nat.pos_pow_of_pos b (by omega))
    have h2 : 2 ^ ((vs.length + 1) * b) = 2 ^ b * 2 ^ (vs.length * b) := by
      rw [← pow_add]
      ring_nf
    rw [h2]
    calc v % 2 ^ b + 2 ^ b * packNat b vs
        < 2 ^ b + 2 ^ b * packNat b vs := by omega
      _ ≤ 2 ^ b * (packNat b vs + 1) := by ring_nf; omega
      _ ≤ 2 ^ b * 2 ^ (vs.length * b) := Nat.mul_le_mul_left _ (by omega)

theorem packNat_extract (b : Nat) (vals : List Nat) (h : ∀ v ∈ vals, v < 2 ^ b)
    (i : Nat) (hi : i < vals.length) :
    packNat b vals / 2 ^ (i * b) % 2 ^ b = vals.getD i 0 := by
  induction vals generalizing i with
  | nil => simp at hi
  | cons v vs ih =>
    have hpos : 0 < 2 ^ b := Nat.pos_pow_of_pos b (by omega)
    have hv : v < 2 ^ b := h v (List.mem_cons_self v vs)
    cases i with
    | zero =>
      rw [Nat.zero_mul]
      show (v % 2 ^ b + 2 ^ b * packNat b vs) / 2 ^ 0 % 2 ^ b = v
      rw [pow_zero, Nat.div_one, Nat.add_mul_mod_self_left,
        Nat.mod_eq_of_lt hv, Nat.mod_eq_of_lt hv]
    | succ j =>
      show (v % 2 ^ b + 2 ^ b * packNat b vs) / 2 ^ ((j + 1) * b) % 2 ^ b
        = (v :: vs).getD (j + 1) 0
      have hsplit : 2 ^ ((j + 1) * b) = 2 ^ b * 2 ^ (j * b) := by
        rw [← pow_add]
        ring_nf
      rw [hsplit, ← Nat.div_div_eq_div_mul]
      have hdiv : (v % 2 ^ b + 2 ^ b * packNat b vs) / 2 ^ b = packNat b vs := by
        rw [Nat.add_mul_div_left _ _ hpos, Nat.div_eq_of_lt (Nat.mod_lt _ hpos)]
        omega
      rw [hdiv]
      show packNat b vs / 2 ^ (j * b) % 2 ^ b = vs.getD j 0
      exact ih (fun x hx => h x (List.mem_cons_of_mem v hx)) j (by
        simp only [List.length_cons] at hi
        omega)

theorem bitpack32Scalar_length (b : Nat) (vals : List Nat) :
    (bitpack32Scalar b vals).length = pad8 (vals.length * b) :=
  leBytes_length _ _

/-- Horizontal pack/unpack round trip on in-range values, with the unread
suffix ignored. -/
theorem bitunpack_bitpack32 (b : Nat) (vals rest : List Nat)
    (h : ∀ v ∈ vals, v < 2 ^ b) :
    bitunpack32Scalar vals.length b (bitpack32Scalar b vals ++ rest) = vals := by
  unfold bitunpack32Scalar bitpack32Scalar
  have hlen : (leBytes (pad8 (vals.length * b)) (packNat b vals)).length
      = pad8 (vals.length * b) := leBytes_length _ _
  rw [List.take_left' hlen]
  have hlt : packNat b vals < 256 ^ pad8 (vals.length * b) := by
    have h1 := packNat_lt b vals
    have h2 : (256 : Nat) ^ pad8 (vals.length * b) = 2 ^ (8 * pad8 (vals.length * b)) := by
      rw [show (256 : Nat) = 2 ^ 8 by norm_num, ← pow_mul]
    have h3 : vals.length * b ≤ 8 * pad8 (vals.length * b) := by
      unfold pad8
      omega
    rw [h2]
    exact lt_of_lt_of_le h1 (Nat.pow_le_pow_right (by omega) h3)
  rw [leBytes_append_eq _ _ hlt]
  apply List.ext_getElem
  · simp
  · intro i h1 h2
    have hi : i < vals.length := by simpa using h2
    have hr : i < (List.range vals.length).length := by simpa using hi
    rw [List.getElem_map]
    rw [List.getElem_range]
    have := packNat_extract b vals h i hi
    rw [List.getD_eq_getElem vals 0 hi] at this
    exact this

/-- Unpacking consumes `⌈n·b/8⌉` bytes: dropping them exposes the suffix. -/
theorem bitpack32Scalar_drop (b : Nat) (vals rest : List Nat) :
    (bitpack32Scalar b vals ++ rest).drop (pad8 (vals.length * b)) = rest :=
  List.drop_left' (bitpack32Scalar_length b vals)

/-- The fused delta1 scan inverts the delta1 transform: running the decoder
accumulator over `delta1of prev X` restores `X`, provided the accumulator
state matches `prev` modulo `2^32` and all entries of `X` are uint32s. -/
theorem d1go_delta1of (X : List Nat) (prev acc i : Nat)
    (hX : ∀ x ∈ X, x < 4294967296)
    (hinv : (acc + i) % 4294967296 = prev % 4294967296) :
    d1go acc i (delta1of prev X) = X := by
  induction X generalizing prev acc i with
  | nil => rfl
  | cons x xs ih =>
    have hx : x < 4294967296 := hX x (List.mem_cons_self x xs)
    show ((acc + (x % 4294967296 + 4294967296 - prev % 4294967296 - 1) % 4294967296)
          % 4294967296 + i + 1) % 4294967296 ::
        d1go ((acc + (x % 4294967296 + 4294967296 - prev % 4294967296 - 1) % 4294967296)
          % 4294967296) (i + 1) (delta1of x xs) = x :: xs
    congr 1
    · omega
    · exact ih x _ (i + 1) (fun y hy => hX y (List.mem_cons_of_mem x hy)) (by omega)

/-- All-zero deltas decode to the arithmetic progression
`acc+i+1, acc+i+2, …` modulo `2^32`. -/
theorem d1go_zeros (n acc i : Nat) :
    d1go acc i (List.replicate n 0) =
      (List.range n).map (fun j => (acc + i + j + 1) % 4294967296) := by
  induction n generalizing acc i with
  | zero => rfl
  | succ m ih =>
    show ((acc + 0) % 4294967296 + i + 1) % 4294967296 ::
        d1go ((acc + 0) % 4294967296) (i + 1) (List.replicate m 0) = _
    rw [ih, List.range_succ_eq_map, List.map_cons, List.map_map]
    congr 1
    · omega
    · apply List.map_congr_left
      intro j hj
      show ((acc + 0) % 4294967296 + (i + 1) + j + 1) % 4294967296
        = (acc + i + (j + 1) + 1) % 4294967296
      omega

/-! ## Vertical lane-interleaved bit-packing

`bitpack128v32Scalar` / `bitunpack128v32Scalar` (from `src/unnamed/part_005`)
and `bitpack256v32Scalar` / `bitunpack256v32Scalar` (from
`bitpack256v32_scalar.cpp`): identical structure with `L = 4` resp. `L = 8`
lanes.  The encoder walks 32 groups of `L` consecutive values; value
`g·L + l` goes to lane `l`, masked to `b` bits, and is appended to that
lane's 32-bit accumulator; whenever the accumulators fill, one row of `L`
32-bit little-endian words (all lanes' current words) is stored.  Per lane
this emits the little-endian bitstream of its 32 values — `b` words of 32
bits — interleaved row-major across lanes.  `b = 0` emits nothing, and the
`b = 32` plain-copy special case coincides with the same formula.
`packVAux` emits the rows in exactly that order: the low 32-bit word of
every lane's remaining stream, then recursively the shifted-down
remainders. -/

/-- Lane `l` of a vertical block: values `l, l+L, l+2·L, …` (32 groups). -/
def laneVals (L l : Nat) (vals : List Nat) : List Nat :=
  (List.range 32).map (fun g => vals.getD (g * L + l) 0)

/-- Row-major emission of `c` 32-bit rows from the per-lane bitstreams. -/
def packVAux (streams : List Nat) : Nat → List Nat
  | 0 => []
  | c + 1 =>
    streams.flatMap (fun s => leBytes 4 (s % 4294967296)) ++
      packVAux (streams.map (fun s => s / 4294967296)) c

/-- Vertical pack with `L` lanes at width `b`. -/
def packVGen (L b : Nat) (vals : List Nat) : List Nat :=
  packVAux ((List.range L).map (fun l => packNat b (laneVals L l vals))) b

/-- Lane `l`'s packed bitstream, reassembled from `c` interleaved rows
(the decoder's 32-bit word loads at offsets `4·(r·L + l)`). -/
def laneStreamRec (L l : Nat) (bs : List Nat) : Nat → Nat
  | 0 => 0
  | c + 1 =>
    bytesToNat ((bs.drop (4 * l)).take 4) +
      4294967296 * laneStreamRec L l (bs.drop (4 * L)) c

/-- Vertical unpack with `L` lanes at width `b`: value `i` is bits
`[(i/L)·b, (i/L)·b + b)` of lane `i % L`'s stream (the decoder's
shift/mask extraction with the cross-word OR). -/
def unpackVGen (L b : Nat) (bs : List Nat) : List Nat :=
  (List.range (32 * L)).map
    (fun i => laneStreamRec L (i % L) bs b / 2 ^ (i / L * b) % 2 ^ b)

/-- `bitpack128v32Scalar` (4 lanes). -/
def bitpack128v32Scalar (b : Nat) (vals : List Nat) : List Nat := packVGen 4 b vals

/-- `bitunpack128v32Scalar` (4 lanes). -/
def bitunpack128v32Scalar (b : Nat) (bs : List Nat) : List Nat := unpackVGen 4 b bs

/-- `bitpack256v32Scalar` (8 lanes). -/
def bitpack256v32Scalar (b : Nat) (vals : List Nat) : List Nat := packVGen 8 b vals

/-- `bitunpack256v32Scalar` (8 lanes). -/
def bitunpack256v32Scalar (b : Nat) (bs : List Nat) : List Nat := unpackVGen 8 b bs

theorem flatMapRow_length (streams : List Nat) :
    (streams.flatMap (fun s => leBytes 4 (s % 4294967296))).length
      = 4 * streams.length := by
  induction streams with
  | nil => rfl
  | cons s ss ih =>
    show (leBytes 4 (s % 4294967296) ++
      ss.flatMap (fun s => leBytes 4 (s % 4294967296))).length = _
    rw [List.length_append, leBytes_length, ih, List.length_cons]
    ring

theorem packVAux_length (streams : List Nat) (c : Nat) :
    (packVAux streams c).length = c * (4 * streams.length) := by
  induction c generalizing streams with
  | zero =>
    rw [Nat.zero_mul]
    rfl
  | succ m ih =>
    show (streams.flatMap (fun s => leBytes 4 (s % 4294967296)) ++
      packVAux (streams.map (fun s => s / 4294967296)) m).length = _
    rw [List.length_append, ih, flatMapRow_length, List.length_map]
    ring

theorem flatMapRow_extract (streams : List Nat) (l : Nat)
    (hl : l < streams.length) (tail : List Nat) :
    ((streams.flatMap (fun s => leBytes 4 (s % 4294967296)) ++ tail).drop (4 * l)).take 4
      = leBytes 4 (streams.getD l 0 % 4294967296) := by
  induction streams generalizing l with
  | nil => simp at hl
  | cons s ss ih =>
    cases l with
    | zero =>
      show ((leBytes 4 (s % 4294967296) ++
        ss.flatMap (fun s => leBytes 4 (s % 4294967296)) ++ tail).drop 0).take 4 = _
      rw [List.drop_zero, List.append_assoc, List.take_left' (leBytes_length _ _)]
      rfl
    | succ m =>
      have hm : m < ss.length := by
        rw [List.length_cons] at hl
        omega
      show ((leBytes 4 (s % 4294967296) ++
        ss.flatMap (fun s => leBytes 4 (s % 4294967296)) ++ tail).drop (4 * (m + 1))).take 4
        = leBytes 4 ((s :: ss).getD (m + 1) 0 % 4294967296)
      rw [List.append_assoc]
      rw [show 4 * (m + 1) = (leBytes 4 (s % 4294967296)).length + 4 * m by
        rw [leBytes_length]; ring]
      rw [List.drop_append]
      exact ih m hm

theorem laneStreamRec_packVAux (c : Nat) (L : Nat) (streams : List Nat)
    (hL : streams.length = L) (l : Nat) (hl : l < L) (rest : List Nat) :
    laneStreamRec L l (packVAux streams c ++ rest) c
      = streams.getD l 0 % 2 ^ (32 * c) := by
  induction c generalizing streams with
  | zero =>
    rw [Nat.mul_zero, pow_zero, Nat.mod_one]
    rfl
  | succ m ih =>
    show bytesToNat ((((streams.flatMap (fun s => leBytes 4 (s % 4294967296)) ++
          packVAux (streams.map (fun s => s / 4294967296)) m) ++ rest).drop (4 * l)).take 4)
        + 4294967296 * laneStreamRec L l
          (((streams.flatMap (fun s => leBytes 4 (s % 4294967296)) ++
            packVAux (streams.map (fun s => s / 4294967296)) m) ++ rest).drop (4 * L))
          m
      = streams.getD l 0 % 2 ^ (32 * (m + 1))
    rw [List.append_assoc]
    rw [flatMapRow_extract streams l (by omega) _]
    rw [List.drop_left' (show (streams.flatMap
      (fun s => leBytes 4 (s % 4294967296))).length = 4 * L by rw [flatMapRow_length, hL])]
    rw [ih (streams.map (fun s => s / 4294967296)) (by rw [List.length_map, hL])]
    rw [bytesToNat_leBytes]
    have hgd : (streams.map (fun s => s / 4294967296)).getD l 0
        = streams.getD l 0 / 4294967296 := by
      have hls : l < streams.length := by omega
      rw [List.getD_eq_getElem _ _ (by rw [List.length_map]; exact hls),
        List.getElem_map, List.getD_eq_getElem _ _ hls]
    rw [hgd]
    rw [show (256 : Nat) ^ 4 = 4294967296 by norm_num]
    rw [Nat.mod_mod_of_dvd _ (dvd_refl 4294967296)]
    rw [show 32 * (m + 1) = 32 + 32 * m by ring, pow_add,
      show (2 : Nat) ^ 32 = 4294967296 by norm_num]
    rw [Nat.mod_mul]

theorem packVGen_length (L b : Nat) (vals : List Nat) :
    (packVGen L b vals).length = b * (4 * L) := by
  rw [packVGen, packVAux_length, List.length_map, List.length_range]

theorem packVGen_drop (L b : Nat) (vals rest : List Nat) :
    (packVGen L b vals ++ rest).drop (b * (4 * L)) = rest :=
  List.drop_left' (packVGen_length L b vals)

theorem laneVals_length (L l : Nat) (vals : List Nat) :
    (laneVals L l vals).length = 32 := by
  rw [laneVals, List.length_map, List.length_range]

theorem laneVals_mem_lt (L l b : Nat) (vals : List Nat)
    (h : ∀ v ∈ vals, v < 2 ^ b) : ∀ v ∈ laneVals L l vals, v < 2 ^ b := by
  intro v hv
  rw [laneVals, List.mem_map] at hv
  obtain ⟨g, _, hg⟩ := hv
  by_cases hidx : g * L + l < vals.length
  · rw [← hg, List.getD_eq_getElem _ _ hidx]
    exact h _ (List.getElem_mem _)
  · rw [← hg, List.getD_eq_default _ _ (by omega)]
    exact Nat.pos_pow_of_pos b (by omega)

/-- Vertical pack/unpack round trip on in-range values, with the unread
suffix ignored. -/
theorem unpackV_packV (L b : Nat) (hL : 0 < L) (vals rest : List Nat)
    (hlen : vals.length = 32 * L) (hv : ∀ v ∈ vals, v < 2 ^ b) :
    unpackVGen L b (packVGen L b vals ++ rest) = vals := by
  rw [unpackVGen, packVGen]
  apply List.ext_getElem
  · rw [List.length_map, List.length_range, hlen]
  · intro i h1 h2
    rw [List.getElem_map, List.getElem_range]
    have hi : i < 32 * L := by
      rw [List.length_map, List.length_range] at h1
      exact h1
    have hmod : i % L < L := Nat.mod_lt _ hL
    rw [laneStreamRec_packVAux b L _ (by rw [List.length_map, List.length_range])
      (i % L) hmod rest]
    have hgd : ((List.range L).map (fun l => packNat b (laneVals L l vals))).getD (i % L) 0
        = packNat b (laneVals L (i % L) vals) := by
      rw [List.getD_eq_getElem _ _ (by rw [List.length_map, List.length_range]; exact hmod),
        List.getElem_map, List.getElem_range]
    rw [hgd]
    have hsm : packNat b (laneVals L (i % L) vals) < 2 ^ (32 * b) := by
      have := packNat_lt b (laneVals L (i % L) vals)
      rw [laneVals_length] at this
      exact this
    rw [Nat.mod_eq_of_lt (lt_of_lt_of_le hsm (Nat.pow_le_pow_right (by omega) (by omega)))]
    have hdiv : i / L < 32 := Nat.div_lt_of_lt_mul (by omega)
    rw [packNat_extract b _ (laneVals_mem_lt L (i % L) b vals hv) (i / L)
      (by rw [laneVals_length]; exact hdiv)]
    rw [laneVals, List.getD_eq_getElem _ _ (by rw [List.length_map, List.length_range]; exact hdiv),
      List.getElem_map, List.getElem_range]
    have hix : i / L * L + i % L = i := by
      rw [Nat.mul_comm]
      exact Nat.div_add_mod i L
    rw [hix, List.getD_eq_getElem _ _ h2]

/-! ## The bit-width analyzer `p4Bits32` (`src/unnamed/part_003`)

Scans the block, handles the all-zero and constant special cases, then walks
candidate base widths from `max_bits - 1` down to `0`, tracking the running
exception count `x`, the vbyte cost accumulator `vv` (with its
`update_vbyte_accumulator` registrations at offsets `7/15/19/25` and
multipliers `1/2/3/4`), and the running minimum `min_size` (seeded with the
simple-packing cost `pad8(n·max_bits) + 1`). -/

/-- `update_vbyte_accumulator`: registrations into the (negatively
indexable) `vbyte_accumulator` array, modelled as a function on `Int`. -/
def updAcc (f : Int → Nat) (count bits : Nat) : Int → Nat :=
  fun j =>
    f j + (if j = (bits : Int) - 7 then count else 0)
        + (if j = (bits : Int) - 15 then 2 * count else 0)
        + (if j = (bits : Int) - 19 then 3 * count else 0)
        + (if j = (bits : Int) - 25 then 4 * count else 0)

/-- One candidate evaluation of the `p4Bits32` loop: compare the vbyte and
patching cost estimates against the running minimum.  Returns the updated
`(optimal_base_bits, use_vbyte_exceptions, min_size)`. -/
def p4Step (n max_bits bb x vv : Nat) (opt : Nat) (usevb : Bool) (ml : Nat) :
    Nat × Bool × Nat :=
  let vsz := pad8 (n * bb) + 2 + x + vv
  let psz := pad8 (n * bb) + 2 + pad8 n + pad8 (x * (max_bits - bb))
  if psz < ml ∧ psz ≤ vsz then (bb, false, psz)
  else if vsz < ml then (bb, true, vsz)
  else (opt, usevb, ml)

/-- The candidate loop of `p4Bits32`, from `base_bits` down to `0`
(inclusive).  `cnt` is the bit-width histogram `bit_width_count`. -/
def p4Loop (cnt : Nat → Nat) (n max_bits : Nat) :
    Nat → (Int → Nat) → Nat → Bool → Nat → Nat → Nat → Nat × Bool
  | 0, _, opt, usevb, ml, x, vv =>
    let r := p4Step n max_bits 0 x vv opt usevb ml
    (r.1, r.2.1)
  | bb + 1, acc, opt, usevb, ml, x, vv =>
    let r := p4Step n max_bits (bb + 1) x vv opt usevb ml
    p4Loop cnt n max_bits bb (updAcc acc (cnt (bb + 1)) (bb + 1)) r.1 r.2.1 r.2.2
      (x + cnt (bb + 1)) (vv + cnt (bb + 1) + acc (bb + 1))

/-- `bit_width_count`: the bit-width histogram of the block. -/
def bitHist (vals : List Nat) : Nat → Nat :=
  fun w => (vals.filter (fun v => bitWidth32 v = w)).length

/-- `p4Bits32`: returns `(b, bx)` — the base width and the exception
strategy (`0` simple, `1..31` patching width, `33` vbyte, `34` constant).
The all-zero early exit also covers `n = 0` (the C loop body never runs and
`bitwise_or` stays `0`). -/
def p4Bits32 (vals : List Nat) : Nat × Nat :=
  let orv := vals.foldl (fun a v => a ||| v) 0
  if orv = 0 then (0, 0)
  else
    let max_bits := bitWidth32 orv
    if vals.all (fun v => v = vals.headD 0) then (max_bits, 34)
    else
      let cnt := bitHist vals
      let x0 := cnt max_bits
      let r := p4Loop cnt vals.length max_bits (max_bits - 1)
        (updAcc (fun _ => 0) x0 max_bits) max_bits false
        (pad8 (vals.length * max_bits) + 1) x0 x0
      (r.1, if r.2 then 33 else max_bits - r.1)

/-! ## Header, encoder and decoder (`writeHeader` in `src/unnamed/part_003`,
`p4enc32.cpp`, `p4d1dec32.cpp`) -/

/-- `writeHeader`: 1–2 header bytes from `(b, bx)`. -/
def writeHeader (b bx : Nat) : List Nat :=
  if bx = 0 then [b % 256]
  else if bx ≤ 32 then [(128 ||| b) % 256, bx % 256]
  else [((if bx = 33 then 64 else 192) ||| b) % 256]

/-- The per-value base parts `in[i] & base_mask` (low `b` bits). -/
def baseVals (b : Nat) (vals : List Nat) : List Nat :=
  vals.map (fun v => v % 2 ^ b)

/-- The exception positions: indices whose value exceeds `base_mask`
(i.e. needs more than `b` bits), in ascending order as produced by the
encoder's single scan. -/
def excPositions (b : Nat) (vals : List Nat) : List Nat :=
  (List.range vals.length).filter (fun i => 2 ^ b - 1 < vals.getD i 0)

/-- The exception high parts `value >> b`, in position order. -/
def excVals (b : Nat) (vals : List Nat) : List Nat :=
  (excPositions b vals).map (fun i => vals.getD i 0 / 2 ^ b)

/-- The exception bitmap: bit `pos` set for every exception position
(the encoder's `bitmap[pos >> 6] |= 1 << (pos & 63)`, read as one number
across the little-endian words). -/
def bitmapOf (ps : List Nat) : Nat := ps.foldl (fun w p => w ||| 2 ^ p) 0

/-- `p4Enc32PayloadExceptions`: the exception payloads.  For patching
(`bx ≤ 32`): bitmap (`pad8 n` bytes survive of the word stores; the
overhang is overwritten by the following packs or lies past the returned
end), patch bits, base bits.  For vbyte (`bx = 33`): count byte (truncated
to 8 bits by the `unsigned char` store), base bits, vbyte-encoded
exception values, one position byte per exception. -/
def p4Enc32PayloadExceptions (vals : List Nat) (b bx : Nat) : List Nat :=
  if bx ≤ 32 then
    leBytes (pad8 vals.length) (bitmapOf (excPositions b vals)) ++
      bitpack32Scalar bx (excVals b vals) ++
      bitpack32Scalar b (baseVals b vals)
  else
    (excPositions b vals).length % 256 ::
      (bitpack32Scalar b (baseVals b vals) ++
        vbEnc32 (excVals b vals) ++
        (excPositions b vals).map (fun p => p % 256))

/-- `p4Enc32Payload`.  The simple branch packs `in` unmasked (`pack_one`
has no mask); the embedding's `packNat` masks each value, which coincides
because the analyzer only returns `bx = 0` with `b = max_bits`, an upper
bound for every value.  The constant branch stores the masked value on
`pad8 b` bytes (`b = 32` stores the 4-byte value; `% 2^32` is the uint32
argument range). -/
def p4Enc32Payload (vals : List Nat) (b bx : Nat) : List Nat :=
  if b = 0 ∧ bx = 0 then []
  else if bx = 0 then bitpack32Scalar b vals
  else if bx = 34 then
    (if b = 32 then leBytes 4 (vals.headD 0 % 4294967296)
     else leBytes (pad8 b) (vals.headD 0 % 2 ^ b))
  else p4Enc32PayloadExceptions vals b bx

/-- `p4Enc32`: analyze, write header, write payload. -/
def p4Enc32 (vals : List Nat) : List Nat :=
  writeHeader (p4Bits32 vals).1 (p4Bits32 vals).2 ++
    p4Enc32Payload vals (p4Bits32 vals).1 (p4Bits32 vals).2

/-- Merge exceptions into base values: `out[pos] |= exc << b` (uint32
arithmetic) pairwise along the ascending position list. -/
def mergeAt (b : Nat) (base : List Nat) : List Nat → List Nat → List Nat
  | [], _ => base
  | _, [] => base
  | p :: ps, e :: es =>
    mergeAt b (base.set p (base.getD p 0 ||| e * 2 ^ b % 4294967296)) ps es

/-- The ascending set-bit positions of the (already masked) bitmap below
`n` — the decoder's word-by-word count-trailing-zeros walk. -/
def bitPositions (n bitmap : Nat) : List Nat :=
  (List.range n).filter (fun i => bitmap.testBit i)

/-- `p4D1DecPayloadExceptions` (patching decode): load `⌈n/64⌉` bitmap
words, mask the last to the low `n mod 64` bits, count exceptions, unpack
patch bits then base bits, merge, delta1-scan.  A patch or base width
beyond 32 indexes past the 33-entry dispatch tables — undefined behavior,
modelled as `Except.error`. -/
def p4D1DecPayloadExceptions (n : Nat) (bs : List Nat) (start b bx : Nat) :
    Except Unit (List Nat × List Nat) :=
  if b ≤ 32 ∧ bx ≤ 32 then
    let bitmap := bytesToNat (bs.take (8 * ((n + 63) / 64))) % 2 ^ n
    let positions := bitPositions n bitmap
    let t1 := bs.drop (pad8 n)
    let excs := bitunpack32Scalar positions.length bx t1
    let t2 := t1.drop (pad8 (positions.length * bx))
    let base := bitunpack32Scalar n b t2
    Except.ok (d1scan start (mergeAt b base positions excs), t2.drop (pad8 (n * b)))
  else Except.error ()

/-- `p4D1Dec32`: read the header byte, dispatch on its two flag bits, and
decode the payload fused with the delta1 scan.  Undefined behavior in the
source — reading past the 33-entry dispatch tables when `b > 32` or
`bx > 32`, and the `__builtin_unreachable` default of the constant-path
`switch` (`b = 0` or `b > 32`) — is modelled as `Except.error`; so is the
initial header read from an empty input. -/
def p4D1Dec32 (n : Nat) (bs : List Nat) (start : Nat) :
    Except Unit (List Nat × List Nat) :=
  match bs with
  | [] => Except.error ()
  | h0 :: t =>
    let h := h0 % 256
    if h &&& 192 = 0 then
      if h ≤ 32 then
        Except.ok (bitunpackd1_32Scalar n h t start, t.drop (pad8 (n * h)))
      else Except.error ()
    else if h &&& 64 = 0 then
      match t with
      | [] => Except.error ()
      | bx0 :: t2 =>
        let b := h &&& 127
        let bx := bx0 % 256
        if bx = 0 then
          if b ≤ 32 then
            Except.ok (bitunpackd1_32Scalar n b t2 start, t2.drop (pad8 (n * b)))
          else Except.error ()
        else p4D1DecPayloadExceptions n t2 start b bx
    else if h &&& 192 = 192 then
      let b := h &&& 63
      if 1 ≤ pad8 b ∧ pad8 b ≤ 4 then
        let cv := bytesToNat (t.take (pad8 b)) % 2 ^ b
        Except.ok (d1go start 0 (List.replicate n cv), t.drop (pad8 b))
      else Except.error ()
    else
      let b := h &&& 63
      match t with
      | [] => Except.error ()
      | c0 :: t2 =>
        let count := c0 % 256
        if b ≤ 32 then
          let base := bitunpack32Scalar n b t2
          let t3 := t2.drop (pad8 (n * b))
          let r := vbDec32 count t3
          let positions := (List.range count).map (fun i => r.2.getD i 0 % 256)
          Except.ok (d1scan start (mergeAt b base positions r.1), r.2.drop count)
        else Except.error ()

/-! ## Bitwise facts about the OR-scan and bit recombination -/

theorem lor_lt_two_pow_iff (a b k : Nat) :
    a ||| b < 2 ^ k ↔ a < 2 ^ k ∧ b < 2 ^ k := by
  constructor
  · intro h
    constructor
    · apply Nat.lt_pow_two_of_testBit
      intro i hi
      have hor : (a ||| b).testBit i = false :=
        Nat.testBit_eq_false_of_lt (lt_of_lt_of_le h (Nat.pow_le_pow_right (by omega) hi))
      rw [Nat.testBit_lor] at hor
      exact (Bool.or_eq_false_iff.mp hor).1
    · apply Nat.lt_pow_two_of_testBit
      intro i hi
      have hor : (a ||| b).testBit i = false :=
        Nat.testBit_eq_false_of_lt (lt_of_lt_of_le h (Nat.pow_le_pow_right (by omega) hi))
      rw [Nat.testBit_lor] at hor
      exact (Bool.or_eq_false_iff.mp hor).2
  · intro h
    exact Nat.or_lt_two_pow h.1 h.2

theorem foldl_or_lt (vals : List Nat) (acc k : Nat) :
    vals.foldl (fun a v => a ||| v) acc < 2 ^ k ↔
      acc < 2 ^ k ∧ ∀ v ∈ vals, v < 2 ^ k := by
  induction vals generalizing acc with
  | nil => simp
  | cons x xs ih =>
    show xs.foldl (fun a v => a ||| v) (acc ||| x) < 2 ^ k ↔ _
    rw [ih, lor_lt_two_pow_iff]
    constructor
    · rintro ⟨⟨h1, h2⟩, h3⟩
      refine ⟨h1, ?_⟩
      intro v hv
      rcases List.mem_cons.mp hv with h | h
      · rw [h]; exact h2
      · exact h3 v h
    · rintro ⟨h1, h2⟩
      exact ⟨⟨h1, h2 x (List.mem_cons_self x xs)⟩,
        fun v hv => h2 v (List.mem_cons_of_mem x hv)⟩

theorem foldl_or_testBit (vals : List Nat) (acc : Nat) (i : Nat) :
    (vals.foldl (fun a v => a ||| v) acc).testBit i =
      (acc.testBit i || vals.any (fun v => v.testBit i)) := by
  induction vals generalizing acc with
  | nil => simp
  | cons x xs ih =>
    show (xs.foldl (fun a v => a ||| v) (acc ||| x)).testBit i = _
    rw [ih, Nat.testBit_lor, List.any_cons, Bool.or_assoc]

theorem foldl_or_const (vals : List Nat) (c : Nat)
    (h : ∀ v ∈ vals, v = c) (hne : vals ≠ []) :
    vals.foldl (fun a v => a ||| v) 0 = c := by
  have haux : ∀ (l : List Nat), (∀ v ∈ l, v = c) →
      l.foldl (fun a v => a ||| v) c = c := by
    intro l
    induction l with
    | nil => intro _; rfl
    | cons x xs ihx =>
      intro hl
      show xs.foldl (fun a v => a ||| v) (c ||| x) = c
      rw [hl x (List.mem_cons_self x xs), Nat.or_self]
      exact ihx (fun v hv => hl v (List.mem_cons_of_mem x hv))
  match vals, hne with
  | x :: xs, _ =>
    show xs.foldl (fun a v => a ||| v) (0 ||| x) = c
    rw [Nat.zero_or, h x (List.mem_cons_self x xs)]
    exact haux xs (fun v hv => h v (List.mem_cons_of_mem x hv))

/-- Splitting off the low `b` bits and OR-ing back the shifted high bits
recovers the value (the decoder's patch merge `out[i] |= e << b`). -/
theorem mod_lor_div_mul (v b : Nat) : v % 2 ^ b ||| v / 2 ^ b * 2 ^ b = v := by
  apply Nat.eq_of_testBit_eq
  intro i
  rw [Nat.testBit_lor, Nat.testBit_mod_two_pow, ← Nat.shiftLeft_eq, Nat.testBit_shiftLeft,
    ← Nat.shiftRight_eq_div_pow, Nat.testBit_shiftRight]
  by_cases h : i < b
  · simp [h, Nat.not_le.mpr h]
  · have hb : b ≤ i := Nat.not_lt.mp h
    simp [h, hb, Nat.add_sub_cancel' hb]

/-- The OR-scan keeps every operand's bit width: each value is below the
scan's power-of-two bound. -/
theorem mem_lt_two_pow_size_foldl_or (vals : List Nat) (v : Nat) (hv : v ∈ vals) :
    v < 2 ^ bitWidth32 (vals.foldl (fun a v => a ||| v) 0) := by
  have h := Nat.lt_size_self (vals.foldl (fun a v => a ||| v) 0)
  exact ((foldl_or_lt vals 0 _).mp h).2 v hv

/-- A nonzero number has its top bit (at index `size - 1`) set. -/
theorem testBit_size_pred (m : Nat) (hm : m ≠ 0) :
    m.testBit (Nat.size m - 1) = true := by
  have hpos : 0 < Nat.size m := Nat.size_pos.mpr (Nat.pos_of_ne_zero hm)
  rw [Nat.testBit_to_div_mod]
  have h1 : 2 ^ (Nat.size m - 1) ≤ m := by
    rw [← Nat.lt_size]
    omega
  have h2 : m < 2 ^ (Nat.size m - 1) * 2 := by
    have := Nat.lt_size_self m
    rw [show Nat.size m = Nat.size m - 1 + 1 by omega, pow_succ] at this
    omega
  have hq : m / 2 ^ (Nat.size m - 1) = 1 :=
    Nat.div_eq_of_lt_le (by omega) (by omega)
  rw [hq]
  decide

/-- A set bit at index `k` forces `size > k`. -/
theorem size_gt_of_testBit (v k : Nat) (h : v.testBit k = true) :
    k < Nat.size v := by
  rw [Nat.testBit_to_div_mod] at h
  have h1 : 2 ^ k ≤ v := by
    by_contra hcon
    rw [Nat.div_eq_of_lt (by omega)] at h
    simp at h
  exact Nat.lt_size.mpr h1

/-- Some value attains the OR-scan's bit width exactly. -/
theorem exists_size_eq_size_foldl_or (vals : List Nat)
    (hne : vals.foldl (fun a v => a ||| v) 0 ≠ 0) :
    ∃ v ∈ vals, bitWidth32 v = bitWidth32 (vals.foldl (fun a v => a ||| v) 0) := by
  have htop := testBit_size_pred _ hne
  rw [foldl_or_testBit] at htop
  simp only [Nat.zero_testBit, Bool.false_or, List.any_eq_true] at htop
  obtain ⟨v, hvmem, hvbit⟩ := htop
  refine ⟨v, hvmem, ?_⟩
  have hle : Nat.size v ≤ Nat.size (vals.foldl (fun a v => a ||| v) 0) := by
    rw [Nat.size_le]
    exact mem_lt_two_pow_size_foldl_or vals v hvmem
  have hge := size_gt_of_testBit v _ hvbit
  show Nat.size v = Nat.size _
  omega

/-! ## Exception bitmap and patch-merge lemmas -/

theorem bitmapOf_testBit (ps : List Nat) (i : Nat) :
    (bitmapOf ps).testBit i = ps.any (fun p => decide (p = i)) := by
  rw [bitmapOf]
  have haux : ∀ (l : List Nat) (acc : Nat),
      (l.foldl (fun w p => w ||| 2 ^ p) acc).testBit i
        = (acc.testBit i || l.any (fun p => decide (p = i))) := by
    intro l
    induction l with
    | nil => simp
    | cons x xs ih =>
      intro acc
      show (xs.foldl (fun w p => w ||| 2 ^ p) (acc ||| 2 ^ x)).testBit i = _
      rw [ih, Nat.testBit_lor, Nat.testBit_two_pow, List.any_cons, Bool.or_assoc]
  rw [haux]
  simp

theorem bitmapOf_lt (ps : List Nat) (n : Nat) (h : ∀ p ∈ ps, p < n) :
    bitmapOf ps < 2 ^ n := by
  rw [bitmapOf]
  have haux : ∀ (l : List Nat) (acc : Nat), acc < 2 ^ n → (∀ p ∈ l, p < n) →
      l.foldl (fun w p => w ||| 2 ^ p) acc < 2 ^ n := by
    intro l
    induction l with
    | nil => intro acc h1 _; exact h1
    | cons x xs ih =>
      intro acc h1 h2
      show xs.foldl (fun w p => w ||| 2 ^ p) (acc ||| 2 ^ x) < 2 ^ n
      apply ih
      · exact Nat.or_lt_two_pow h1
          (Nat.pow_lt_pow_right (by omega) (h2 x (List.mem_cons_self x xs)))
      · exact fun p hp => h2 p (List.mem_cons_of_mem x hp)
  exact haux ps 0 (Nat.pos_pow_of_pos n (by omega)) h

/-- Round trip of the position list through the bitmap: filtering the bits of
`bitmapOf ps` back out of `range n` recovers `ps`, for any `ps` that is
itself an ascending filter of `range n`. -/
theorem bitPositions_bitmapOf (n : Nat) (q : Nat → Bool) :
    bitPositions n (bitmapOf ((List.range n).filter q)) = (List.range n).filter q := by
  rw [bitPositions]
  apply List.filter_congr
  intro i hi
  rw [bitmapOf_testBit]
  rcases hq : q i with _ | _
  · rw [Bool.eq_false_iff]
    intro hcon
    rw [List.any_eq_true] at hcon
    obtain ⟨p, hp, hpi⟩ := hcon
    rw [decide_eq_true_eq] at hpi
    obtain ⟨hp1, hp2⟩ := List.mem_filter.mp hp
    rw [hpi, hq] at hp2
    simp at hp2
  · rw [List.any_eq_true]
    exact ⟨i, List.mem_filter.mpr ⟨hi, hq⟩, by simp⟩

/-- Reading the stored bitmap back (the decoder's masked word loads): any
read length of at least `pad8 n` bytes recovers the bitmap value after the
`mod 2^n` masking. -/
theorem take_append_of_le (l1 l2 : List Nat) (k : Nat) (h : l1.length ≤ k) :
    (l1 ++ l2).take k = l1 ++ l2.take (k - l1.length) := by
  obtain ⟨y, rfl⟩ : ∃ y, k = l1.length + y := ⟨k - l1.length, by omega⟩
  rw [List.take_append, Nat.add_sub_cancel_left]

theorem bitmap_read_back (n m x : Nat) (B : Nat) (T : List Nat)
    (hB : B < 2 ^ n) (hm : m = pad8 n) (hx : m ≤ x) :
    bytesToNat ((leBytes m B ++ T).take x) % 2 ^ n = B := by
  have hlen : (leBytes m B).length = m := leBytes_length m B
  rw [take_append_of_le _ _ _ (by rw [hlen]; omega)]
  rw [bytesToNat_append, hlen, bytesToNat_leBytes]
  have h8 : n ≤ 8 * m := by
    rw [hm]
    unfold pad8
    omega
  have h256 : (256 : Nat) ^ m = 2 ^ n * 2 ^ (8 * m - n) := by
    rw [show (256 : Nat) = 2 ^ 8 by norm_num, ← pow_mul, ← pow_add]
    congr 1
    omega
  have hBm : B % 256 ^ m = B := by
    apply Nat.mod_eq_of_lt
    rw [h256]
    calc B < 2 ^ n := hB
      _ ≤ 2 ^ n * 2 ^ (8 * m - n) :=
        Nat.le_mul_of_pos_right _ (Nat.pos_pow_of_pos _ (by omega))
  rw [hBm, h256, Nat.mul_assoc, Nat.add_mul_mod_self_left, Nat.mod_eq_of_lt hB]

theorem mergeAt_length (b : Nat) (base ps es : List Nat) :
    (mergeAt b base ps es).length = base.length := by
  induction ps generalizing base es with
  | nil =>
    cases es with
    | nil => rfl
    | cons e et => rfl
  | cons p pt ih =>
    cases es with
    | nil => rfl
    | cons e et =>
      show (mergeAt b (base.set p _) pt et).length = _
      rw [ih, List.length_set]

theorem mergeAt_getD_not_mem (b : Nat) (base ps es : List Nat) (i : Nat)
    (h : i ∉ ps) : (mergeAt b base ps es).getD i 0 = base.getD i 0 := by
  induction ps generalizing base es with
  | nil =>
    cases es with
    | nil => rfl
    | cons e et => rfl
  | cons p pt ih =>
    cases es with
    | nil => rfl
    | cons e et =>
      show (mergeAt b (base.set p _) pt et).getD i 0 = _
      rw [ih _ _ (fun hc => h (List.mem_cons_of_mem p hc))]
      have hne : p ≠ i := fun hc => h (hc ▸ List.mem_cons_self p pt)
      simp [List.getD_eq_getElem?_getD, List.getElem?_set_ne hne]

theorem mergeAt_getD_mem (b : Nat) (base ps es : List Nat) (j : Nat)
    (hnd : ps.Nodup) (hj : j < ps.length) (hplt : ps.getD j 0 < base.length) :
    (mergeAt b base ps es).getD (ps.getD j 0) 0
      = base.getD (ps.getD j 0) 0 ||| es.getD j 0 * 2 ^ b % 4294967296 := by
  induction ps generalizing base es j with
  | nil => simp at hj
  | cons p pt ih =>
    cases es with
    | nil =>
      show base.getD ((p :: pt).getD j 0) 0 = _
      rw [List.getD_nil]
      rw [Nat.zero_mul, Nat.zero_mod, Nat.or_zero]
    | cons e et =>
      cases j with
      | zero =>
        show (mergeAt b (base.set p (base.getD p 0 ||| e * 2 ^ b % 4294967296)) pt et).getD
            ((p :: pt).getD 0 0) 0 = _
        have hp0 : (p :: pt).getD 0 0 = p := rfl
        rw [hp0]
        rw [mergeAt_getD_not_mem _ _ _ _ _ (List.nodup_cons.mp hnd).1]
        have hpl : p < base.length := hplt
        simp [List.getD_eq_getElem?_getD, List.getElem?_set_self, hpl]
      | succ m =>
        show (mergeAt b (base.set p (base.getD p 0 ||| e * 2 ^ b % 4294967296)) pt et).getD
            ((p :: pt).getD (m + 1) 0) 0 = _
        have hgd : (p :: pt).getD (m + 1) 0 = pt.getD m 0 := rfl
        rw [hgd]
        have hm : m < pt.length := by
          rw [List.length_cons] at hj
          omega
        rw [ih (base.set p (base.getD p 0 ||| e * 2 ^ b % 4294967296)) et m
          (List.nodup_cons.mp hnd).2 hm (by rw [List.length_set]; exact hplt)]
        have hne : p ≠ pt.getD m 0 := by
          intro hc
          apply (List.nodup_cons.mp hnd).1
          rw [hc, List.getD_eq_getElem _ _ hm]
          exact List.getElem_mem _
        rw [List.getD_eq_getElem?_getD pt] at hne
        simp [List.getD_eq_getElem?_getD, List.getElem?_set_ne hne]

theorem mem_excPositions (b : Nat) (vals : List Nat) (i : Nat) :
    i ∈ excPositions b vals ↔ i < vals.length ∧ 2 ^ b - 1 < vals.getD i 0 := by
  rw [excPositions, List.mem_filter, List.mem_range, decide_eq_true_eq]

theorem excPositions_nodup (b : Nat) (vals : List Nat) :
    (excPositions b vals).Nodup :=
  List.Nodup.filter _ (List.nodup_range _)

theorem excPositions_lt (b : Nat) (vals : List Nat) :
    ∀ p ∈ excPositions b vals, p < vals.length := by
  intro p hp
  exact ((mem_excPositions b vals p).mp hp).1

theorem length_filter_range_getD (l : List Nat) (p : Nat → Bool) :
    ((List.range l.length).filter (fun i => p (l.getD i 0))).length = l.countP p := by
  induction l with
  | nil => rfl
  | cons x xs ih =>
    show ((List.range (xs.length + 1)).filter (fun i => p ((x :: xs).getD i 0))).length = _
    rw [List.range_succ_eq_map, List.filter_cons, List.filter_map]
    have hcomp : ((fun i => p ((x :: xs).getD i 0)) ∘ (· + 1))
        = (fun i => p (xs.getD i 0)) := by
      funext i
      rfl
    rw [hcomp, List.countP_cons]
    have hhead : (x :: xs).getD 0 0 = x := rfl
    rw [hhead]
    by_cases hp : p x
    · rw [if_pos hp, List.length_cons, List.length_map, ih]
      simp [hp]
    · rw [if_neg hp, List.length_map, ih]
      simp [hp]

theorem excPositions_length (b : Nat) (vals : List Nat) :
    (excPositions b vals).length = vals.countP (fun v => decide (2 ^ b - 1 < v)) := by
  rw [excPositions]
  exact length_filter_range_getD vals (fun v => decide (2 ^ b - 1 < v))

theorem excVals_getD (b : Nat) (vals : List Nat) (j : Nat)
    (hj : j < (excPositions b vals).length) :
    (excVals b vals).getD j 0 = vals.getD ((excPositions b vals).getD j 0) 0 / 2 ^ b := by
  rw [excVals, List.getD_eq_getElem _ _ (by rw [List.length_map]; exact hj),
    List.getElem_map, List.getD_eq_getElem _ _ hj]

theorem excVals_length (b : Nat) (vals : List Nat) :
    (excVals b vals).length = (excPositions b vals).length := by
  rw [excVals, List.length_map]

/-- The decoder's patch merge undoes the encoder's base/exception split. -/
theorem mergeAt_reconstruct (b : Nat) (vals : List Nat)
    (hv : ∀ v ∈ vals, v < 4294967296) :
    mergeAt b (baseVals b vals) (excPositions b vals) (excVals b vals) = vals := by
  apply List.ext_getElem
  · rw [mergeAt_length, baseVals, List.length_map]
  · intro i h1 h2
    rw [mergeAt_length, baseVals, List.length_map] at h1
    have hbl : (baseVals b vals).length = vals.length := by
      rw [baseVals, List.length_map]
    have hbase : (baseVals b vals).getD i 0 = vals.getD i 0 % 2 ^ b := by
      rw [baseVals, List.getD_eq_getElem _ _ (by rw [List.length_map]; exact h1),
        List.getElem_map, List.getD_eq_getElem _ _ h1]
    by_cases hmem : i ∈ excPositions b vals
    · obtain ⟨j, hjlt, hji⟩ := List.mem_iff_getElem.mp hmem
      have hjD : (excPositions b vals).getD j 0 = i := by
        rw [List.getD_eq_getElem _ _ hjlt, hji]
      have := mergeAt_getD_mem b (baseVals b vals) (excPositions b vals)
        (excVals b vals) j (excPositions_nodup b vals) hjlt (by rw [hjD, hbl]; exact h1)
      rw [hjD] at this
      rw [← List.getD_eq_getElem _ 0, this, hbase, excVals_getD b vals j hjlt, hjD]
      have hsm : vals.getD i 0 / 2 ^ b * 2 ^ b < 4294967296 := by
        calc vals.getD i 0 / 2 ^ b * 2 ^ b ≤ vals.getD i 0 := Nat.div_mul_le_self _ _
          _ < 4294967296 := by
            rw [List.getD_eq_getElem _ _ h1]
            exact hv _ (List.getElem_mem _)
      rw [Nat.mod_eq_of_lt hsm, mod_lor_div_mul, List.getD_eq_getElem _ _ h1]
    · rw [← List.getD_eq_getElem _ 0, mergeAt_getD_not_mem _ _ _ _ _ hmem, hbase]
      have hsmall : ¬ 2 ^ b - 1 < vals.getD i 0 := by
        intro hcon
        exact hmem ((mem_excPositions b vals i).mpr ⟨h1, hcon⟩)
      have hpos : 0 < 2 ^ b := Nat.pos_pow_of_pos b (by omega)
      rw [Nat.mod_eq_of_lt (by omega), List.getD_eq_getElem _ _ h1]

/-- Reading the position bytes back after the vbyte-exception payload. -/
theorem posBytes_read (ps rest : List Nat) (h : ∀ p ∈ ps, p < 256) :
    (List.range ps.length).map
        (fun i => ((ps.map (fun p => p % 256)) ++ rest).getD i 0 % 256) = ps := by
  apply List.ext_getElem
  · rw [List.length_map, List.length_range]
  · intro i h1 h2
    have hi : i < ps.length := by
      rw [List.length_map, List.length_range] at h1
      exact h1
    rw [List.getElem_map, List.getElem_range]
    rw [List.getD_append _ _ _ _ (by rw [List.length_map]; exact hi)]
    rw [List.getD_eq_getElem _ _ (by rw [List.length_map]; exact hi), List.getElem_map]
    have hlt : ps[i] < 256 := h _ (List.getElem_mem _)
    rw [Nat.mod_eq_of_lt hlt, Nat.mod_eq_of_lt hlt]

/-! ## Closed forms of the analyzer loop state

At candidate base width `bb`, the loop's running exception count equals
`excX cnt bb`, its vbyte cost accumulator equals `vvX cnt bb` (per-exception
charge `Lfun (w - bb)` for a value of width `w`), and the
`vbyte_accumulator` array equals `accX cnt bb`. -/

/-- The cumulative vbyte charge the analyzer assigns to an exception whose
width exceeds the base by `h` bits: `1`, plus `1` once `h ≥ 8`, plus `2`
once `h ≥ 16`, plus `3` once `h ≥ 20`, plus `4` once `h ≥ 26` (the
registrations at offsets `7/15/19/25` with multipliers `1/2/3/4`). -/
def Lfun (h : Nat) : Nat :=
  1 + (if 8 ≤ h then 1 else 0) + (if 16 ≤ h then 2 else 0)
    + (if 20 ≤ h then 3 else 0) + (if 26 ≤ h then 4 else 0)

def excX (cnt : Nat → Nat) (bb : Nat) : Nat := ∑ w ∈ Finset.Ioc bb 32, cnt w

def vvX (cnt : Nat → Nat) (bb : Nat) : Nat :=
  ∑ w ∈ Finset.Ioc bb 32, cnt w * Lfun (w - bb)

def accX (cnt : Nat → Nat) (bb : Nat) : Int → Nat :=
  fun j => ∑ w ∈ Finset.Ioc bb 32,
    ((if j = (w : Int) - 7 then cnt w else 0) + (if j = (w : Int) - 15 then 2 * cnt w else 0)
      + (if j = (w : Int) - 19 then 3 * cnt w else 0)
      + (if j = (w : Int) - 25 then 4 * cnt w else 0))

/-- The analyzer's estimated vbyte-strategy size at candidate `bb`. -/
def vszX (cnt : Nat → Nat) (n bb : Nat) : Nat :=
  pad8 (n * bb) + 2 + excX cnt bb + vvX cnt bb

theorem sum_Ioc_bot (f : Nat → Nat) (a c : Nat) (hac : a < c) :
    ∑ w ∈ Finset.Ioc a c, f w = f (a + 1) + ∑ w ∈ Finset.Ioc (a + 1) c, f w := by
  rw [← Finset.sum_Ioc_consecutive f (show a ≤ a + 1 by omega) (show a + 1 ≤ c by omega)]
  rw [Nat.Ioc_succ_singleton, Finset.sum_singleton]

theorem excX_rec (cnt : Nat → Nat) (bb : Nat) (h : bb < 32) :
    excX cnt bb = cnt (bb + 1) + excX cnt (bb + 1) :=
  sum_Ioc_bot cnt bb 32 h

theorem excX_antitone (cnt : Nat → Nat) (a c : Nat) (h : a ≤ c) :
    excX cnt c ≤ excX cnt a := by
  rw [excX, excX]
  rcases Nat.le_total c 32 with hc | hc
  · rw [← Finset.sum_Ioc_consecutive cnt h hc]
    exact Nat.le_add_left _ _
  · have he : Finset.Ioc c 32 = ∅ := Finset.Ioc_eq_empty (by omega)
    rw [he, Finset.sum_empty]
    exact Nat.zero_le _

theorem excX_high (cnt : Nat → Nat) (bb : Nat) (hz : ∀ w, bb < w → cnt w = 0) :
    excX cnt bb = 0 := by
  rw [excX]
  apply Finset.sum_eq_zero
  intro w hw
  rw [Finset.mem_Ioc] at hw
  exact hz w hw.1

theorem vvX_high (cnt : Nat → Nat) (bb : Nat) (hz : ∀ w, bb < w → cnt w = 0) :
    vvX cnt bb = 0 := by
  rw [vvX]
  apply Finset.sum_eq_zero
  intro w hw
  rw [Finset.mem_Ioc] at hw
  rw [hz w hw.1, Nat.zero_mul]

theorem accX_high (cnt : Nat → Nat) (bb : Nat) (hz : ∀ w, bb < w → cnt w = 0) :
    accX cnt bb = fun j => 0 := by
  funext j
  simp only [accX]
  apply Finset.sum_eq_zero
  intro w hw
  rw [Finset.mem_Ioc] at hw
  rw [hz w hw.1]
  simp

theorem excX_le_vvX (cnt : Nat → Nat) (bb : Nat) : excX cnt bb ≤ vvX cnt bb := by
  apply Finset.sum_le_sum
  intro w _
  have h1 : 1 ≤ Lfun (w - bb) := by
    rw [Lfun]
    omega
  calc cnt w = cnt w * 1 := (Nat.mul_one _).symm
    _ ≤ cnt w * Lfun (w - bb) := Nat.mul_le_mul_left _ h1

theorem Lfun_succ_eq (h : Nat) :
    Lfun (h + 1) = Lfun h + (if h + 1 = 8 then 1 else 0) + (if h + 1 = 16 then 2 else 0)
      + (if h + 1 = 20 then 3 else 0) + (if h + 1 = 26 then 4 else 0) := by
  by_cases c8 : h + 1 = 8
  · have hh : h = 7 := by omega
    subst hh
    decide
  by_cases c16 : h + 1 = 16
  · have hh : h = 15 := by omega
    subst hh
    decide
  by_cases c20 : h + 1 = 20
  · have hh : h = 19 := by omega
    subst hh
    decide
  by_cases c26 : h + 1 = 26
  · have hh : h = 25 := by omega
    subst hh
    decide
  rw [if_neg c8, if_neg c16, if_neg c20, if_neg c26]
  rw [Lfun, Lfun]
  simp only [show (8 ≤ h + 1) ↔ (8 ≤ h) from by omega,
    show (16 ≤ h + 1) ↔ (16 ≤ h) from by omega,
    show (20 ≤ h + 1) ↔ (20 ≤ h) from by omega,
    show (26 ≤ h + 1) ↔ (26 ≤ h) from by omega]
  omega

theorem mul_ind_one (a : Nat) (c : Prop) [Decidable c] :
    a * (if c then 1 else 0) = if c then a else 0 := by
  split_ifs <;> ring

theorem mul_ind_gen (a k : Nat) (c : Prop) [Decidable c] :
    a * (if c then k else 0) = if c then k * a else 0 := by
  split_ifs <;> ring

theorem vvX_rec (cnt : Nat → Nat) (bb : Nat) (h : bb < 32) :
    vvX cnt bb = vvX cnt (bb + 1) + cnt (bb + 1) + accX cnt (bb + 1) (bb + 1) := by
  rw [vvX, sum_Ioc_bot _ bb 32 h]
  have hL1 : cnt (bb + 1) * Lfun (bb + 1 - bb) = cnt (bb + 1) := by
    rw [show bb + 1 - bb = 1 by omega]
    rw [show Lfun 1 = 1 from by decide]
    exact Nat.mul_one _
  rw [hL1]
  have hsum : ∑ w ∈ Finset.Ioc (bb + 1) 32, cnt w * Lfun (w - bb)
      = ∑ w ∈ Finset.Ioc (bb + 1) 32, (cnt w * Lfun (w - (bb + 1))
        + ((if ((bb + 1 : Nat) : Int) = (w : Int) - 7 then cnt w else 0)
          + (if ((bb + 1 : Nat) : Int) = (w : Int) - 15 then 2 * cnt w else 0)
          + (if ((bb + 1 : Nat) : Int) = (w : Int) - 19 then 3 * cnt w else 0)
          + (if ((bb + 1 : Nat) : Int) = (w : Int) - 25 then 4 * cnt w else 0))) := by
    apply Finset.sum_congr rfl
    intro w hw
    rw [Finset.mem_Ioc] at hw
    have hsub : w - bb = (w - (bb + 1)) + 1 := by omega
    have e7 : (((bb + 1 : Nat) : Int) = (w : Int) - 7) ↔ (w - (bb + 1) + 1 = 8) := by omega
    have e15 : (((bb + 1 : Nat) : Int) = (w : Int) - 15) ↔ (w - (bb + 1) + 1 = 16) := by omega
    have e19 : (((bb + 1 : Nat) : Int) = (w : Int) - 19) ↔ (w - (bb + 1) + 1 = 20) := by omega
    have e25 : (((bb + 1 : Nat) : Int) = (w : Int) - 25) ↔ (w - (bb + 1) + 1 = 26) := by omega
    rw [hsub, Lfun_succ_eq]
    rw [Nat.mul_add, Nat.mul_add, Nat.mul_add, Nat.mul_add]
    rw [mul_ind_one, mul_ind_gen, mul_ind_gen, mul_ind_gen]
    simp only [e7, e15, e19, e25]
    omega
  rw [hsum, Finset.sum_add_distrib]
  rw [vvX, accX]
  push_cast
  omega

/-- The accumulator array after the registration at `bits = bb + 1`
matches the closed form one candidate lower. -/
theorem accX_rec (cnt : Nat → Nat) (bb : Nat) (h : bb < 32) :
    updAcc (accX cnt (bb + 1)) (cnt (bb + 1)) (bb + 1) = accX cnt bb := by
  funext j
  simp only [updAcc, accX]
  rw [sum_Ioc_bot
    (fun w => ((if j = (w : Int) - 7 then cnt w else 0)
      + (if j = (w : Int) - 15 then 2 * cnt w else 0)
      + (if j = (w : Int) - 19 then 3 * cnt w else 0)
      + (if j = (w : Int) - 25 then 4 * cnt w else 0))) bb 32 h]
  push_cast
  omega

/-- One analyzer charge step of at least one byte per 8 bits of extra
width: dropping the base by 8 bits increases every exception's charge. -/
theorem Lfun_shift8 (h : Nat) (h9 : 9 ≤ h) (h32 : h ≤ 32) :
    Lfun (h - 8) + 1 ≤ Lfun h := by
  have hd : ∀ x : Fin 33, 9 ≤ x.val → Lfun (x.val - 8) + 1 ≤ Lfun x.val := by decide
  exact hd ⟨h, by omega⟩ h9

theorem vvX_shift8 (cnt : Nat → Nat) (bb : Nat) (h8 : bb + 8 ≤ 32) :
    vvX cnt (bb + 8) + excX cnt bb ≤ vvX cnt bb := by
  have hsplitv : vvX cnt bb
      = ∑ w ∈ Finset.Ioc bb (bb + 8), cnt w * Lfun (w - bb)
        + ∑ w ∈ Finset.Ioc (bb + 8) 32, cnt w * Lfun (w - bb) := by
    rw [vvX, Finset.sum_Ioc_consecutive _ (show bb ≤ bb + 8 by omega) h8]
  have hsplitx : excX cnt bb
      = ∑ w ∈ Finset.Ioc bb (bb + 8), cnt w + ∑ w ∈ Finset.Ioc (bb + 8) 32, cnt w := by
    rw [excX, Finset.sum_Ioc_consecutive _ (show bb ≤ bb + 8 by omega) h8]
  have hlow : ∑ w ∈ Finset.Ioc bb (bb + 8), cnt w
      ≤ ∑ w ∈ Finset.Ioc bb (bb + 8), cnt w * Lfun (w - bb) := by
    apply Finset.sum_le_sum
    intro w _
    have h1 : 1 ≤ Lfun (w - bb) := by
      rw [Lfun]
      omega
    calc cnt w = cnt w * 1 := (Nat.mul_one _).symm
      _ ≤ cnt w * Lfun (w - bb) := Nat.mul_le_mul_left _ h1
  have hhigh : ∑ w ∈ Finset.Ioc (bb + 8) 32, (cnt w * Lfun (w - (bb + 8)) + cnt w)
      ≤ ∑ w ∈ Finset.Ioc (bb + 8) 32, cnt w * Lfun (w - bb) := by
    apply Finset.sum_le_sum
    intro w hw
    rw [Finset.mem_Ioc] at hw
    have hL := Lfun_shift8 (w - bb) (by omega) (by omega)
    have hsub : w - bb - 8 = w - (bb + 8) := by omega
    rw [hsub] at hL
    calc cnt w * Lfun (w - (bb + 8)) + cnt w
        = cnt w * (Lfun (w - (bb + 8)) + 1) := by ring
      _ ≤ cnt w * Lfun (w - bb) := Nat.mul_le_mul_left _ hL
  rw [Finset.sum_add_distrib] at hhigh
  have hvv8 : vvX cnt (bb + 8) = ∑ w ∈ Finset.Ioc (bb + 8) 32, cnt w * Lfun (w - (bb + 8)) :=
    rfl
  have hx8 : ∑ w ∈ Finset.Ioc (bb + 8) 32, cnt w = excX cnt (bb + 8) := rfl
  omega

theorem pad8_mul256 (k : Nat) : pad8 (256 * k) = 32 * k := by
  rw [pad8]
  omega

/-- The vbyte strategy is never strictly cheaper than the running minimum
at a candidate where every value is an exception (`x = 256`): hence the
analyzer never selects the vbyte strategy with an exception count that
overflows its count byte. -/
theorem vbyte_candidate_bound (cnt : Nat → Nat) (n mb bb : Nat)
    (hmb : mb ≤ 32) (hbb : bb < mb) (hxn : excX cnt 0 ≤ n) (hn : n ≤ 256)
    (ml : Nat)
    (hml0 : ml ≤ pad8 (n * mb) + 1)
    (hmlv : ∀ c, bb < c → c < mb → ml ≤ vszX cnt n c)
    (hlt : pad8 (n * bb) + 2 + excX cnt bb + vvX cnt bb < ml) :
    excX cnt bb ≤ 255 := by
  by_contra hcon
  have hx256 : excX cnt bb = 256 := by
    have := excX_antitone cnt 0 bb (by omega)
    omega
  have hn256 : n = 256 := by
    have := excX_antitone cnt 0 bb (by omega)
    omega
  subst hn256
  have hvvge : excX cnt bb ≤ vvX cnt bb := excX_le_vvX cnt bb
  rcases Nat.lt_or_ge (bb + 8) (mb) with hcase | hcase
  · -- an earlier candidate 8 bits higher was already offered to the minimum
    have hml8 : ml ≤ vszX cnt 256 (bb + 8) := hmlv (bb + 8) (by omega) hcase
    have hshift := vvX_shift8 cnt bb (by omega)
    have hx8le : excX cnt (bb + 8) ≤ 256 := by
      have := excX_antitone cnt bb (bb + 8) (by omega)
      omega
    have hv : vszX cnt 256 (bb + 8) ≤ pad8 (256 * bb) + 2 + excX cnt bb + vvX cnt bb := by
      rw [vszX]
      rw [show 256 * (bb + 8) = 256 * bb + 256 * 8 by ring]
      rw [show pad8 (256 * bb + 256 * 8) = pad8 (256 * bb) + 256 by rw [pad8, pad8]; omega]
      omega
    omega
  · -- highest candidates: the initial simple-packing cost is already smaller
    rw [pad8_mul256] at hml0
    have hvsz : 32 * bb + 2 + 256 + 256 ≤ pad8 (256 * bb) + 2 + excX cnt bb + vvX cnt bb := by
      rw [pad8_mul256]
      omega
    omega

theorem p4Loop_zero_eq (cnt : Nat → Nat) (n mb : Nat) (acc : Int → Nat)
    (opt : Nat) (usevb : Bool) (ml x vv : Nat) :
    p4Loop cnt n mb 0 acc opt usevb ml x vv
      = ((p4Step n mb 0 x vv opt usevb ml).1,
         (p4Step n mb 0 x vv opt usevb ml).2.1) := rfl

theorem p4Loop_succ_eq (cnt : Nat → Nat) (n mb bb : Nat) (acc : Int → Nat)
    (opt : Nat) (usevb : Bool) (ml x vv : Nat) :
    p4Loop cnt n mb (bb + 1) acc opt usevb ml x vv
      = p4Loop cnt n mb bb (updAcc acc (cnt (bb + 1)) (bb + 1))
          (p4Step n mb (bb + 1) x vv opt usevb ml).1
          (p4Step n mb (bb + 1) x vv opt usevb ml).2.1
          (p4Step n mb (bb + 1) x vv opt usevb ml).2.2
          (x + cnt (bb + 1)) (vv + cnt (bb + 1) + acc (bb + 1)) := rfl

/-- Case analysis of one candidate evaluation. -/
theorem p4Step_cases (n mb bb x vv : Nat) (opt : Nat) (usevb : Bool) (ml : Nat)
    (o : Nat) (u : Bool) (m : Nat)
    (h : p4Step n mb bb x vv opt usevb ml = (o, u, m)) :
    (o = bb ∧ u = false ∧ m = pad8 (n * bb) + 2 + pad8 n + pad8 (x * (mb - bb)) ∧
      m < ml ∧ m ≤ pad8 (n * bb) + 2 + x + vv) ∨
    (o = bb ∧ u = true ∧ m = pad8 (n * bb) + 2 + x + vv ∧ m < ml) ∨
    (o = opt ∧ u = usevb ∧ m = ml ∧ ml ≤ pad8 (n * bb) + 2 + x + vv) := by
  rw [p4Step] at h
  split_ifs at h with hc1 hc2
  · left
    obtain ⟨h1, h2, h3⟩ : bb = o ∧ false = u ∧
        pad8 (n * bb) + 2 + pad8 n + pad8 (x * (mb - bb)) = m := by
      rw [Prod.mk.injEq, Prod.mk.injEq] at h
      exact ⟨h.1, h.2.1, h.2.2⟩
    subst h1; subst h2; subst h3
    exact ⟨rfl, rfl, rfl, hc1.1, hc1.2⟩
  · right; left
    obtain ⟨h1, h2, h3⟩ : bb = o ∧ true = u ∧ pad8 (n * bb) + 2 + x + vv = m := by
      rw [Prod.mk.injEq, Prod.mk.injEq] at h
      exact ⟨h.1, h.2.1, h.2.2⟩
    subst h1; subst h2; subst h3
    exact ⟨rfl, rfl, rfl, hc2⟩
  · right; right
    obtain ⟨h1, h2, h3⟩ : opt = o ∧ usevb = u ∧ ml = m := by
      rw [Prod.mk.injEq, Prod.mk.injEq] at h
      exact ⟨h.1, h.2.1, h.2.2⟩
    subst h1; subst h2; subst h3
    have := hc2
    refine ⟨rfl, rfl, rfl, ?_⟩
    rcases Nat.lt_or_ge (pad8 (n * bb) + 2 + x + vv) ml with hlt | hge
    · exact absurd hlt hc2
    · exact hge

/-- Loop invariant for the analyzer's candidate walk: the returned base
width never exceeds `max_bits`, and whenever the vbyte strategy wins, its
exception count fits in one byte. -/
theorem p4Loop_inv (cnt : Nat → Nat) (n mb : Nat)
    (hmb : mb ≤ 32) (hxn : excX cnt 0 ≤ n) (hn : n ≤ 256) :
    ∀ bb, bb < mb →
    ∀ opt usevb ml,
      opt ≤ mb →
      (usevb = true → opt < mb ∧ excX cnt opt ≤ 255) →
      ml ≤ pad8 (n * mb) + 1 →
      (∀ c, bb < c → c < mb → ml ≤ vszX cnt n c) →
      ∀ ro ru,
        p4Loop cnt n mb bb (accX cnt bb) opt usevb ml (excX cnt bb) (vvX cnt bb) = (ro, ru) →
        ro ≤ mb ∧ (ru = true → ro < mb ∧ excX cnt ro ≤ 255) := by
  intro bb
  induction bb with
  | zero =>
    intro hbm opt usevb ml hopt husevb hml0 hmlv ro ru hres
    rw [p4Loop_zero_eq] at hres
    rcases hsr : p4Step n mb 0 (excX cnt 0) (vvX cnt 0) opt usevb ml with ⟨o, u, m⟩
    rw [hsr] at hres
    obtain ⟨rfl, rfl⟩ : o = ro ∧ u = ru := by
      rw [Prod.mk.injEq] at hres
      exact hres
    rcases p4Step_cases n mb 0 (excX cnt 0) (vvX cnt 0) opt usevb ml o u m hsr with
      ⟨ho, hu, _, _, _⟩ | ⟨ho, hu, hm, hlt⟩ | ⟨ho, hu, _, _⟩
    · rw [ho, hu]
      exact ⟨by omega, by intro hcon; cases hcon⟩
    · rw [ho, hu]
      refine ⟨by omega, fun _ => ⟨by omega, ?_⟩⟩
      exact vbyte_candidate_bound cnt n mb 0 hmb hbm hxn hn ml hml0 hmlv (by omega)
    · rw [ho, hu]
      exact ⟨hopt, husevb⟩
  | succ bb ih =>
    intro hbm opt usevb ml hopt husevb hml0 hmlv ro ru hres
    have hbb32 : bb < 32 := by omega
    rw [p4Loop_succ_eq] at hres
    rw [accX_rec cnt bb hbb32] at hres
    rw [show excX cnt (bb + 1) + cnt (bb + 1) = excX cnt bb by
      rw [excX_rec cnt bb hbb32]; omega] at hres
    rw [← vvX_rec cnt bb hbb32] at hres
    rcases hsr : p4Step n mb (bb + 1) (excX cnt (bb + 1)) (vvX cnt (bb + 1)) opt usevb ml
      with ⟨o, u, m⟩
    rw [hsr] at hres
    rcases p4Step_cases n mb (bb + 1) (excX cnt (bb + 1)) (vvX cnt (bb + 1)) opt usevb ml
      o u m hsr with
      ⟨ho, hu, hm, hmlt, hmle⟩ | ⟨ho, hu, hm, hlt⟩ | ⟨ho, hu, hm, hge⟩
    · refine ih (by omega) o u m (by omega) (by rw [hu]; intro hcon; cases hcon) (by omega)
        ?_ ro ru hres
      intro c hc1 hc2
      rcases Nat.lt_or_ge (bb + 1) c with hcc | hcc
      · have := hmlv c (by omega) hc2
        omega
      · have hceq : c = bb + 1 := by omega
        subst hceq
        rw [vszX]
        omega
    · have hx255 : excX cnt (bb + 1) ≤ 255 :=
        vbyte_candidate_bound cnt n mb (bb + 1) hmb hbm hxn hn ml hml0 hmlv (by omega)
      refine ih (by omega) o u m (by omega)
        (by rw [ho, hu]; intro _; exact ⟨by omega, hx255⟩) (by omega) ?_ ro ru hres
      intro c hc1 hc2
      rcases Nat.lt_or_ge (bb + 1) c with hcc | hcc
      · have := hmlv c (by omega) hc2
        omega
      · have hceq : c = bb + 1 := by omega
        subst hceq
        rw [vszX]
        omega
    · refine ih (by omega) o u m (by omega) (by rw [ho, hu]; exact husevb) (by omega)
        ?_ ro ru hres
      intro c hc1 hc2
      rcases Nat.lt_or_ge (bb + 1) c with hcc | hcc
      · have := hmlv c (by omega) hc2
        omega
      · have hceq : c = bb + 1 := by omega
        subst hceq
        rw [vszX]
        omega

theorem countP_width_split (vals : List Nat) (bb : Nat) :
    vals.countP (fun v => decide (bb < bitWidth32 v))
      = vals.countP (fun v => decide (bitWidth32 v = bb + 1))
        + vals.countP (fun v => decide (bb + 1 < bitWidth32 v)) := by
  induction vals with
  | nil => rfl
  | cons x xs ih =>
    rw [List.countP_cons, List.countP_cons, List.countP_cons, ih]
    split_ifs <;> (try simp_all) <;> omega

theorem bitHist_countP (vals : List Nat) (w : Nat) :
    bitHist vals w = vals.countP (fun v => decide (bitWidth32 v = w)) := by
  rw [bitHist, List.countP_eq_length_filter]

/-- Closed form of the loop's running exception count in terms of the
input: values strictly wider than the candidate base. -/
theorem excX_bitHist (vals : List Nat) (h32 : ∀ v ∈ vals, bitWidth32 v ≤ 32) :
    ∀ d bb, 32 - bb = d →
      excX (bitHist vals) bb = vals.countP (fun v => decide (bb < bitWidth32 v)) := by
  intro d
  induction d with
  | zero =>
    intro bb hd
    have hbb : 32 ≤ bb := by omega
    rw [excX_high _ _ (fun w hw => by
      rw [bitHist_countP]
      apply List.countP_eq_zero.mpr
      intro v hv
      simp only [decide_eq_true_eq]
      have := h32 v hv
      omega)]
    symm
    apply List.countP_eq_zero.mpr
    intro v hv
    simp only [decide_eq_true_eq]
    have := h32 v hv
    omega
  | succ m ih =>
    intro bb hd
    have hbb : bb < 32 := by omega
    rw [excX_rec _ _ hbb, ih (bb + 1) (by omega), bitHist_countP,
      countP_width_split vals bb]

/-- The exception count at base `b` equals the number of values exceeding
the `b`-bit mask (the encoder's split criterion). -/
theorem excX_eq_excPositions_length (vals : List Nat) (h32 : ∀ v ∈ vals, bitWidth32 v ≤ 32)
    (b : Nat) :
    excX (bitHist vals) b = (excPositions b vals).length := by
  rw [excX_bitHist vals h32 (32 - b) b rfl, excPositions_length]
  apply List.countP_congr
  intro v _
  simp only [decide_eq_true_eq]
  have hpos : 0 < 2 ^ b := Nat.pos_pow_of_pos b (by omega)
  constructor
  · intro h
    have h1 : 2 ^ b ≤ v := Nat.lt_size.mp h
    omega
  · intro h
    apply Nat.lt_size.mpr
    omega

theorem excX_init (cnt : Nat → Nat) (mb : Nat) (hmb1 : 1 ≤ mb) (hmb : mb ≤ 32)
    (hz : ∀ w, mb < w → cnt w = 0) :
    excX cnt (mb - 1) = cnt mb := by
  rw [excX_rec _ _ (by omega), show mb - 1 + 1 = mb by omega,
    excX_high _ _ (fun w hw => hz w (by omega))]
  omega

theorem vvX_init (cnt : Nat → Nat) (mb : Nat) (hmb1 : 1 ≤ mb) (hmb : mb ≤ 32)
    (hz : ∀ w, mb < w → cnt w = 0) :
    vvX cnt (mb - 1) = cnt mb := by
  rw [vvX, sum_Ioc_bot _ (mb - 1) 32 (by omega), show mb - 1 + 1 = mb by omega]
  rw [show mb - (mb - 1) = 1 by omega, show Lfun 1 = 1 from by decide, Nat.mul_one]
  have hrest : ∑ w ∈ Finset.Ioc mb 32, cnt w * Lfun (w - (mb - 1)) = 0 := by
    apply Finset.sum_eq_zero
    intro w hw
    rw [Finset.mem_Ioc] at hw
    rw [hz w hw.1, Nat.zero_mul]
  rw [hrest]
  omega

theorem accX_init (cnt : Nat → Nat) (mb : Nat) (hmb1 : 1 ≤ mb) (hmb : mb ≤ 32)
    (hz : ∀ w, mb < w → cnt w = 0) :
    accX cnt (mb - 1) = updAcc (fun _ => 0) (cnt mb) mb := by
  funext j
  simp only [accX, updAcc]
  rw [sum_Ioc_bot
    (fun w => ((if j = (w : Int) - 7 then cnt w else 0)
      + (if j = (w : Int) - 15 then 2 * cnt w else 0)
      + (if j = (w : Int) - 19 then 3 * cnt w else 0)
      + (if j = (w : Int) - 25 then 4 * cnt w else 0))) (mb - 1) 32 (by omega)]
  rw [show mb - 1 + 1 = mb by omega]
  have hrest : ∑ w ∈ Finset.Ioc mb 32,
      ((if j = (w : Int) - 7 then cnt w else 0)
        + (if j = (w : Int) - 15 then 2 * cnt w else 0)
        + (if j = (w : Int) - 19 then 3 * cnt w else 0)
        + (if j = (w : Int) - 25 then 4 * cnt w else 0)) = 0 := by
    apply Finset.sum_eq_zero
    intro w hw
    rw [Finset.mem_Ioc] at hw
    rw [hz w hw.1]
    simp
  rw [hrest]
  omega

/-- Some value has the maximum bit width, so the histogram is nonzero
there. -/
theorem bitHist_max_pos (vals : List Nat)
    (hne : vals.foldl (fun a v => a ||| v) 0 ≠ 0) :
    1 ≤ bitHist vals (bitWidth32 (vals.foldl (fun a v => a ||| v) 0)) := by
  obtain ⟨v, hv, hsz⟩ := exists_size_eq_size_foldl_or vals hne
  rw [bitHist_countP]
  have hp : 0 < vals.countP
      (fun v => decide (bitWidth32 v = bitWidth32 (vals.foldl (fun a v => a ||| v) 0))) :=
    List.countP_pos_iff.mpr ⟨v, hv, decide_eq_true_eq.mpr hsz⟩
  omega

/-- Well-formedness of the analyzer's decision `(b, bx)` on nonempty
blocks of uint32s: `b ≤ 32`; simple packing covers every value; constant
blocks really are constant at their exact width; patching covers every
value at `b + bx = max_bits` bits; and a vbyte decision always has an
exception count that is nonzero and fits the 1-byte count field. -/
theorem p4Bits32_spec (vals : List Nat) (hne : vals ≠ [])
    (h32 : ∀ v ∈ vals, v < 4294967296) (hlen : vals.length ≤ 256)
    (b bx : Nat) (hres : p4Bits32 vals = (b, bx)) :
    b ≤ 32 ∧
    (bx = 0 → ∀ v ∈ vals, v < 2 ^ b) ∧
    (bx = 34 → (∀ v ∈ vals, v = vals.headD 0) ∧ b = bitWidth32 (vals.headD 0) ∧ 1 ≤ b) ∧
    (1 ≤ bx → bx ≤ 32 → (∀ v ∈ vals, v < 2 ^ (b + bx)) ∧ b + bx ≤ 32 ∧ b < 32) ∧
    (bx = 33 → b ≤ 31 ∧ 1 ≤ (excPositions b vals).length ∧ (excPositions b vals).length ≤ 255) ∧
    (bx ≤ 32 ∨ bx = 33 ∨ bx = 34) := by
  have horlt : vals.foldl (fun a v => a ||| v) 0 < 2 ^ 32 :=
    (foldl_or_lt vals 0 32).mpr ⟨by norm_num, fun v hv => h32 v hv⟩
  have hmb32 : bitWidth32 (vals.foldl (fun a v => a ||| v) 0) ≤ 32 :=
    Nat.size_le.mpr horlt
  have hvw32 : ∀ v ∈ vals, bitWidth32 v ≤ 32 := by
    intro v hv
    exact Nat.size_le.mpr (lt_of_lt_of_le (h32 v hv) (by norm_num))
  have hallmb : ∀ v ∈ vals, v < 2 ^ bitWidth32 (vals.foldl (fun a v => a ||| v) 0) :=
    fun v hv => mem_lt_two_pow_size_foldl_or vals v hv
  simp only [p4Bits32] at hres
  by_cases hzero : vals.foldl (fun a v => a ||| v) 0 = 0
  · -- all-zero branch
    rw [if_pos hzero] at hres
    obtain ⟨rfl, rfl⟩ : 0 = b ∧ 0 = bx := by
      rw [Prod.mk.injEq] at hres
      exact hres
    refine ⟨by omega, ?_, by omega, by omega, by omega, by omega⟩
    intro _ v hv
    have := ((foldl_or_lt vals 0 0).mp (by rw [hzero]; norm_num)).2 v hv
    omega
  · rw [if_neg hzero] at hres
    by_cases hconst : vals.all (fun v => v = vals.headD 0)
    · -- constant branch
      rw [if_pos hconst] at hres
      obtain ⟨rfl, rfl⟩ : bitWidth32 (vals.foldl (fun a v => a ||| v) 0) = b ∧ 34 = bx := by
        rw [Prod.mk.injEq] at hres
        exact hres
      have hall : ∀ v ∈ vals, v = vals.headD 0 := by
        intro v hv
        have := List.all_eq_true.mp hconst v hv
        exact decide_eq_true_eq.mp this
      have hor : vals.foldl (fun a v => a ||| v) 0 = vals.headD 0 :=
        foldl_or_const vals (vals.headD 0) hall hne
      refine ⟨hmb32, by omega, fun _ => ⟨hall, by rw [hor], ?_⟩, by omega, by omega, by omega⟩
      exact Nat.size_pos.mpr (Nat.pos_of_ne_zero hzero)
    · -- loop branch
      rw [if_neg hconst] at hres
      have hmb1 : 1 ≤ bitWidth32 (vals.foldl (fun a v => a ||| v) 0) :=
        Nat.size_pos.mpr (Nat.pos_of_ne_zero hzero)
      have hzcnt : ∀ w, bitWidth32 (vals.foldl (fun a v => a ||| v) 0) < w →
          bitHist vals w = 0 := by
        intro w hw
        rw [bitHist_countP]
        apply List.countP_eq_zero.mpr
        intro v hv
        simp only [decide_eq_true_eq]
        have h1 : bitWidth32 v ≤ bitWidth32 (vals.foldl (fun a v => a ||| v) 0) :=
          Nat.size_le.mpr (hallmb v hv)
        omega
      rcases hloop : p4Loop (bitHist vals) vals.length
          (bitWidth32 (vals.foldl (fun a v => a ||| v) 0))
          (bitWidth32 (vals.foldl (fun a v => a ||| v) 0) - 1)
          (updAcc (fun _ => 0)
            (bitHist vals (bitWidth32 (vals.foldl (fun a v => a ||| v) 0)))
            (bitWidth32 (vals.foldl (fun a v => a ||| v) 0)))
          (bitWidth32 (vals.foldl (fun a v => a ||| v) 0)) false
          (pad8 (vals.length * bitWidth32 (vals.foldl (fun a v => a ||| v) 0)) + 1)
          (bitHist vals (bitWidth32 (vals.foldl (fun a v => a ||| v) 0)))
          (bitHist vals (bitWidth32 (vals.foldl (fun a v => a ||| v) 0)))
        with ⟨ro, ru⟩
      rw [hloop] at hres
      rw [← accX_init (bitHist vals) _ hmb1 hmb32 hzcnt] at hloop
      nth_rewrite 2 [← vvX_init (bitHist vals) _ hmb1 hmb32 hzcnt] at hloop
      rw [← excX_init (bitHist vals) _ hmb1 hmb32 hzcnt] at hloop
      have hxn : excX (bitHist vals) 0 ≤ vals.length := by
        rw [excX_bitHist vals hvw32 32 0 rfl]
        exact List.countP_le_length _
      have hinv := p4Loop_inv (bitHist vals) vals.length
        (bitWidth32 (vals.foldl (fun a v => a ||| v) 0)) hmb32 hxn hlen
        (bitWidth32 (vals.foldl (fun a v => a ||| v) 0) - 1) (by omega)
        _ false _ (by omega) (by intro hcon; cases hcon) (by omega)
        (by intro c hc1 hc2; omega) ro ru hloop
      obtain ⟨rfl, rfl⟩ : ro = b ∧ (if ru then 33 else
          bitWidth32 (vals.foldl (fun a v => a ||| v) 0) - ro) = bx := by
        rw [Prod.mk.injEq] at hres
        exact hres
      cases ru with
      | true =>
        rw [if_pos rfl]
        obtain ⟨hlt, hx255⟩ := hinv.2 rfl
        refine ⟨by omega, by omega, by omega, ?_, ?_, by omega⟩
        · intro h1 h2
          exfalso
          omega
        · intro _
          refine ⟨by omega, ?_, ?_⟩
          · rw [← excX_eq_excPositions_length vals hvw32 ro]
            have hmono : excX (bitHist vals)
                  (bitWidth32 (vals.foldl (fun a v => a ||| v) 0) - 1)
                ≤ excX (bitHist vals) ro := excX_antitone _ _ _ (by omega)
            rw [excX_init (bitHist vals) _ hmb1 hmb32 hzcnt] at hmono
            have hcnt := bitHist_max_pos vals hzero
            omega
          · rw [← excX_eq_excPositions_length vals hvw32 ro]
            exact hx255
      | false =>
        rw [if_neg (by simp)]
        have hro : ro ≤ bitWidth32 (vals.foldl (fun a v => a ||| v) 0) := hinv.1
        refine ⟨by omega, ?_, by omega, ?_, by omega, by omega⟩
        · intro hbx0 v hv
          have hmbeq : ro = bitWidth32 (vals.foldl (fun a v => a ||| v) 0) := by omega
          rw [hmbeq]
          exact hallmb v hv
        · intro h1 h2
          refine ⟨?_, by omega, by omega⟩
          intro v hv
          have hsum : ro + (bitWidth32 (vals.foldl (fun a v => a ||| v) 0) - ro)
              = bitWidth32 (vals.foldl (fun a v => a ||| v) 0) := by omega
          rw [hsum]
          exact hallmb v hv

/-! ## Per-strategy decode of the scalar encoder's output -/

/-- Array-level vbyte round trip (standalone form of the C6 facts, for use
inside the block-codec proofs). -/
theorem vbDec32_vbEnc32 (vals rest : List Nat) (h : ∀ v ∈ vals, v < 4294967296) :
    vbDec32 vals.length (vbEnc32 vals ++ rest) = (vals, rest) := by
  by_cases hesc : (vals.map vbPut32).flatten.length + 32 > 4 * vals.length
  · have henc : vbEnc32 vals = 255 :: (vals.map (leBytes 4)).flatten := by
      unfold vbEnc32
      rw [if_pos hesc]
    rw [henc]
    show vbDec32 vals.length (255 :: ((vals.map (leBytes 4)).flatten ++ rest))
      = (vals, rest)
    rw [vbDec32_escape]
    exact vbDecRaw_reads vals h rest
  · have henc : vbEnc32 vals = (vals.map vbPut32).flatten := by
      unfold vbEnc32
      rw [if_neg hesc]
    have hne : vals ≠ [] := by
      intro hnil
      rw [hnil] at hesc
      simp at hesc
    obtain ⟨v0, vs, rfl⟩ := List.exists_cons_of_ne_nil hne
    have hv0 : v0 < 4294967296 := h v0 (List.mem_cons_self v0 vs)
    obtain ⟨b0, bt, hb⟩ := List.exists_cons_of_ne_nil (vbPut32_ne_nil v0)
    have hhead : (vbPut32 v0).headD 0 ≤ 253 := vbPut32_head_le v0 hv0
    rw [hb] at hhead
    simp only [List.headD_cons] at hhead
    have hflat : ((v0 :: vs).map vbPut32).flatten
        = b0 :: (bt ++ (vs.map vbPut32).flatten) := by
      simp [hb]
    have hloop := vbGetLoop_flatten (v0 :: vs) h rest
    rw [henc, hflat]
    show vbDec32 (v0 :: vs).length (b0 :: (bt ++ (vs.map vbPut32).flatten ++ rest))
      = (v0 :: vs, rest)
    rw [vbDec32_not_escape _ _ _ (by omega)]
    rw [hflat] at hloop
    simpa using hloop

/-- Header-byte facts for the simple path. -/
theorem hdr_simple_facts (b : Nat) (hb : b ≤ 32) :
    b % 256 = b ∧ b &&& 192 = 0 := by
  have hd : ∀ x : Fin 33, x.val % 256 = x.val ∧ x.val &&& 192 = 0 := by decide
  exact hd ⟨b, by omega⟩

/-- Header-byte facts for the patched path. -/
theorem hdr_patch_facts (b : Nat) (hb : b ≤ 31) :
    (128 ||| b) % 256 = 128 + b ∧ ¬ (128 + b) &&& 192 = 0 ∧ (128 + b) &&& 64 = 0 ∧
      (128 + b) &&& 127 = b := by
  have hd : ∀ x : Fin 32, (128 ||| x.val) % 256 = 128 + x.val ∧
      ¬ (128 + x.val) &&& 192 = 0 ∧ (128 + x.val) &&& 64 = 0 ∧
      (128 + x.val) &&& 127 = x.val := by decide
  exact hd ⟨b, by omega⟩

/-- Header-byte facts for the vbyte path. -/
theorem hdr_vbyte_facts (b : Nat) (hb : b ≤ 31) :
    (64 ||| b) % 256 = 64 + b ∧ ¬ (64 + b) &&& 192 = 0 ∧ ¬ (64 + b) &&& 64 = 0 ∧
      ¬ (64 + b) &&& 192 = 192 ∧ (64 + b) &&& 63 = b := by
  have hd : ∀ x : Fin 32, (64 ||| x.val) % 256 = 64 + x.val ∧
      ¬ (64 + x.val) &&& 192 = 0 ∧ ¬ (64 + x.val) &&& 64 = 0 ∧
      ¬ (64 + x.val) &&& 192 = 192 ∧ (64 + x.val) &&& 63 = x.val := by decide
  exact hd ⟨b, by omega⟩

/-- Header-byte facts for the constant path. -/
theorem hdr_const_facts (b : Nat) (hb : b ≤ 32) :
    (192 ||| b) % 256 = 192 + b ∧ ¬ (192 + b) &&& 192 = 0 ∧ ¬ (192 + b) &&& 64 = 0 ∧
      (192 + b) &&& 192 = 192 ∧ (192 + b) &&& 63 = b := by
  have hd : ∀ x : Fin 33, (192 ||| x.val) % 256 = 192 + x.val ∧
      ¬ (192 + x.val) &&& 192 = 0 ∧ ¬ (192 + x.val) &&& 64 = 0 ∧
      (192 + x.val) &&& 192 = 192 ∧ (192 + x.val) &&& 63 = x.val := by decide
  exact hd ⟨b, by omega⟩

/-- Simple-packing blocks decode back to the delta scan of the input. -/
theorem p4Dec32_simple (b : Nat) (hb : b ≤ 32) (vals rest : List Nat) (s : Nat)
    (hv : ∀ v ∈ vals, v < 2 ^ b) :
    p4D1Dec32 vals.length (writeHeader b 0 ++ bitpack32Scalar b vals ++ rest) s
      = Except.ok (d1scan s vals, rest) := by
  obtain ⟨h1, h2⟩ := hdr_simple_facts b hb
  rw [writeHeader, if_pos rfl]
  show p4D1Dec32 vals.length (b % 256 :: (bitpack32Scalar b vals ++ rest)) s = _
  simp only [p4D1Dec32]
  rw [h1]
  rw [Nat.mod_eq_of_lt (by omega : b < 256)]
  rw [if_pos h2, if_pos hb]
  rw [bitunpackd1_32Scalar, bitunpack_bitpack32 b vals rest hv, bitpack32Scalar_drop]

/-- Constant blocks decode back to the delta scan of the input. -/
theorem p4Dec32_const (c : Nat) (hc : c < 4294967296) (hcpos : 0 < c)
    (vals rest : List Nat) (s : Nat) (hvals : ∀ v ∈ vals, v = c) :
    p4D1Dec32 vals.length
        (writeHeader (bitWidth32 c) 34 ++ p4Enc32Payload vals (bitWidth32 c) 34 ++ rest) s
      = Except.ok (d1scan s vals, rest) := by
  have hb1 : 1 ≤ bitWidth32 c := Nat.size_pos.mpr hcpos
  have hb32 : bitWidth32 c ≤ 32 := Nat.size_le.mpr (by
    calc c < 4294967296 := hc
      _ = 2 ^ 32 := by norm_num)
  have hclt : c < 2 ^ bitWidth32 c := Nat.lt_size_self c
  obtain ⟨h1, h2, h3, h4, h5⟩ := hdr_const_facts (bitWidth32 c) hb32
  rw [writeHeader, if_neg (by omega), if_neg (by omega)]
  rw [if_neg (by omega)]
  have hpay : p4Enc32Payload vals (bitWidth32 c) 34
      = leBytes (pad8 (bitWidth32 c)) (vals.headD 0 % 2 ^ bitWidth32 c) := by
    rw [p4Enc32Payload, if_neg (by omega), if_neg (by omega), if_pos rfl]
    by_cases hb32' : bitWidth32 c = 32
    · rw [if_pos hb32', hb32']
      rw [show pad8 32 = 4 from rfl, show (2 : Nat) ^ 32 = 4294967296 by norm_num]
    · rw [if_neg hb32']
  rw [hpay]
  show p4D1Dec32 vals.length ((192 ||| bitWidth32 c) % 256 ::
    (leBytes (pad8 (bitWidth32 c)) (vals.headD 0 % 2 ^ bitWidth32 c) ++ rest)) s = _
  simp only [p4D1Dec32]
  rw [h1]
  rw [Nat.mod_eq_of_lt (by omega : 192 + bitWidth32 c < 256)]
  rw [if_neg h2, if_neg h3, if_pos h4, h5]
  rw [if_pos (by rw [pad8]; omega)]
  have hhead : vals.headD 0 % 2 ^ bitWidth32 c = c ∨ vals = [] := by
    cases vals with
    | nil => exact Or.inr rfl
    | cons x xs =>
      left
      rw [show (x :: xs).headD 0 = x from rfl, hvals x (List.mem_cons_self x xs),
        Nat.mod_eq_of_lt hclt]
  have hrepl : vals = List.replicate vals.length c := by
    apply List.eq_replicate_of_mem
    exact hvals
  rcases hhead with hh | hh
  · rw [hh]
    rw [List.take_left' (leBytes_length _ _), bytesToNat_leBytes]
    have hcmod : c % 256 ^ pad8 (bitWidth32 c) = c := by
      apply Nat.mod_eq_of_lt
      calc c < 2 ^ bitWidth32 c := hclt
        _ ≤ 256 ^ pad8 (bitWidth32 c) := by
          rw [show (256 : Nat) = 2 ^ 8 by norm_num, ← pow_mul]
          apply Nat.pow_le_pow_right (by omega)
          rw [pad8]
          omega
    rw [hcmod, Nat.mod_eq_of_lt hclt]
    rw [List.drop_left' (leBytes_length _ _)]
    rw [d1scan, ← hrepl]
  · subst hh
    show Except.ok (d1go s 0 (List.replicate 0 _), _) = _
    rw [List.take_left' (leBytes_length _ _), List.drop_left' (leBytes_length _ _)]
    rfl

theorem baseVals_length (b : Nat) (vals : List Nat) :
    (baseVals b vals).length = vals.length := by
  rw [baseVals, List.length_map]

theorem baseVals_lt (b : Nat) (vals : List Nat) :
    ∀ v ∈ baseVals b vals, v < 2 ^ b := by
  intro v hv
  rw [baseVals, List.mem_map] at hv
  obtain ⟨x, _, rfl⟩ := hv
  exact Nat.mod_lt _ (Nat.pos_pow_of_pos b (by omega))

theorem excVals_lt (b k : Nat) (vals : List Nat) (h : ∀ v ∈ vals, v < 2 ^ (b + k)) :
    ∀ e ∈ excVals b vals, e < 2 ^ k := by
  intro e he
  rw [excVals, List.mem_map] at he
  obtain ⟨p, hp, rfl⟩ := he
  have hplt := ((mem_excPositions b vals p).mp hp).1
  have hv : vals.getD p 0 < 2 ^ (b + k) := by
    rw [List.getD_eq_getElem _ _ hplt]
    exact h _ (List.getElem_mem _)
  rw [Nat.div_lt_iff_lt_mul (Nat.pos_pow_of_pos b (by omega))]
  calc vals.getD p 0 < 2 ^ (b + k) := hv
    _ = 2 ^ k * 2 ^ b := by rw [← pow_add]; ring_nf

/-- Patched (bitmap) blocks decode back to the delta scan of the input. -/
theorem p4Dec32_patch (b bx : Nat) (hb : b ≤ 31) (hbx1 : 1 ≤ bx) (hbx : bx ≤ 32)
    (vals rest : List Nat) (s : Nat)
    (hv : ∀ v ∈ vals, v < 2 ^ (b + bx)) (hbbx : b + bx ≤ 32) :
    p4D1Dec32 vals.length
        (writeHeader b bx ++ p4Enc32PayloadExceptions vals b bx ++ rest) s
      = Except.ok (d1scan s vals, rest) := by
  have hv32 : ∀ v ∈ vals, v < 4294967296 := by
    intro v hvv
    calc v < 2 ^ (b + bx) := hv v hvv
      _ ≤ 2 ^ 32 := Nat.pow_le_pow_right (by omega) hbbx
      _ = 4294967296 := by norm_num
  obtain ⟨h1, h2, h3, h4⟩ := hdr_patch_facts b hb
  rw [writeHeader, if_neg (by omega), if_pos hbx]
  rw [p4Enc32PayloadExceptions, if_pos hbx]
  show p4D1Dec32 vals.length ((128 ||| b) % 256 :: bx % 256 ::
      ((leBytes (pad8 vals.length) (bitmapOf (excPositions b vals)) ++
        bitpack32Scalar bx (excVals b vals) ++ bitpack32Scalar b (baseVals b vals)) ++ rest)) s
    = _
  simp only [p4D1Dec32]
  rw [h1, Nat.mod_eq_of_lt (by omega : 128 + b < 256)]
  rw [if_neg h2, if_pos h3, h4]
  rw [Nat.mod_eq_of_lt (by omega : bx < 256), Nat.mod_eq_of_lt (by omega : bx < 256)]
  rw [if_neg (by omega : ¬ bx = 0)]
  simp only [p4D1DecPayloadExceptions]
  rw [if_pos (⟨by omega, hbx⟩ : b ≤ 32 ∧ bx ≤ 32)]
  rw [List.append_assoc, List.append_assoc]
  rw [bitmap_read_back vals.length (pad8 vals.length) _ _ _
    (bitmapOf_lt _ _ (excPositions_lt b vals)) rfl
    (by rw [pad8]; omega)]
  have hposid : bitPositions vals.length (bitmapOf (excPositions b vals))
      = excPositions b vals := by
    rw [excPositions]
    exact bitPositions_bitmapOf vals.length _
  rw [hposid]
  rw [List.drop_left' (leBytes_length _ _)]
  rw [show (excPositions b vals).length = (excVals b vals).length from
    (excVals_length b vals).symm]
  rw [bitunpack_bitpack32 bx (excVals b vals) _ (excVals_lt b bx vals hv)]
  rw [bitpack32Scalar_drop]
  rw [show vals.length = (baseVals b vals).length from (baseVals_length b vals).symm]
  rw [bitunpack_bitpack32 b (baseVals b vals) rest (baseVals_lt b vals)]
  rw [bitpack32Scalar_drop]
  rw [mergeAt_reconstruct b vals hv32]

set_option maxHeartbeats 1000000 in
/-- Vbyte-exception blocks decode back to the delta scan of the input. -/
theorem p4Dec32_vbyte (b : Nat) (hb : b ≤ 31) (vals rest : List Nat) (s : Nat)
    (hlen : vals.length ≤ 256) (hv32 : ∀ v ∈ vals, v < 4294967296)
    (hx : (excPositions b vals).length ≤ 255) :
    p4D1Dec32 vals.length
        (writeHeader b 33 ++ p4Enc32PayloadExceptions vals b 33 ++ rest) s
      = Except.ok (d1scan s vals, rest) := by
  obtain ⟨h1, h2, h3, h4, h5⟩ := hdr_vbyte_facts b hb
  rw [writeHeader, if_neg (by omega), if_neg (by omega), if_pos rfl]
  rw [p4Enc32PayloadExceptions, if_neg (by omega)]
  simp only [List.singleton_append, List.cons_append, List.append_assoc, List.nil_append]
  simp only [p4D1Dec32]
  rw [h1, Nat.mod_eq_of_lt (by omega : 64 + b < 256)]
  rw [if_neg h2, if_neg h3, if_neg h4, h5]
  rw [Nat.mod_eq_of_lt (by omega : (excPositions b vals).length % 256 < 256)]
  rw [Nat.mod_eq_of_lt (by omega : (excPositions b vals).length < 256)]
  rw [if_pos (by omega : b ≤ 32)]
  rw [show vals.length = (baseVals b vals).length from (baseVals_length b vals).symm]
  rw [bitunpack_bitpack32 b (baseVals b vals) _ (baseVals_lt b vals)]
  rw [bitpack32Scalar_drop]
  have hexc32 : ∀ e ∈ excVals b vals, e < 4294967296 := by
    have h32 : ∀ v ∈ vals, v < 2 ^ (b + (32 - b)) := by
      intro v hvv
      rw [show b + (32 - b) = 32 by omega]
      calc v < 4294967296 := hv32 v hvv
        _ = 2 ^ 32 := by norm_num
    intro e he
    calc e < 2 ^ (32 - b) := excVals_lt b (32 - b) vals h32 e he
      _ ≤ 2 ^ 32 := Nat.pow_le_pow_right (by omega) (by omega)
      _ = 4294967296 := by norm_num
  rw [show (excPositions b vals).length = (excVals b vals).length from
    (excVals_length b vals).symm]
  rw [vbDec32_vbEnc32 (excVals b vals) _ hexc32]
  rw [show (excVals b vals).length = (excPositions b vals).length from
    excVals_length b vals]
  rw [posBytes_read (excPositions b vals) rest (by
    intro p hp
    have := excPositions_lt b vals p hp
    omega)]
  rw [List.drop_left' (by rw [List.length_map])]
  show Except.ok (d1scan s
      (mergeAt b (baseVals b vals) (excPositions b vals) (excVals b vals)), rest) = _
  rw [mergeAt_reconstruct b vals hv32]

theorem delta1of_length (prev : Nat) (X : List Nat) :
    (delta1of prev X).length = X.length := by
  induction X generalizing prev with
  | nil => rfl
  | cons x xs ih =>
    show (_ :: delta1of x xs).length = _
    rw [List.length_cons, List.length_cons, ih]

theorem delta1of_lt (prev : Nat) (X : List Nat) :
    ∀ d ∈ delta1of prev X, d < 4294967296 := by
  induction X generalizing prev with
  | nil => intro d hd; simp [delta1of] at hd
  | cons x xs ih =>
    intro d hd
    rcases List.mem_cons.mp hd with h | h
    · rw [h]
      exact Nat.mod_lt _ (by omega)
    · exact ih x d h

/-- Central scalar round trip: decoding the scalar encoding of any
nonempty block of at most 256 uint32s returns its delta1 scan and leaves
the unread suffix. -/
theorem p4RoundTrip32 (D rest : List Nat) (hne : D ≠ []) (hlen : D.length ≤ 256)
    (hv : ∀ v ∈ D, v < 4294967296) (s : Nat) :
    p4D1Dec32 D.length (p4Enc32 D ++ rest) s = Except.ok (d1scan s D, rest) := by
  rcases hbits : p4Bits32 D with ⟨b, bx⟩
  obtain ⟨hb32, hsimple, hconst, hpatch, hvb, hclasses⟩ :=
    p4Bits32_spec D hne hv hlen b bx hbits
  rw [p4Enc32, hbits]
  show p4D1Dec32 D.length ((writeHeader b bx ++ p4Enc32Payload D b bx) ++ rest) s = _
  rw [List.append_assoc]
  by_cases hbx0 : bx = 0
  · subst hbx0
    have hpay : p4Enc32Payload D b 0 = bitpack32Scalar b D := by
      rw [p4Enc32Payload]
      by_cases hb0 : b = 0
      · rw [if_pos ⟨hb0, rfl⟩, hb0, bitpack32Scalar, Nat.mul_zero]
        rfl
      · rw [if_neg (by intro hc; exact hb0 hc.1), if_pos rfl]
    rw [hpay]
    rw [← List.append_assoc (writeHeader b 0)]
    rw [show writeHeader b 0 ++ bitpack32Scalar b D ++ rest
      = writeHeader b 0 ++ (bitpack32Scalar b D ++ rest) from List.append_assoc _ _ _]
    exact p4Dec32_simple b hb32 D rest s (hsimple rfl)
  · by_cases hbx34 : bx = 34
    · subst hbx34
      obtain ⟨hall, hbeq, hb1⟩ := hconst rfl
      have hcd : D.headD 0 ∈ D := by
        obtain ⟨x, xs, rfl⟩ := List.exists_cons_of_ne_nil hne
        exact List.mem_cons_self _ _
      have hc32 : D.headD 0 < 4294967296 := hv _ hcd
      have hcpos : 0 < D.headD 0 := by
        by_contra hc
        have hz : D.headD 0 = 0 := by omega
        rw [hbeq, hz] at hb1
        rw [show bitWidth32 0 = 0 from Nat.size_zero] at hb1
        omega
      rw [hbeq]
      exact p4Dec32_const (D.headD 0) hc32 hcpos D rest s hall
    · by_cases hbx33 : bx = 33
      · subst hbx33
        obtain ⟨hb31, hx1, hx255⟩ := hvb rfl
        have hpay : p4Enc32Payload D b 33 = p4Enc32PayloadExceptions D b 33 := by
          rw [p4Enc32Payload, if_neg (by omega), if_neg (by omega), if_neg (by omega)]
        rw [hpay, ← List.append_assoc]
        exact p4Dec32_vbyte b hb31 D rest s hlen hv hx255
      · have hbx1 : 1 ≤ bx := by omega
        have hbxle : bx ≤ 32 := by
          rcases hclasses with h | h | h
          · exact h
          · exact absurd h hbx33
          · exact absurd h hbx34
        obtain ⟨hvfit, hbbx, hblt⟩ := hpatch hbx1 hbxle
        have hpay : p4Enc32Payload D b bx = p4Enc32PayloadExceptions D b bx := by
          rw [p4Enc32Payload, if_neg (by intro hc; exact hbx0 hc.2),
            if_neg hbx0, if_neg hbx34]
        rw [hpay, ← List.append_assoc]
        exact p4Dec32_patch b bx (by omega) hbx1 hbxle D rest s hvfit hbbx

/-! ## The 128-element analyzer `p4Bits128` (`src/unnamed/part_006`)

Identical cost model to `p4Bits32`; the loop body computes both candidate
costs first, updates the running state, then performs the two comparisons
(`l < ml` for patching, then `v < ml` for vbyte) in sequence. -/

/-- One candidate evaluation of the `p4Bits128` loop. -/
def p4Bits128Step (n mb bb x vv : Nat) (opt : Nat) (fx : Bool) (ml : Nat) :
    Nat × Bool × Nat :=
  let v := pad8 (n * bb) + 2 + x + vv
  let l := pad8 (n * bb) + 2 + pad8 n + pad8 (x * (mb - bb))
  let s1 := if l < ml then (bb, false, l) else (opt, fx, ml)
  if v < s1.2.2 then (bb, true, v) else s1

/-- The candidate loop of `p4Bits128` (`for i = b-1 downto 0`). -/
def p4Loop128 (cnt : Nat → Nat) (n mb : Nat) :
    Nat → (Int → Nat) → Nat → Bool → Nat → Nat → Nat → Nat × Bool
  | 0, _, opt, fx, ml, x, vv =>
    let r := p4Bits128Step n mb 0 x vv opt fx ml
    (r.1, r.2.1)
  | bb + 1, acc, opt, fx, ml, x, vv =>
    let r := p4Bits128Step n mb (bb + 1) x vv opt fx ml
    p4Loop128 cnt n mb bb (updAcc acc (cnt (bb + 1)) (bb + 1)) r.1 r.2.1 r.2.2
      (x + cnt (bb + 1)) (vv + cnt (bb + 1) + acc (bb + 1))

/-- `p4Bits128`: the specialized 128-element analyzer.  The constant check
precedes the zero check, and a (dead) `x == 0` early exit precedes the
loop. -/
def p4Bits128 (vals : List Nat) : Nat × Nat :=
  let orv := vals.foldl (fun a v => a ||| v) 0
  let mb := bitWidth32 orv
  if vals.all (fun v => v = vals.headD 0) ∧ vals.headD 0 ≠ 0 then (mb, 34)
  else if mb = 0 then (0, 0)
  else
    let cnt := bitHist vals
    let x0 := cnt mb
    if x0 = 0 then (mb, 0)
    else
      let r := p4Loop128 cnt vals.length mb (mb - 1) (updAcc (fun _ => 0) x0 mb)
        mb false (pad8 (vals.length * mb) + 1) x0 x0
      (r.1, if r.2 then 33 else mb - r.1)

/-! ## 128v / 256v encoders and decoders
(`p4enc128v32_scalar.cpp`, `p4d1dec128v32_scalar.cpp`, `part_007`
(`p4Enc256v32`), `simd/p4d1dec256v32.cpp`). -/

/-- The wide encoders' `base_mask`: full 32-bit mask once `b ≥ 32`. -/
def maskOfWidth (b : Nat) : Nat := if 32 ≤ b then 4294967295 else 2 ^ b - 1

/-- Base parts under the clamped mask (`in[i] & base_mask`). -/
def baseValsV (b : Nat) (vals : List Nat) : List Nat :=
  vals.map (fun v => if 32 ≤ b then v % 4294967296 else v % 2 ^ b)

/-- Exception positions under the clamped mask. -/
def excPositionsV (b : Nat) (vals : List Nat) : List Nat :=
  (List.range vals.length).filter (fun i => maskOfWidth b < vals.getD i 0)

/-- Exception high parts. -/
def excValsV (b : Nat) (vals : List Nat) : List Nat :=
  (excPositionsV b vals).map (fun i => vals.getD i 0 / 2 ^ b)

/-- Exception payloads of the wide encoders, parameterized by the lane
count `L` (4 for `128v32`, 8 for `256v32`).  Patch bits use the horizontal
packer, base bits the vertical one. -/
def p4EncVPayloadExceptions (L : Nat) (vals : List Nat) (b bx : Nat) : List Nat :=
  if bx ≤ 32 then
    leBytes (pad8 vals.length) (bitmapOf (excPositionsV b vals)) ++
      bitpack32Scalar bx (excValsV b vals) ++
      packVGen L b (baseValsV b vals)
  else
    (excPositionsV b vals).length % 256 ::
      (packVGen L b (baseValsV b vals) ++
        vbEnc32 (excValsV b vals) ++
        (excPositionsV b vals).map (fun p => p % 256))

/-- Wide payload: `bx = 0` always goes through the packer (which emits
nothing for `b = 0`); the constant branch stores the 4-byte value and
advances `pad8 b` bytes, so its surviving output is the value's low
`pad8 b` bytes. -/
def p4EncVPayload (L : Nat) (vals : List Nat) (b bx : Nat) : List Nat :=
  if bx = 0 then packVGen L b vals
  else if bx = 34 then leBytes (pad8 b) (vals.headD 0 % 4294967296)
  else p4EncVPayloadExceptions L vals b bx

/-- `p4Enc128v32`: analyzer dispatch (`p4Bits128` for exactly 128 values),
header, payload.  Empty input produces no output. -/
def p4Enc128v32 (vals : List Nat) : List Nat :=
  if vals.length = 0 then []
  else
    let r := if vals.length = 128 then p4Bits128 vals else p4Bits32 vals
    writeHeader r.1 r.2 ++ p4EncVPayload 4 vals r.1 r.2

/-- `p4Enc256v32`: same driver with the 8-lane packer and `p4Bits32`. -/
def p4Enc256v32 (vals : List Nat) : List Nat :=
  if vals.length = 0 then []
  else
    writeHeader (p4Bits32 vals).1 (p4Bits32 vals).2 ++
      p4EncVPayload 8 vals (p4Bits32 vals).1 (p4Bits32 vals).2

/-- Bitmap-patched payload decode of the scalar 128v driver
(`p4D1Dec128PayloadBitmap`, used with `L = 4`): masked bitmap words,
horizontal patch-bit unpack for every exception count, vertical base
unpack, patch merge, delta1.  (The 256v AVX2 driver instead chunks the
patch unpack — see `p4D1Dec256PayloadBitmap`.)  Widths beyond 32 hit
undefined behavior in the source (shift by `b ≥ 32` / table overrun),
modelled as `Except.error`. -/
def p4D1DecVPayloadBitmap (L n : Nat) (bs : List Nat) (start b bx : Nat) :
    Except Unit (List Nat × List Nat) :=
  if b ≤ 32 ∧ bx ≤ 32 then
    let bitmap := bytesToNat (bs.take (8 * ((n + 63) / 64))) % 2 ^ n
    let positions := bitPositions n bitmap
    let t1 := bs.drop (pad8 n)
    let excs := bitunpack32Scalar positions.length bx t1
    let t2 := t1.drop (pad8 (positions.length * bx))
    Except.ok (d1scan start (mergeAt b (unpackVGen L b t2) positions excs),
      t2.drop (b * (4 * L)))
  else Except.error ()

/-- `p4D1Dec128Payload`: simple or bitmap-patched 128v payload. -/
def p4D1Dec128Payload (n : Nat) (bs : List Nat) (start b bx : Nat) :
    Except Unit (List Nat × List Nat) :=
  if b &&& 128 = 0 then
    if b ≤ 32 then
      Except.ok (d1scan start (unpackVGen 4 b bs), bs.drop (b * (4 * 4)))
    else Except.error ()
  else
    if bx = 0 then
      if b &&& 127 ≤ 32 then
        Except.ok (d1scan start (unpackVGen 4 (b &&& 127) bs), bs.drop ((b &&& 127) * (4 * 4)))
      else Except.error ()
    else p4D1DecVPayloadBitmap 4 n bs start (b &&& 127) bx

/-- `p4D1Dec128v32` (scalar 128v decoder): constant path first (4-byte
load, mask only when `b < 32`, advance `pad8 b`), then simple/bitmap,
then vbyte exceptions. -/
def p4D1Dec128v32 (n : Nat) (bs : List Nat) (start : Nat) :
    Except Unit (List Nat × List Nat) :=
  match bs with
  | [] => Except.error ()
  | h0 :: t =>
    let h := h0 % 256
    if h &&& 192 = 192 then
      let b := h &&& 63
      let cv := if b < 32 then bytesToNat (t.take 4) % 2 ^ b else bytesToNat (t.take 4)
      Except.ok (d1go start 0 (List.replicate n cv), t.drop (pad8 b))
    else if h &&& 64 = 0 then
      if h &&& 128 = 0 then p4D1Dec128Payload n t start h 0
      else
        match t with
        | [] => Except.error ()
        | bx0 :: t2 => p4D1Dec128Payload n t2 start h (bx0 % 256)
    else
      match t with
      | [] => Except.error ()
      | c0 :: t2 =>
        let bx := c0 % 256
        let b := h &&& 63
        if b ≤ 32 then
          let base := unpackVGen 4 b t2
          let t3 := t2.drop (b * (4 * 4))
          let r := vbDec32 bx t3
          let positions := (List.range bx).map (fun i => r.2.getD i 0 % 256)
          Except.ok (d1scan start (mergeAt b base positions r.1), r.2.drop bx)
        else Except.error ()

/-- 32-bit row count one AVX2 chunk unpack consumes
(`bitunpack_avx2_entry<B, Count, false, false>` with `Count = 8·g`):
`⌈g·b/32⌉` rows of 32 bytes; `b = 0` zero-fills and reads nothing on this
non-patching path. -/
def vChunkRows (g b : Nat) : Nat := (g * b + 31) / 32

/-- One AVX2 chunk unpack of `8·g` values at width `b`
(`BitUnpackAVX2Table<8·g>`): the 8-lane vertical layout over
`vChunkRows g b` 32-byte rows — value `i` is bits `[(i/8)·b, (i/8)·b+b)`
of lane `i % 8`'s stream. -/
def unpackVChunk (g b : Nat) (bs : List Nat) : List Nat :=
  (List.range (8 * g)).map
    (fun i => laneStreamRec 8 (i % 8) bs (vChunkRows g b) / 2 ^ (i / 8 * b) % 2 ^ b)

/-- The exception-value unpack of `p4D1Dec256Exceptions`
(`p4d1dec256v32.cpp`): chunks of 128 values through
`BitUnpackAVX2Table<128>` while 128 or more remain, then chunks of 32
through `BitUnpackAVX2Table<32>`, then a horizontal `bitunpack32Scalar`
remainder below 32.  Returns the unpacked values and the stream after the
consumed bytes. -/
def excUnpack256 (bx num : Nat) (bs : List Nat) : List Nat × List Nat :=
  let c128 := num / 128
  let t1 := bs.drop (c128 * (32 * vChunkRows 16 bx))
  let c32 := num % 128 / 32
  let t2 := t1.drop (c32 * (32 * vChunkRows 4 bx))
  let r := num % 32
  ((List.range c128).flatMap
      (fun k => unpackVChunk 16 bx (bs.drop (k * (32 * vChunkRows 16 bx)))) ++
    (List.range c32).flatMap
      (fun k => unpackVChunk 4 bx (t1.drop (k * (32 * vChunkRows 4 bx)))) ++
    bitunpack32Scalar r bx t2,
   t2.drop (pad8 (r * bx)))

/-- The 256v bitmap-patched payload decode (`p4D1Dec256Exceptions` followed
by `bitd1unpack256v32_ex`): masked bitmap, chunked exception unpack, 8-lane
vertical base unpack over all 256 outputs, bitmap-driven merge, delta1.
The patched base kernel (`bitunpack_avx2_entry<B, 256, true, true>`) has no
`B = 0` early return, so it consumes one 32-byte row even at width `0`;
otherwise `32·b` bytes.  The driver's tail loop for `n` not a multiple of 8
is not taken at the claims' `n = 256`.  Widths beyond the 33-entry tables
are undefined behavior, modelled as `Except.error`. -/
def p4D1Dec256PayloadBitmap (n : Nat) (bs : List Nat) (start b bx : Nat) :
    Except Unit (List Nat × List Nat) :=
  if b ≤ 32 ∧ bx ≤ 32 then
    let bitmap := bytesToNat (bs.take (8 * ((n + 63) / 64))) % 2 ^ n
    let positions := bitPositions n bitmap
    let t1 := bs.drop (pad8 n)
    let er := excUnpack256 bx positions.length t1
    Except.ok (d1scan start (mergeAt b (unpackVGen 8 b er.2) positions er.1),
      er.2.drop (32 * (if b = 0 then 1 else b)))
  else Except.error ()

/-- `p4D1Dec256v32` (the AVX2 driver, whose kernels realize the 8-lane
unpack + delta1): constant path, PFOR path (with a fused fast path when
there is no exception byte or it is zero, and the chunked exception path
otherwise), vbyte path (also with a `bx = 0` fast path). -/
def p4D1Dec256v32 (n : Nat) (bs : List Nat) (start : Nat) :
    Except Unit (List Nat × List Nat) :=
  match bs with
  | [] => Except.error ()
  | h0 :: t =>
    let h := h0 % 256
    if h &&& 192 = 192 then
      let b := h &&& 63
      let cv := if b < 32 then bytesToNat (t.take 4) % 2 ^ b else bytesToNat (t.take 4)
      Except.ok (d1go start 0 (List.replicate n cv), t.drop (pad8 b))
    else if h &&& 64 = 0 then
      if h &&& 128 = 0 then
        if h ≤ 32 then
          Except.ok (d1scan start (unpackVGen 8 h t), t.drop (h * (4 * 8)))
        else Except.error ()
      else
        match t with
        | [] => Except.error ()
        | bx0 :: t2 =>
          let b := h &&& 127
          if bx0 % 256 = 0 then
            if b ≤ 32 then
              Except.ok (d1scan start (unpackVGen 8 b t2), t2.drop (b * (4 * 8)))
            else Except.error ()
          else p4D1Dec256PayloadBitmap n t2 start b (bx0 % 256)
    else
      match t with
      | [] => Except.error ()
      | c0 :: t2 =>
        let bx := c0 % 256
        let b := h &&& 63
        if bx = 0 then
          if b ≤ 32 then
            Except.ok (d1scan start (unpackVGen 8 b t2), t2.drop (b * (4 * 8)))
          else Except.error ()
        else if b ≤ 32 then
          let base := unpackVGen 8 b t2
          let t3 := t2.drop (b * (4 * 8))
          let r := vbDec32 bx t3
          let positions := (List.range bx).map (fun i => r.2.getD i 0 % 256)
          Except.ok (d1scan start (mergeAt b base positions r.1), r.2.drop bx)
        else Except.error ()

/-! ## `p4Bits128` computes the same decision as `p4Bits32` -/

theorem p4Bits128Step_eq (n mb bb x vv opt ml : Nat) (u : Bool) :
    p4Bits128Step n mb bb x vv opt u ml = p4Step n mb bb x vv opt u ml := by
  rw [p4Bits128Step, p4Step]
  by_cases hA : pad8 (n * bb) + 2 + pad8 n + pad8 (x * (mb - bb)) < ml
  · rw [if_pos hA]
    by_cases hC : pad8 (n * bb) + 2 + x + vv <
        ((bb, false, pad8 (n * bb) + 2 + pad8 n + pad8 (x * (mb - bb))) : Nat × Bool × Nat).2.2
    · rw [if_pos hC]
      have hC' : pad8 (n * bb) + 2 + x + vv
          < pad8 (n * bb) + 2 + pad8 n + pad8 (x * (mb - bb)) := hC
      rw [if_neg (by omega), if_pos (by omega)]
    · rw [if_neg hC]
      have hC' : ¬ pad8 (n * bb) + 2 + x + vv
          < pad8 (n * bb) + 2 + pad8 n + pad8 (x * (mb - bb)) := hC
      rw [if_pos ⟨hA, by omega⟩]
  · rw [if_neg hA]
    by_cases hB : pad8 (n * bb) + 2 + x + vv < ((opt, u, ml) : Nat × Bool × Nat).2.2
    · rw [if_pos hB]
      rw [if_neg (show ¬ (pad8 (n * bb) + 2 + pad8 n + pad8 (x * (mb - bb)) < ml ∧
        pad8 (n * bb) + 2 + pad8 n + pad8 (x * (mb - bb)) ≤ pad8 (n * bb) + 2 + x + vv)
        from fun hc => hA hc.1)]
    · rw [if_neg hB]
      rw [if_neg (show ¬ (pad8 (n * bb) + 2 + pad8 n + pad8 (x * (mb - bb)) < ml ∧
        pad8 (n * bb) + 2 + pad8 n + pad8 (x * (mb - bb)) ≤ pad8 (n * bb) + 2 + x + vv)
        from fun hc => hA hc.1)]

theorem p4Loop128_eq (cnt : Nat → Nat) (n mb : Nat) :
    ∀ bb acc opt (u : Bool) ml x vv,
      p4Loop128 cnt n mb bb acc opt u ml x vv = p4Loop cnt n mb bb acc opt u ml x vv := by
  intro bb
  induction bb with
  | zero =>
    intro acc opt u ml x vv
    show ((p4Bits128Step n mb 0 x vv opt u ml).1, (p4Bits128Step n mb 0 x vv opt u ml).2.1)
      = ((p4Step n mb 0 x vv opt u ml).1, (p4Step n mb 0 x vv opt u ml).2.1)
    rw [p4Bits128Step_eq]
  | succ bb ih =>
    intro acc opt u ml x vv
    show p4Loop128 cnt n mb bb (updAcc acc (cnt (bb + 1)) (bb + 1))
        (p4Bits128Step n mb (bb + 1) x vv opt u ml).1
        (p4Bits128Step n mb (bb + 1) x vv opt u ml).2.1
        (p4Bits128Step n mb (bb + 1) x vv opt u ml).2.2
        (x + cnt (bb + 1)) (vv + cnt (bb + 1) + acc (bb + 1))
      = p4Loop cnt n mb bb (updAcc acc (cnt (bb + 1)) (bb + 1))
        (p4Step n mb (bb + 1) x vv opt u ml).1
        (p4Step n mb (bb + 1) x vv opt u ml).2.1
        (p4Step n mb (bb + 1) x vv opt u ml).2.2
        (x + cnt (bb + 1)) (vv + cnt (bb + 1) + acc (bb + 1))
    rw [p4Bits128Step_eq, ih]

/-- The specialized analyzer decides exactly as the generic one. -/
theorem p4Bits128_eq (vals : List Nat) (hne : vals ≠ []) :
    p4Bits128 vals = p4Bits32 vals := by
  simp only [p4Bits128, p4Bits32]
  by_cases hzero : vals.foldl (fun a v => a ||| v) 0 = 0
  · rw [if_pos hzero]
    have hallz : ∀ v ∈ vals, v = 0 := by
      intro v hv
      have := ((foldl_or_lt vals 0 0).mp (by rw [hzero]; norm_num)).2 v hv
      omega
    have hhead : vals.headD 0 = 0 := by
      obtain ⟨x, xs, rfl⟩ := List.exists_cons_of_ne_nil hne
      exact hallz x (List.mem_cons_self x xs)
    rw [if_neg (by intro hc; exact hc.2 hhead)]
    rw [if_pos (by rw [hzero, bitWidth32_zero])]
  · rw [if_neg hzero]
    by_cases hconst : vals.all (fun v => v = vals.headD 0)
    · rw [if_pos hconst]
      have hhead : vals.headD 0 ≠ 0 := by
        intro hh
        apply hzero
        apply Nat.eq_zero_of_le_zero
        have hallz : ∀ v ∈ vals, v = 0 := by
          intro v hv
          have := List.all_eq_true.mp hconst v hv
          rw [decide_eq_true_eq] at this
          rw [this, hh]
        have := (foldl_or_lt vals 0 0).mpr ⟨by norm_num, by
          intro v hv
          rw [hallz v hv]
          norm_num⟩
        omega
      rw [if_pos ⟨hconst, hhead⟩]
    · rw [if_neg (by intro hc; exact hconst hc.1)]
      rw [if_neg (by
        intro hc
        apply hzero
        rw [← Nat.size_eq_zero]
        exact hc)]
      rw [if_neg (by
        have := bitHist_max_pos vals hzero
        omega)]
      rw [if_neg hconst]
      rw [p4Loop128_eq]

/-! ## Per-strategy decode of the wide encoders' output -/

/-- Below 32 bits the clamped mask leaves the plain `b`-bit base parts. -/
theorem baseValsV_eq (b : Nat) (hb : b ≤ 31) (vals : List Nat) :
    baseValsV b vals = baseVals b vals := by
  rw [baseValsV, baseVals]
  apply List.map_congr_left
  intro v _
  rw [if_neg (by omega)]

/-- Below 32 bits the clamped-mask exception criterion is the scalar one. -/
theorem excPositionsV_eq (b : Nat) (hb : b ≤ 31) (vals : List Nat) :
    excPositionsV b vals = excPositions b vals := by
  rw [excPositionsV, excPositions, maskOfWidth, if_neg (by omega)]

theorem excValsV_eq (b : Nat) (hb : b ≤ 31) (vals : List Nat) :
    excValsV b vals = excVals b vals := by
  rw [excValsV, excVals, excPositionsV_eq b hb]

/-- Header-byte facts for the wide decoders' simple path. -/
theorem hdr_simpleV_facts (b : Nat) (hb : b ≤ 32) :
    b % 256 = b ∧ ¬ b &&& 192 = 192 ∧ b &&& 64 = 0 ∧ b &&& 128 = 0 := by
  have hd : ∀ x : Fin 33, x.val % 256 = x.val ∧ ¬ x.val &&& 192 = 192 ∧
      x.val &&& 64 = 0 ∧ x.val &&& 128 = 0 := by decide
  exact hd ⟨b, by omega⟩

/-- Header-byte facts for the wide decoders' patched path. -/
theorem hdr_patchV_facts (b : Nat) (hb : b ≤ 31) :
    ¬ (128 + b) &&& 192 = 192 ∧ ¬ (128 + b) &&& 128 = 0 := by
  have hd : ∀ x : Fin 32, ¬ (128 + x.val) &&& 192 = 192 ∧
      ¬ (128 + x.val) &&& 128 = 0 := by decide
  exact hd ⟨b, by omega⟩

/-- The wide constant path's 4-byte load followed by the conditional mask
recovers the stored value: the load reads up to `4 - pad8 b` bytes past the
`pad8 b`-byte store, and the mask (absent only for `b = 32`) removes them. -/
theorem constV_read (b c : Nat) (hb1 : 1 ≤ b) (hb : b ≤ 32) (hc : c < 2 ^ b)
    (rest : List Nat) :
    (if b < 32 then bytesToNat ((leBytes (pad8 b) c ++ rest).take 4) % 2 ^ b
     else bytesToNat ((leBytes (pad8 b) c ++ rest).take 4)) = c := by
  by_cases hb32 : b < 32
  · rw [if_pos hb32]
    have hplen : pad8 b ≤ 4 := by rw [pad8]; omega
    rw [List.take_append_eq_append_take,
      List.take_of_length_le (by rw [leBytes_length]; exact hplen)]
    rw [bytesToNat_append, leBytes_length, bytesToNat_leBytes]
    have h8 : b ≤ 8 * pad8 b := by rw [pad8]; omega
    have hdvd : (256 : Nat) ^ pad8 b = 2 ^ b * 2 ^ (8 * pad8 b - b) := by
      rw [show (256 : Nat) = 2 ^ 8 by norm_num, ← pow_mul, ← pow_add]
      congr 1
      omega
    rw [hdvd, Nat.mul_assoc, Nat.add_mul_mod_self_left,
      Nat.mod_mod_of_dvd c (Dvd.intro _ rfl), Nat.mod_eq_of_lt hc]
  · have hbeq : b = 32 := by omega
    subst hbeq
    rw [if_neg hb32]
    rw [show pad8 32 = 4 from rfl, List.take_left' (leBytes_length 4 c),
      bytesToNat_leBytes]
    exact Nat.mod_eq_of_lt (by calc c < 2 ^ 32 := hc
      _ ≤ 256 ^ 4 := by norm_num)

/-- Bitmap-patched wide payloads decode back to the delta scan of the
input (shared by the 128v and 256v decoders via their lane count `L`). -/
theorem p4DecVPayloadBitmap_ok (L b bx : Nat) (hL : 0 < L)
    (vals rest : List Nat) (s : Nat)
    (hlen : vals.length = 32 * L) (hb : b ≤ 31) (hbx1 : 1 ≤ bx) (hbx : bx ≤ 32)
    (hv : ∀ v ∈ vals, v < 2 ^ (b + bx)) (hbbx : b + bx ≤ 32) :
    p4D1DecVPayloadBitmap L vals.length
        (p4EncVPayloadExceptions L vals b bx ++ rest) s b bx
      = Except.ok (d1scan s vals, rest) := by
  have hv32 : ∀ v ∈ vals, v < 4294967296 := by
    intro v hvv
    calc v < 2 ^ (b + bx) := hv v hvv
      _ ≤ 2 ^ 32 := Nat.pow_le_pow_right (by omega) hbbx
      _ = 4294967296 := by norm_num
  rw [p4EncVPayloadExceptions, if_pos hbx]
  rw [baseValsV_eq b hb, excPositionsV_eq b hb, excValsV_eq b hb]
  simp only [p4D1DecVPayloadBitmap]
  rw [if_pos (⟨by omega, hbx⟩ : b ≤ 32 ∧ bx ≤ 32)]
  rw [List.append_assoc, List.append_assoc]
  rw [bitmap_read_back vals.length (pad8 vals.length) _ _ _
    (bitmapOf_lt _ _ (excPositions_lt b vals)) rfl
    (by rw [pad8]; omega)]
  have hposid : bitPositions vals.length (bitmapOf (excPositions b vals))
      = excPositions b vals := by
    rw [excPositions]
    exact bitPositions_bitmapOf vals.length _
  rw [hposid]
  rw [List.drop_left' (leBytes_length _ _)]
  rw [show (excPositions b vals).length = (excVals b vals).length from
    (excVals_length b vals).symm]
  rw [bitunpack_bitpack32 bx (excVals b vals) _ (excVals_lt b bx vals hv)]
  rw [bitpack32Scalar_drop]
  rw [unpackV_packV L b hL (baseVals b vals) rest
    (by rw [baseVals_length]; exact hlen) (baseVals_lt b vals)]
  rw [packVGen_drop]
  rw [mergeAt_reconstruct b vals hv32]

/-- Simple-packing 128v blocks decode back to the delta scan of the
input. -/
theorem p4Dec128_simple (b : Nat) (hb : b ≤ 32) (vals rest : List Nat) (s : Nat)
    (hlen : vals.length = 32 * 4) (hv : ∀ v ∈ vals, v < 2 ^ b) :
    p4D1Dec128v32 vals.length (writeHeader b 0 ++ packVGen 4 b vals ++ rest) s
      = Except.ok (d1scan s vals, rest) := by
  obtain ⟨h1, h2, h3, h4⟩ := hdr_simpleV_facts b hb
  rw [writeHeader, if_pos rfl]
  show p4D1Dec128v32 vals.length (b % 256 :: (packVGen 4 b vals ++ rest)) s = _
  simp only [p4D1Dec128v32]
  rw [h1, Nat.mod_eq_of_lt (by omega : b < 256)]
  rw [if_neg h2, if_pos h3, if_pos h4]
  simp only [p4D1Dec128Payload]
  rw [if_pos h4, if_pos hb]
  rw [unpackV_packV 4 b (by omega) vals rest hlen hv, packVGen_drop]

/-- Constant 128v blocks decode back to the delta scan of the input. -/
theorem p4Dec128_const (c : Nat) (hc : c < 4294967296) (hcpos : 0 < c)
    (vals rest : List Nat) (s : Nat) (hne : vals ≠ []) (hvals : ∀ v ∈ vals, v = c) :
    p4D1Dec128v32 vals.length
        (writeHeader (bitWidth32 c) 34 ++ p4EncVPayload 4 vals (bitWidth32 c) 34 ++ rest) s
      = Except.ok (d1scan s vals, rest) := by
  have hb1 : 1 ≤ bitWidth32 c := Nat.size_pos.mpr hcpos
  have hb32 : bitWidth32 c ≤ 32 := Nat.size_le.mpr (by
    calc c < 4294967296 := hc
      _ = 2 ^ 32 := by norm_num)
  have hclt : c < 2 ^ bitWidth32 c := Nat.lt_size_self c
  obtain ⟨h1, h2, h3, h4, h5⟩ := hdr_const_facts (bitWidth32 c) hb32
  rw [writeHeader, if_neg (by omega), if_neg (by omega), if_neg (by omega)]
  have hhead : vals.headD 0 = c := by
    obtain ⟨x, xs, rfl⟩ := List.exists_cons_of_ne_nil hne
    exact hvals x (List.mem_cons_self x xs)
  have hpay : p4EncVPayload 4 vals (bitWidth32 c) 34
      = leBytes (pad8 (bitWidth32 c)) c := by
    rw [p4EncVPayload, if_neg (by omega), if_pos rfl, hhead, Nat.mod_eq_of_lt hc]
  rw [hpay]
  show p4D1Dec128v32 vals.length ((192 ||| bitWidth32 c) % 256 ::
    (leBytes (pad8 (bitWidth32 c)) c ++ rest)) s = _
  simp only [p4D1Dec128v32]
  rw [h1, Nat.mod_eq_of_lt (by omega : 192 + bitWidth32 c < 256)]
  rw [if_pos h4, h5]
  rw [constV_read (bitWidth32 c) c hb1 hb32 hclt rest]
  rw [List.drop_left' (leBytes_length _ _)]
  have hrepl : vals = List.replicate vals.length c :=
    List.eq_replicate_of_mem hvals
  rw [d1scan, ← hrepl]

/-- Bitmap-patched 128v blocks decode back to the delta scan of the
input. -/
theorem p4Dec128_patch (b bx : Nat) (hb : b ≤ 31) (hbx1 : 1 ≤ bx) (hbx : bx ≤ 32)
    (vals rest : List Nat) (s : Nat) (hlen : vals.length = 32 * 4)
    (hv : ∀ v ∈ vals, v < 2 ^ (b + bx)) (hbbx : b + bx ≤ 32) :
    p4D1Dec128v32 vals.length
        (writeHeader b bx ++ p4EncVPayloadExceptions 4 vals b bx ++ rest) s
      = Except.ok (d1scan s vals, rest) := by
  obtain ⟨h1, h2, h3, h4⟩ := hdr_patch_facts b hb
  obtain ⟨h5, h6⟩ := hdr_patchV_facts b hb
  rw [writeHeader, if_neg (by omega), if_pos hbx]
  show p4D1Dec128v32 vals.length ((128 ||| b) % 256 :: bx % 256 ::
    (p4EncVPayloadExceptions 4 vals b bx ++ rest)) s = _
  simp only [p4D1Dec128v32]
  rw [h1, Nat.mod_eq_of_lt (by omega : 128 + b < 256)]
  rw [if_neg h5, if_pos h3, if_neg h6]
  simp only [p4D1Dec128Payload]
  rw [if_neg h6]
  rw [Nat.mod_eq_of_lt (by omega : bx < 256), Nat.mod_eq_of_lt (by omega : bx < 256)]
  rw [if_neg (by omega : ¬ bx = 0), h4]
  exact p4DecVPayloadBitmap_ok 4 b bx (by omega) vals rest s hlen hb hbx1 hbx hv hbbx

set_option maxHeartbeats 1000000 in
/-- Vbyte-exception 128v blocks decode back to the delta scan of the
input. -/
theorem p4Dec128_vbyte (b : Nat) (hb : b ≤ 31) (vals rest : List Nat) (s : Nat)
    (hlen : vals.length = 32 * 4) (hv32 : ∀ v ∈ vals, v < 4294967296)
    (hx : (excPositions b vals).length ≤ 255) :
    p4D1Dec128v32 vals.length
        (writeHeader b 33 ++ p4EncVPayloadExceptions 4 vals b 33 ++ rest) s
      = Except.ok (d1scan s vals, rest) := by
  obtain ⟨h1, h2, h3, h4, h5⟩ := hdr_vbyte_facts b hb
  rw [writeHeader, if_neg (by omega), if_neg (by omega), if_pos rfl]
  rw [p4EncVPayloadExceptions, if_neg (by omega)]
  rw [baseValsV_eq b hb, excPositionsV_eq b hb, excValsV_eq b hb]
  simp only [List.singleton_append, List.cons_append, List.append_assoc, List.nil_append]
  simp only [p4D1Dec128v32]
  rw [h1, Nat.mod_eq_of_lt (by omega : 64 + b < 256)]
  rw [if_neg h4, if_neg h3, h5]
  rw [Nat.mod_eq_of_lt (by omega : (excPositions b vals).length % 256 < 256)]
  rw [Nat.mod_eq_of_lt (by omega : (excPositions b vals).length < 256)]
  rw [if_pos (by omega : b ≤ 32)]
  rw [unpackV_packV 4 b (by omega) (baseVals b vals) _
    (by rw [baseVals_length]; exact hlen) (baseVals_lt b vals)]
  rw [packVGen_drop]
  have hexc32 : ∀ e ∈ excVals b vals, e < 4294967296 := by
    have h32 : ∀ v ∈ vals, v < 2 ^ (b + (32 - b)) := by
      intro v hvv
      rw [show b + (32 - b) = 32 by omega]
      calc v < 4294967296 := hv32 v hvv
        _ = 2 ^ 32 := by norm_num
    intro e he
    calc e < 2 ^ (32 - b) := excVals_lt b (32 - b) vals h32 e he
      _ ≤ 2 ^ 32 := Nat.pow_le_pow_right (by omega) (by omega)
      _ = 4294967296 := by norm_num
  rw [show (excPositions b vals).length = (excVals b vals).length from
    (excVals_length b vals).symm]
  rw [vbDec32_vbEnc32 (excVals b vals) _ hexc32]
  rw [show (excVals b vals).length = (excPositions b vals).length from
    excVals_length b vals]
  rw [posBytes_read (excPositions b vals) rest (by
    intro p hp
    have := excPositions_lt b vals p hp
    omega)]
  rw [List.drop_left' (by rw [List.length_map])]
  show Except.ok (d1scan s
      (mergeAt b (baseVals b vals) (excPositions b vals) (excVals b vals)), rest) = _
  rw [mergeAt_reconstruct b vals hv32]

/-- Simple-packing 256v blocks decode back to the delta scan of the
input. -/
theorem p4Dec256_simple (b : Nat) (hb : b ≤ 32) (vals rest : List Nat) (s : Nat)
    (hlen : vals.length = 32 * 8) (hv : ∀ v ∈ vals, v < 2 ^ b) :
    p4D1Dec256v32 vals.length (writeHeader b 0 ++ packVGen 8 b vals ++ rest) s
      = Except.ok (d1scan s vals, rest) := by
  obtain ⟨h1, h2, h3, h4⟩ := hdr_simpleV_facts b hb
  rw [writeHeader, if_pos rfl]
  show p4D1Dec256v32 vals.length (b % 256 :: (packVGen 8 b vals ++ rest)) s = _
  simp only [p4D1Dec256v32]
  rw [h1, Nat.mod_eq_of_lt (by omega : b < 256)]
  rw [if_neg h2, if_pos h3, if_pos h4, if_pos hb]
  rw [unpackV_packV 8 b (by omega) vals rest hlen hv, packVGen_drop]

/-- Constant 256v blocks decode back to the delta scan of the input. -/
theorem p4Dec256_const (c : Nat) (hc : c < 4294967296) (hcpos : 0 < c)
    (vals rest : List Nat) (s : Nat) (hne : vals ≠ []) (hvals : ∀ v ∈ vals, v = c) :
    p4D1Dec256v32 vals.length
        (writeHeader (bitWidth32 c) 34 ++ p4EncVPayload 8 vals (bitWidth32 c) 34 ++ rest) s
      = Except.ok (d1scan s vals, rest) := by
  have hb1 : 1 ≤ bitWidth32 c := Nat.size_pos.mpr hcpos
  have hb32 : bitWidth32 c ≤ 32 := Nat.size_le.mpr (by
    calc c < 4294967296 := hc
      _ = 2 ^ 32 := by norm_num)
  have hclt : c < 2 ^ bitWidth32 c := Nat.lt_size_self c
  obtain ⟨h1, h2, h3, h4, h5⟩ := hdr_const_facts (bitWidth32 c) hb32
  rw [writeHeader, if_neg (by omega), if_neg (by omega), if_neg (by omega)]
  have hhead : vals.headD 0 = c := by
    obtain ⟨x, xs, rfl⟩ := List.exists_cons_of_ne_nil hne
    exact hvals x (List.mem_cons_self x xs)
  have hpay : p4EncVPayload 8 vals (bitWidth32 c) 34
      = leBytes (pad8 (bitWidth32 c)) c := by
    rw [p4EncVPayload, if_neg (by omega), if_pos rfl, hhead, Nat.mod_eq_of_lt hc]
  rw [hpay]
  show p4D1Dec256v32 vals.length ((192 ||| bitWidth32 c) % 256 ::
    (leBytes (pad8 (bitWidth32 c)) c ++ rest)) s = _
  simp only [p4D1Dec256v32]
  rw [h1, Nat.mod_eq_of_lt (by omega : 192 + bitWidth32 c < 256)]
  rw [if_pos h4, h5]
  rw [constV_read (bitWidth32 c) c hb1 hb32 hclt rest]
  rw [List.drop_left' (leBytes_length _ _)]
  have hrepl : vals = List.replicate vals.length c :=
    List.eq_replicate_of_mem hvals
  rw [d1scan, ← hrepl]

/-- Below 32 exceptions the 256v chunked exception unpack reduces to the
horizontal remainder (`rem < 32` skips both chunk loops). -/
theorem excUnpack256_small (bx num : Nat) (h : num < 32) (bs : List Nat) :
    excUnpack256 bx num bs = (bitunpack32Scalar num bx bs, bs.drop (pad8 (num * bx))) := by
  have h128 : num / 128 = 0 := Nat.div_eq_of_lt (by omega)
  have hm : num % 128 = num := Nat.mod_eq_of_lt (by omega)
  have h32 : num / 32 = 0 := Nat.div_eq_of_lt h
  have hm32 : num % 32 = num := Nat.mod_eq_of_lt h
  simp only [excUnpack256]
  rw [h128, hm, h32, hm32]
  simp only [List.range_zero, Nat.zero_mul, List.drop_zero, List.flatMap_nil,
    List.nil_append]

/-- Bitmap-patched 256v payloads with fewer than 32 exceptions (and a
nonzero base width) decode back to the delta scan of the input. -/
theorem p4Dec256PayloadBitmap_ok (b bx : Nat) (vals rest : List Nat) (s : Nat)
    (hlen : vals.length = 32 * 8) (hb1 : 1 ≤ b) (hb : b ≤ 31)
    (hbx1 : 1 ≤ bx) (hbx : bx ≤ 32) (hx : (excPositions b vals).length < 32)
    (hv : ∀ v ∈ vals, v < 2 ^ (b + bx)) (hbbx : b + bx ≤ 32) :
    p4D1Dec256PayloadBitmap vals.length
        (p4EncVPayloadExceptions 8 vals b bx ++ rest) s b bx
      = Except.ok (d1scan s vals, rest) := by
  have hv32 : ∀ v ∈ vals, v < 4294967296 := by
    intro v hvv
    calc v < 2 ^ (b + bx) := hv v hvv
      _ ≤ 2 ^ 32 := Nat.pow_le_pow_right (by omega) hbbx
      _ = 4294967296 := by norm_num
  rw [p4EncVPayloadExceptions, if_pos hbx]
  rw [baseValsV_eq b hb, excPositionsV_eq b hb, excValsV_eq b hb]
  simp only [p4D1Dec256PayloadBitmap]
  rw [if_pos (⟨by omega, hbx⟩ : b ≤ 32 ∧ bx ≤ 32)]
  rw [List.append_assoc, List.append_assoc]
  rw [bitmap_read_back vals.length (pad8 vals.length) _ _ _
    (bitmapOf_lt _ _ (excPositions_lt b vals)) rfl
    (by rw [pad8]; omega)]
  have hposid : bitPositions vals.length (bitmapOf (excPositions b vals))
      = excPositions b vals := by
    rw [excPositions]
    exact bitPositions_bitmapOf vals.length _
  rw [hposid]
  rw [List.drop_left' (leBytes_length _ _)]
  rw [excUnpack256_small bx (excPositions b vals).length hx]
  rw [show (excPositions b vals).length = (excVals b vals).length from
    (excVals_length b vals).symm]
  rw [bitunpack_bitpack32 bx (excVals b vals) _ (excVals_lt b bx vals hv)]
  rw [bitpack32Scalar_drop]
  rw [unpackV_packV 8 b (by omega) (baseVals b vals) rest
    (by rw [baseVals_length]; exact hlen) (baseVals_lt b vals)]
  rw [if_neg (by omega : ¬ b = 0)]
  rw [show 32 * b = b * (4 * 8) by ring]
  rw [packVGen_drop]
  rw [mergeAt_reconstruct b vals hv32]

/-- Bitmap-patched 256v blocks with a nonzero base width and fewer than 32
exceptions decode back to the delta scan of the input.  (With 32 or more
exceptions the decoder's vertical chunk unpack reads a different layout
and byte count than the encoder's horizontal patch stream, and with
`b = 0` the patched base kernel consumes a 32-byte row the encoder never
wrote — see the C1 record.) -/
theorem p4Dec256_patch (b bx : Nat) (hb1 : 1 ≤ b) (hb : b ≤ 31)
    (hbx1 : 1 ≤ bx) (hbx : bx ≤ 32)
    (vals rest : List Nat) (s : Nat) (hlen : vals.length = 32 * 8)
    (hx : (excPositions b vals).length < 32)
    (hv : ∀ v ∈ vals, v < 2 ^ (b + bx)) (hbbx : b + bx ≤ 32) :
    p4D1Dec256v32 vals.length
        (writeHeader b bx ++ p4EncVPayloadExceptions 8 vals b bx ++ rest) s
      = Except.ok (d1scan s vals, rest) := by
  obtain ⟨h1, h2, h3, h4⟩ := hdr_patch_facts b hb
  obtain ⟨h5, h6⟩ := hdr_patchV_facts b hb
  rw [writeHeader, if_neg (by omega), if_pos hbx]
  show p4D1Dec256v32 vals.length ((128 ||| b) % 256 :: bx % 256 ::
    (p4EncVPayloadExceptions 8 vals b bx ++ rest)) s = _
  simp only [p4D1Dec256v32]
  rw [h1, Nat.mod_eq_of_lt (by omega : 128 + b < 256)]
  rw [if_neg h5, if_pos h3, if_neg h6, h4]
  rw [Nat.mod_eq_of_lt (by omega : bx < 256), Nat.mod_eq_of_lt (by omega : bx < 256)]
  rw [if_neg (by omega : ¬ bx = 0)]
  exact p4Dec256PayloadBitmap_ok b bx vals rest s hlen hb1 hb hbx1 hbx hx hv hbbx

set_option maxHeartbeats 1000000 in
/-- Vbyte-exception 256v blocks decode back to the delta scan of the
input (the nonzero exception count avoids the decoder's `bx = 0` fast
path). -/
theorem p4Dec256_vbyte (b : Nat) (hb : b ≤ 31) (vals rest : List Nat) (s : Nat)
    (hlen : vals.length = 32 * 8) (hv32 : ∀ v ∈ vals, v < 4294967296)
    (hx1 : 1 ≤ (excPositions b vals).length)
    (hx : (excPositions b vals).length ≤ 255) :
    p4D1Dec256v32 vals.length
        (writeHeader b 33 ++ p4EncVPayloadExceptions 8 vals b 33 ++ rest) s
      = Except.ok (d1scan s vals, rest) := by
  obtain ⟨h1, h2, h3, h4, h5⟩ := hdr_vbyte_facts b hb
  rw [writeHeader, if_neg (by omega), if_neg (by omega), if_pos rfl]
  rw [p4EncVPayloadExceptions, if_neg (by omega)]
  rw [baseValsV_eq b hb, excPositionsV_eq b hb, excValsV_eq b hb]
  simp only [List.singleton_append, List.cons_append, List.append_assoc, List.nil_append]
  simp only [p4D1Dec256v32]
  rw [h1, Nat.mod_eq_of_lt (by omega : 64 + b < 256)]
  rw [if_neg h4, if_neg h3, h5]
  rw [Nat.mod_eq_of_lt (by omega : (excPositions b vals).length % 256 < 256)]
  rw [Nat.mod_eq_of_lt (by omega : (excPositions b vals).length < 256)]
  rw [if_neg (by omega : ¬ (excPositions b vals).length = 0)]
  rw [if_pos (by omega : b ≤ 32)]
  rw [unpackV_packV 8 b (by omega) (baseVals b vals) _
    (by rw [baseVals_length]; exact hlen) (baseVals_lt b vals)]
  rw [packVGen_drop]
  have hexc32 : ∀ e ∈ excVals b vals, e < 4294967296 := by
    have h32 : ∀ v ∈ vals, v < 2 ^ (b + (32 - b)) := by
      intro v hvv
      rw [show b + (32 - b) = 32 by omega]
      calc v < 4294967296 := hv32 v hvv
        _ = 2 ^ 32 := by norm_num
    intro e he
    calc e < 2 ^ (32 - b) := excVals_lt b (32 - b) vals h32 e he
      _ ≤ 2 ^ 32 := Nat.pow_le_pow_right (by omega) (by omega)
      _ = 4294967296 := by norm_num
  rw [show (excPositions b vals).length = (excVals b vals).length from
    (excVals_length b vals).symm]
  rw [vbDec32_vbEnc32 (excVals b vals) _ hexc32]
  rw [show (excVals b vals).length = (excPositions b vals).length from
    excVals_length b vals]
  rw [posBytes_read (excPositions b vals) rest (by
    intro p hp
    have := excPositions_lt b vals p hp
    omega)]
  rw [List.drop_left' (by rw [List.length_map])]
  show Except.ok (d1scan s
      (mergeAt b (baseVals b vals) (excPositions b vals) (excVals b vals)), rest) = _
  rw [mergeAt_reconstruct b vals hv32]

/-- Central 128v round trip: decoding the 128v encoding of any block of
128 uint32s returns its delta1 scan and leaves the unread suffix. -/
theorem p4RoundTrip128 (D rest : List Nat) (hlen : D.length = 128)
    (hv : ∀ v ∈ D, v < 4294967296) (s : Nat) :
    p4D1Dec128v32 D.length (p4Enc128v32 D ++ rest) s
      = Except.ok (d1scan s D, rest) := by
  have hne : D ≠ [] := by
    intro h
    rw [h] at hlen
    simp at hlen
  rcases hbits : p4Bits32 D with ⟨b, bx⟩
  obtain ⟨hb32, hsimple, hconst, hpatch, hvb, hclasses⟩ :=
    p4Bits32_spec D hne hv (by omega) b bx hbits
  simp only [p4Enc128v32]
  rw [if_neg (by omega : ¬ D.length = 0), if_pos hlen, p4Bits128_eq D hne, hbits]
  show p4D1Dec128v32 D.length ((writeHeader b bx ++ p4EncVPayload 4 D b bx) ++ rest) s = _
  rw [List.append_assoc]
  by_cases hbx0 : bx = 0
  · subst hbx0
    rw [show p4EncVPayload 4 D b 0 = packVGen 4 b D from by
      rw [p4EncVPayload, if_pos rfl]]
    rw [← List.append_assoc]
    exact p4Dec128_simple b hb32 D rest s (by rw [hlen]) (hsimple rfl)
  · by_cases hbx34 : bx = 34
    · subst hbx34
      obtain ⟨hall, hbeq, hb1⟩ := hconst rfl
      have hcd : D.headD 0 ∈ D := by
        obtain ⟨x, xs, rfl⟩ := List.exists_cons_of_ne_nil hne
        exact List.mem_cons_self _ _
      have hc32 : D.headD 0 < 4294967296 := hv _ hcd
      have hcpos : 0 < D.headD 0 := by
        by_contra hc
        have hz : D.headD 0 = 0 := by omega
        rw [hbeq, hz] at hb1
        rw [show bitWidth32 0 = 0 from Nat.size_zero] at hb1
        omega
      rw [hbeq, ← List.append_assoc]
      exact p4Dec128_const (D.headD 0) hc32 hcpos D rest s hne hall
    · by_cases hbx33 : bx = 33
      · subst hbx33
        obtain ⟨hb31, hx1, hx255⟩ := hvb rfl
        rw [show p4EncVPayload 4 D b 33 = p4EncVPayloadExceptions 4 D b 33 from by
          rw [p4EncVPayload, if_neg (by omega), if_neg (by omega)]]
        rw [← List.append_assoc]
        exact p4Dec128_vbyte b hb31 D rest s (by rw [hlen]) hv hx255
      · have hbx1 : 1 ≤ bx := by omega
        have hbxle : bx ≤ 32 := by
          rcases hclasses with h | h | h
          · exact h
          · exact absurd h hbx33
          · exact absurd h hbx34
        obtain ⟨hvfit, hbbx, hblt⟩ := hpatch hbx1 hbxle
        rw [show p4EncVPayload 4 D b bx = p4EncVPayloadExceptions 4 D b bx from by
          rw [p4EncVPayload, if_neg hbx0, if_neg hbx34]]
        rw [← List.append_assoc]
        exact p4Dec128_patch b bx (by omega) hbx1 hbxle D rest s (by rw [hlen]) hvfit hbbx

/-- Central 256v round trip, restricted to the decisions the 256v decoder
reads back correctly: whenever the analyzer selects bitmap patching, the
base width must be nonzero and the exception count below 32 (otherwise
the decoder's chunked vertical patch unpack and its patched base kernel
diverge from the encoder's layout — see the C1 record). -/
theorem p4RoundTrip256 (D rest : List Nat) (hlen : D.length = 256)
    (hv : ∀ v ∈ D, v < 4294967296) (s : Nat)
    (hok : 1 ≤ (p4Bits32 D).2 → (p4Bits32 D).2 ≤ 32 →
      1 ≤ (p4Bits32 D).1 ∧ (excPositions (p4Bits32 D).1 D).length < 32) :
    p4D1Dec256v32 D.length (p4Enc256v32 D ++ rest) s
      = Except.ok (d1scan s D, rest) := by
  have hne : D ≠ [] := by
    intro h
    rw [h] at hlen
    simp at hlen
  rcases hbits : p4Bits32 D with ⟨b, bx⟩
  obtain ⟨hb32, hsimple, hconst, hpatch, hvb, hclasses⟩ :=
    p4Bits32_spec D hne hv (by omega) b bx hbits
  rw [p4Enc256v32, if_neg (by omega : ¬ D.length = 0), hbits]
  show p4D1Dec256v32 D.length ((writeHeader b bx ++ p4EncVPayload 8 D b bx) ++ rest) s = _
  rw [List.append_assoc]
  by_cases hbx0 : bx = 0
  · subst hbx0
    rw [show p4EncVPayload 8 D b 0 = packVGen 8 b D from by
      rw [p4EncVPayload, if_pos rfl]]
    rw [← List.append_assoc]
    exact p4Dec256_simple b hb32 D rest s (by rw [hlen]) (hsimple rfl)
  · by_cases hbx34 : bx = 34
    · subst hbx34
      obtain ⟨hall, hbeq, hb1⟩ := hconst rfl
      have hcd : D.headD 0 ∈ D := by
        obtain ⟨x, xs, rfl⟩ := List.exists_cons_of_ne_nil hne
        exact List.mem_cons_self _ _
      have hc32 : D.headD 0 < 4294967296 := hv _ hcd
      have hcpos : 0 < D.headD 0 := by
        by_contra hc
        have hz : D.headD 0 = 0 := by omega
        rw [hbeq, hz] at hb1
        rw [show bitWidth32 0 = 0 from Nat.size_zero] at hb1
        omega
      rw [hbeq, ← List.append_assoc]
      exact p4Dec256_const (D.headD 0) hc32 hcpos D rest s hne hall
    · by_cases hbx33 : bx = 33
      · subst hbx33
        obtain ⟨hb31, hx1, hx255⟩ := hvb rfl
        rw [show p4EncVPayload 8 D b 33 = p4EncVPayloadExceptions 8 D b 33 from by
          rw [p4EncVPayload, if_neg (by omega), if_neg (by omega)]]
        rw [← List.append_assoc]
        exact p4Dec256_vbyte b hb31 D rest s (by rw [hlen]) hv hx1 hx255
      · have hbx1 : 1 ≤ bx := by omega
        have hbxle : bx ≤ 32 := by
          rcases hclasses with h | h | h
          · exact h
          · exact absurd h hbx33
          · exact absurd h hbx34
        obtain ⟨hvfit, hbbx, hblt⟩ := hpatch hbx1 hbxle
        obtain ⟨hb1, hxlt⟩ := hok (by rw [hbits]; exact hbx1) (by rw [hbits]; exact hbxle)
        rw [hbits] at hb1 hxlt
        rw [show p4EncVPayload 8 D b bx = p4EncVPayloadExceptions 8 D b bx from by
          rw [p4EncVPayload, if_neg hbx0, if_neg hbx34]]
        rw [← List.append_assoc]
        exact p4Dec256_patch b bx hb1 (by omega) hbx1 hbxle D rest s (by rw [hlen])
          hxlt hvfit hbbx

/-- Concrete bit-width evaluation (the `Nat.size` of Mathlib does not
reduce in the kernel). -/
theorem bitWidth32_of (v k : Nat) (hk : 1 ≤ k) (hlo : 2 ^ (k - 1) ≤ v)
    (hhi : v < 2 ^ k) : bitWidth32 v = k := by
  have h1 : bitWidth32 v ≤ k := Nat.size_le.mpr hhi
  have h2 : k - 1 < bitWidth32 v := Nat.lt_size.mpr hlo
  omega

instance {ε α : Type} [DecidableEq ε] [DecidableEq α] : DecidableEq (Except ε α) :=
  fun a b =>
  match a, b with
  | Except.ok x, Except.ok y =>
      if h : x = y then Decidable.isTrue (by rw [h])
      else Decidable.isFalse (fun hc => h (Except.ok.inj hc))
  | Except.error e, Except.error f =>
      if h : e = f then Decidable.isTrue (by rw [h])
      else Decidable.isFalse (fun hc => h (Except.error.inj hc))
  | Except.ok x, Except.error f => Decidable.isFalse (fun hc => Except.noConfusion hc)
  | Except.error e, Except.ok y => Decidable.isFalse (fun hc => Except.noConfusion hc)

/-! ## Claim theorems -/

/-- **C1.** The universal round trip fails in the 256v layout: the 256v
encoders emit the exception patch stream horizontally
(`bitpack32Scalar`, `⌈num·bx/8⌉` bytes; `part_007` notes "exceptions use
standard horizontal format"), but the 256v decode driver unpacks chunks
of 32 exceptions through the vertical 8-lane AVX2 kernel
(`BitUnpackAVX2Table<32>`), a different layout consuming a different
byte count (`32·⌈4·bx/32⌉` bytes).  Concretely, one 32-value chunk at
width 5: the vertical read of the horizontal stream scrambles the
values, and the decoder advances 32 bytes where the encoder wrote 20.
(The scalar and 128v round trips hold: `p4RoundTrip32`,
`p4RoundTrip128`; the 256v one holds only away from this path,
`p4RoundTrip256`.) -/
theorem claim_C1_layout_mismatch :
    unpackVChunk 4 5 (bitpack32Scalar 5 (List.range 32)) ≠ List.range 32 ∧
    32 * vChunkRows 4 5 ≠ pad8 (32 * 5) := by
  decide

/-- **C2.** Every header whose base width exceeds 32 after masking off
the flag bits drives the decoder into the modelled undefined behavior
(out-of-bounds dispatch-table read, unreachable constant-path switch
default, or oversized shift), `Except.error` in this embedding — no
`CorruptHeader` check exists in the source, whose decoders have no
failure channel. -/
theorem claim_C2_oob_width (h0 n s : Nat) (t : List Nat)
    (hb : 32 < (if h0 % 256 &&& 192 = 0 then h0 % 256
        else if h0 % 256 &&& 64 = 0 then h0 % 256 &&& 127 else h0 % 256 &&& 63)) :
    p4D1Dec32 n (h0 :: t) s = Except.error () := by
  by_cases hA : h0 % 256 &&& 192 = 0
  · rw [if_pos hA] at hb
    simp only [p4D1Dec32]
    rw [if_pos hA, if_neg (by omega : ¬ h0 % 256 ≤ 32)]
  · rw [if_neg hA] at hb
    by_cases hB : h0 % 256 &&& 64 = 0
    · rw [if_pos hB] at hb
      cases t with
      | nil =>
        simp only [p4D1Dec32]
        rw [if_neg hA, if_pos hB]
      | cons c ct =>
        simp only [p4D1Dec32]
        rw [if_neg hA, if_pos hB]
        by_cases hbx0 : c % 256 = 0
        · rw [if_pos hbx0, if_neg (by omega : ¬ h0 % 256 &&& 127 ≤ 32)]
        · rw [if_neg hbx0]
          simp only [p4D1DecPayloadExceptions]
          rw [if_neg (show ¬ (h0 % 256 &&& 127 ≤ 32 ∧ c % 256 ≤ 32) from
            fun hc => by omega)]
    · rw [if_neg hB] at hb
      by_cases hC : h0 % 256 &&& 192 = 192
      · simp only [p4D1Dec32]
        rw [if_neg hA, if_neg hB, if_pos hC]
        rw [if_neg (show ¬ (1 ≤ pad8 (h0 % 256 &&& 63) ∧ pad8 (h0 % 256 &&& 63) ≤ 4) from
          fun hc => by
            rw [pad8] at hc
            omega)]
      · cases t with
        | nil =>
          simp only [p4D1Dec32]
          rw [if_neg hA, if_neg hB, if_neg hC]
        | cons c ct =>
          simp only [p4D1Dec32]
          rw [if_neg hA, if_neg hB, if_neg hC]
          rw [if_neg (by omega : ¬ h0 % 256 &&& 63 ≤ 32)]

theorem claim_C2_oob_width_witness :
    32 < (if (33 : Nat) % 256 &&& 192 = 0 then 33 % 256
        else if (33 : Nat) % 256 &&& 64 = 0 then 33 % 256 &&& 127
        else 33 % 256 &&& 63) ∧
      p4D1Dec32 4 [33] 0 = Except.error () :=
  ⟨by decide, claim_C2_oob_width 33 4 0 [] (by decide)⟩

/-- **C3.** The constant-block example: the analyzer on `[42,42,42,42]`
returns `(6, 34)`, the encoder emits exactly `[0xC6, 0x2A]`, and decoding
those two bytes with `n = 4`, `start = 0` yields `[43, 86, 129, 172]`
(the delta1 scan of four 42s, not the spec's `[43, 85, 127, 169]`). -/
theorem claim_C3_constant_block :
    p4Bits32 [42, 42, 42, 42] = (6, 34) ∧
    p4Enc32 [42, 42, 42, 42] = [198, 42] ∧
    p4D1Dec32 4 [198, 42] 0 = Except.ok ([43, 86, 129, 172], []) := by
  have hfold : ([42, 42, 42, 42] : List Nat).foldl (fun a v => a ||| v) 0 = 42 := by
    decide
  have hbw : bitWidth32 42 = 6 := bitWidth32_of 42 6 (by omega) (by norm_num) (by norm_num)
  have hbits : p4Bits32 [42, 42, 42, 42] = (6, 34) := by
    simp only [p4Bits32]
    rw [if_neg (by rw [hfold]; omega), if_pos (by decide), hfold, hbw]
  refine ⟨hbits, ?_, by decide⟩
  rw [p4Enc32, hbits]
  decide

/-- **C3, counterexample.** The two bytes `[0xC6, 0x2A]` do not decode to
the spec's `[43, 85, 127, 169]`. -/
theorem claim_C3_counterexample :
    ¬ p4D1Dec32 4 [198, 42] 0 = Except.ok ([43, 85, 127, 169], ([] : List Nat)) := by
  decide

/-- **C5.** (Amended.)  Whenever the analyzer selects simple packing
(`bx = 0`, with selected width `b`), the encoded block is exactly the
one-byte header plus the packed payload: `1 + pad8(n·b)` bytes. -/
theorem claim_C5_block_length (X : List Nat) (hbx : (p4Bits32 X).2 = 0) :
    (p4Enc32 X).length = 1 + pad8 (X.length * (p4Bits32 X).1) := by
  rcases hbits : p4Bits32 X with ⟨b, bx⟩
  rw [hbits] at hbx
  have hbx0 : bx = 0 := hbx
  subst hbx0
  rw [p4Enc32, hbits]
  show (writeHeader b 0 ++ p4Enc32Payload X b 0).length = 1 + pad8 (X.length * b)
  rw [List.length_append, writeHeader, if_pos rfl]
  by_cases hb0 : b = 0
  · subst hb0
    rw [p4Enc32Payload, if_pos ⟨rfl, rfl⟩]
    show [0 % 256].length + ([] : List Nat).length = 1 + pad8 (X.length * 0)
    rw [Nat.mul_zero]
    rfl
  · rw [p4Enc32Payload, if_neg (fun hc => hb0 hc.1), if_pos rfl, bitpack32Scalar_length]
    rfl

theorem claim_C5_block_length_witness :
    (p4Bits32 [0]).2 = 0 ∧
      (p4Enc32 [0]).length = 1 + pad8 (([0] : List Nat).length * (p4Bits32 [0]).1) :=
  ⟨by decide, claim_C5_block_length [0] (by decide)⟩

/-- **C5, counterexample.** `X = [0]` fits in `b = 1 < 32` bits, yet the
encoder emits the single byte `0x00`: length `1 ≠ 1 + pad8(1·1) = 2`. -/
theorem claim_C5_counterexample :
    (∀ v ∈ ([0] : List Nat), v < 2 ^ 1) ∧ (1 : Nat) < 32 ∧
      ¬ (p4Enc32 [0]).length = 1 + pad8 (([0] : List Nat).length * 1) := by
  decide

theorem bitunpack32Scalar_zero (n : Nat) (bs : List Nat) :
    bitunpack32Scalar n 0 bs = List.replicate n 0 := by
  rw [bitunpack32Scalar]
  apply List.ext_getElem
  · rw [List.length_map, List.length_range, List.length_replicate]
  · intro i h1 h2
    rw [List.getElem_map, List.getElem_range, List.getElem_replicate]
    rw [pow_zero, Nat.mod_one]

/-- **C8.** All-zero blocks of any length in `[1, 256]` encode to the
single byte `0x00`, and decoding that byte with any seed `s` yields the
arithmetic progression `s+1, s+2, …, s+n` (modulo `2^32`). -/
theorem claim_C8_zero_block (n : Nat) (hn1 : 1 ≤ n) (hn : n ≤ 256) (s : Nat) :
    p4Enc32 (List.replicate n 0) = [0] ∧
    p4D1Dec32 n [0] s
      = Except.ok ((List.range n).map (fun j => (s + j + 1) % 4294967296), []) := by
  constructor
  · have horz : (List.replicate n 0).foldl (fun a v => a ||| v) 0 = 0 := by
      have h := (foldl_or_lt (List.replicate n 0) 0 0).mpr
        ⟨by norm_num, by
          intro v hv
          rw [List.eq_of_mem_replicate hv]
          norm_num⟩
      simp at h
      omega
    have hbits : p4Bits32 (List.replicate n 0) = (0, 0) := by
      simp only [p4Bits32]
      rw [if_pos horz]
    rw [p4Enc32, hbits]
    show writeHeader 0 0 ++ p4Enc32Payload (List.replicate n 0) 0 0 = [0]
    rw [writeHeader, if_pos rfl, p4Enc32Payload, if_pos ⟨rfl, rfl⟩]
    rfl
  · show p4D1Dec32 n (0 :: []) s = _
    simp only [p4D1Dec32]
    rw [if_pos (by decide : (0 : Nat) % 256 &&& 192 = 0)]
    rw [if_pos (by decide : (0 : Nat) % 256 ≤ 32)]
    have hmap : (List.range n).map (fun j => (s + 0 + j + 1) % 4294967296)
        = (List.range n).map (fun j => (s + j + 1) % 4294967296) := by
      apply List.map_congr_left
      intro j _
      omega
    rw [bitunpackd1_32Scalar, bitunpack32Scalar_zero, d1scan, d1go_zeros, List.drop_nil,
      hmap]

theorem claim_C8_zero_block_witness :
    (1 : Nat) ≤ 4 ∧ (4 : Nat) ≤ 256 ∧
      ((List.range 4).map (fun j => (0 + j + 1) % 4294967296)) = [1, 2, 3, 4] ∧
      p4D1Dec32 4 [0] 0
        = Except.ok ((List.range 4).map (fun j => (0 + j + 1) % 4294967296), []) :=
  ⟨by decide, by decide, by decide, (claim_C8_zero_block 4 (by decide) (by decide) 0).2⟩

/-- The public prototype of `p4Enc32` (`include/turbopfor.h`) declares the
block length as `uint8_t`, while the implementation (`dispatch.cpp`,
`p4enc32.cpp`) takes `unsigned`: a call through the declared interface
passes `n % 256` and encodes only that many leading values. -/
def p4Enc32Public (vals : List Nat) (n : Nat) : List Nat :=
  p4Enc32 (vals.take (n % 256))

set_option maxRecDepth 10000 in
/-- **C9.** Through the public `uint8_t` prototype, `n = 256` wraps to
`0`: the call encodes zero values (emitting the empty-block byte `0x00`)
instead of the 256-value block the implementation would produce. -/
theorem claim_C9_uint8_n :
    (256 : Nat) % 256 = 0 ∧
    p4Enc32Public (List.replicate 256 7) 256 = [0] ∧
    ¬ p4Enc32 (List.replicate 256 7) = [0] := by
  refine ⟨by decide, by decide, ?_⟩
  have hfold : (List.replicate 256 7).foldl (fun a v => a ||| v) 0 = 7 := by decide
  have hbw : bitWidth32 7 = 3 := bitWidth32_of 7 3 (by omega) (by norm_num) (by norm_num)
  have hbits : p4Bits32 (List.replicate 256 7) = (3, 34) := by
    simp only [p4Bits32]
    rw [if_neg (by rw [hfold]; omega), if_pos (by decide), hfold, hbw]
  rw [p4Enc32, hbits]
  have henc : writeHeader 3 34 ++ p4Enc32Payload (List.replicate 256 7) 3 34
      = [195, 7] := by decide
  intro hc
  rw [henc] at hc
  exact absurd hc (by decide)

/-- **C10.** Bitmap padding-bit noninterference: two bitmap-patched
payload streams whose bitmaps agree on the low `n` bits (the decoder
masks the loaded words to `bitmap % 2^n`) and whose bytes agree from
offset `pad8 n` on decode identically — same output, same advanced
input — in the scalar, 128v and 256v bitmap decoders. -/
theorem claim_C10_bitmap_padding (n start b bx : Nat) (bs1 bs2 : List Nat)
    (hbm : bytesToNat (bs1.take (8 * ((n + 63) / 64))) % 2 ^ n
         = bytesToNat (bs2.take (8 * ((n + 63) / 64))) % 2 ^ n)
    (ht : bs1.drop (pad8 n) = bs2.drop (pad8 n)) :
    p4D1DecPayloadExceptions n bs1 start b bx
        = p4D1DecPayloadExceptions n bs2 start b bx ∧
      p4D1DecVPayloadBitmap 4 n bs1 start b bx
        = p4D1DecVPayloadBitmap 4 n bs2 start b bx ∧
      p4D1DecVPayloadBitmap 8 n bs1 start b bx
        = p4D1DecVPayloadBitmap 8 n bs2 start b bx := by
  refine ⟨?_, ?_, ?_⟩
  · simp only [p4D1DecPayloadExceptions]
    by_cases hc : b ≤ 32 ∧ bx ≤ 32
    · rw [if_pos hc, if_pos hc, hbm, ht]
    · rw [if_neg hc, if_neg hc]
  · simp only [p4D1DecVPayloadBitmap]
    by_cases hc : b ≤ 32 ∧ bx ≤ 32
    · rw [if_pos hc, if_pos hc, hbm, ht]
    · rw [if_neg hc, if_neg hc]
  · simp only [p4D1DecVPayloadBitmap]
    by_cases hc : b ≤ 32 ∧ bx ≤ 32
    · rw [if_pos hc, if_pos hc, hbm, ht]
    · rw [if_neg hc, if_neg hc]

theorem claim_C10_bitmap_padding_witness :
    (bytesToNat (([1, 0, 0, 0, 0, 0, 0, 0, 0] : List Nat).take (8 * ((2 + 63) / 64))) % 2 ^ 2
       = bytesToNat (([5, 0, 0, 0, 0, 0, 0, 0, 0] : List Nat).take (8 * ((2 + 63) / 64))) % 2 ^ 2) ∧
    (([1, 0, 0, 0, 0, 0, 0, 0, 0] : List Nat).drop (pad8 2)
       = ([5, 0, 0, 0, 0, 0, 0, 0, 0] : List Nat).drop (pad8 2)) ∧
    p4D1DecPayloadExceptions 2 [1, 0, 0, 0, 0, 0, 0, 0, 0] 0 1 1
      = p4D1DecPayloadExceptions 2 [5, 0, 0, 0, 0, 0, 0, 0, 0] 0 1 1 :=
  ⟨by decide, by decide,
    (claim_C10_bitmap_padding 2 0 1 1 [1, 0, 0, 0, 0, 0, 0, 0, 0] [5, 0, 0, 0, 0, 0, 0, 0, 0]
      (by decide) (by decide)).1⟩

/-- Widths above the base shift down exactly: the high part `v >> bb` of a
value wider than `bb` has width `bitWidth32 v - bb`. -/
theorem bitWidth32_div_pow (v bb : Nat) (h : bb < bitWidth32 v) :
    bitWidth32 (v / 2 ^ bb) = bitWidth32 v - bb := by
  have hvpos : 2 ^ bb ≤ v := Nat.lt_size.mp h
  have hle : bitWidth32 (v / 2 ^ bb) ≤ bitWidth32 v - bb := by
    rw [bitWidth32_le_iff]
    rw [Nat.div_lt_iff_lt_mul (Nat.pos_pow_of_pos bb (by omega))]
    calc v < 2 ^ bitWidth32 v := Nat.lt_size_self v
      _ = 2 ^ (bitWidth32 v - bb) * 2 ^ bb := by
          rw [← pow_add]
          congr 1
          omega
  have hgt : bitWidth32 v - bb - 1 < bitWidth32 (v / 2 ^ bb) := by
    apply Nat.lt_size.mpr
    rw [Nat.le_div_iff_mul_le (Nat.pos_pow_of_pos bb (by omega))]
    rw [← pow_add]
    have heq : bitWidth32 v - bb - 1 + bb = bitWidth32 v - 1 := by omega
    rw [heq]
    exact Nat.lt_size.mp (by omega : bitWidth32 v - 1 < bitWidth32 v)
  omega

/-- A width-histogram sum against any per-width charge equals the same
charge summed over the values themselves. -/
theorem sum_hist_filter (bb : Nat) (g : Nat → Nat) (vals : List Nat)
    (h32 : ∀ v ∈ vals, bitWidth32 v ≤ 32) :
    ∑ w ∈ Finset.Ioc bb 32, bitHist vals w * g w
      = ((vals.filter (fun v => bb < bitWidth32 v)).map (fun v => g (bitWidth32 v))).sum := by
  induction vals with
  | nil => simp [bitHist_countP]
  | cons x xs ih =>
    have hx32 : bitWidth32 x ≤ 32 := h32 x (List.mem_cons_self x xs)
    have hxs32 : ∀ v ∈ xs, bitWidth32 v ≤ 32 := fun v hv =>
      h32 v (List.mem_cons_of_mem x hv)
    have hcnt : ∀ w, bitHist (x :: xs) w
        = bitHist xs w + (if bitWidth32 x = w then 1 else 0) := by
      intro w
      rw [bitHist_countP, bitHist_countP, List.countP_cons]
      by_cases hxw : bitWidth32 x = w <;> simp [hxw]
    have hsplit : ∑ w ∈ Finset.Ioc bb 32, bitHist (x :: xs) w * g w
        = (∑ w ∈ Finset.Ioc bb 32, bitHist xs w * g w)
          + ∑ w ∈ Finset.Ioc bb 32, (if bitWidth32 x = w then g w else 0) := by
      rw [← Finset.sum_add_distrib]
      apply Finset.sum_congr rfl
      intro w _
      rw [hcnt w]
      by_cases hxw : bitWidth32 x = w <;> simp [hxw] <;> ring
    rw [hsplit, Finset.sum_ite_eq, ih hxs32]
    rw [List.filter_cons]
    by_cases hmem : bb < bitWidth32 x
    · rw [if_pos (decide_eq_true hmem)]
      rw [if_pos (Finset.mem_Ioc.mpr ⟨hmem, hx32⟩)]
      rw [List.map_cons, List.sum_cons]
      omega
    · rw [if_neg (by
        intro hc
        exact hmem (Finset.mem_Ioc.mp hc).1)]
      rw [if_neg (by
        intro hc
        exact hmem (of_decide_eq_true hc))]
      omega

/-- The analyzer's accumulated vbyte charge at base `bb` is the sum of the
cumulative table `Lfun` over the high parts of the values exceeding the
`bb`-bit mask. -/
theorem vvX_eq_sum (vals : List Nat) (bb : Nat)
    (h32 : ∀ v ∈ vals, bitWidth32 v ≤ 32) :
    vvX (bitHist vals) bb
      = ((vals.filter (fun v => 2 ^ bb - 1 < v)).map
          (fun v => Lfun (bitWidth32 (v / 2 ^ bb)))).sum := by
  rw [vvX, sum_hist_filter bb (fun w => Lfun (w - bb)) vals h32]
  have hpos : 0 < 2 ^ bb := Nat.pos_pow_of_pos bb (by omega)
  have hfilt : vals.filter (fun v => decide (bb < bitWidth32 v))
      = vals.filter (fun v => decide (2 ^ bb - 1 < v)) := by
    apply List.filter_congr
    intro v _
    simp only [decide_eq_decide]
    constructor
    · intro h
      have := Nat.lt_size.mp h
      omega
    · intro h
      exact Nat.lt_size.mpr (by omega)
  rw [hfilt]
  apply congrArg List.sum
  apply List.map_congr_left
  intro v hv
  have hvf : bb < bitWidth32 v := by
    rw [List.mem_filter] at hv
    have hgt := of_decide_eq_true hv.2
    exact Nat.lt_size.mpr (by omega)
  rw [bitWidth32_div_pow v bb hvf]

/-- The analyzer's estimated vbyte size at candidate base `bb`
(`vszX`, the quantity `p4Loop` tracks by `p4Loop_inv`) in terms of the
input values: `pad8(n·bb) + 2 + x` plus the `Lfun` charge of each
exception's high part. -/
theorem vszX_charged_eq (vals : List Nat) (n bb : Nat)
    (h32 : ∀ v ∈ vals, v < 4294967296) :
    vszX (bitHist vals) n bb
      = pad8 (n * bb) + 2 + (excPositions bb vals).length
        + ((vals.filter (fun v => 2 ^ bb - 1 < v)).map
            (fun v => Lfun (bitWidth32 (v / 2 ^ bb)))).sum := by
  have hw32 : ∀ v ∈ vals, bitWidth32 v ≤ 32 := fun v hv =>
    Nat.size_le.mpr (lt_of_lt_of_le (h32 v hv) (by norm_num))
  rw [vszX, excX_eq_excPositions_length vals hw32 bb, vvX_eq_sum vals bb hw32]

/-- **C4.** (Amended.)  The vbyte-strategy cost the analyzer charges at
candidate base `bb` is `pad8(n·bb) + 2 + x + Σ Lfun(bw(high_i))`, where
`Lfun` is the cumulative per-exception charge `1 / 2 / 4 / 7 / 11` for
high parts of width `1–7 / 8–15 / 16–19 / 20–25 / 26–32` (the
`update_vbyte_accumulator` registrations at offsets `7/15/19/25` with
multipliers `1/2/3/4`) — not the vbyte codec's true byte lengths. -/
theorem claim_C4_vbyte_cost_charged (vals : List Nat) (n bb : Nat)
    (h32 : ∀ v ∈ vals, v < 4294967296) :
    vszX (bitHist vals) n bb
      = pad8 (n * bb) + 2 + (excPositions bb vals).length
        + ((vals.filter (fun v => 2 ^ bb - 1 < v)).map
            (fun v => Lfun (bitWidth32 (v / 2 ^ bb)))).sum :=
  vszX_charged_eq vals n bb h32

theorem claim_C4_vbyte_cost_charged_witness :
    (∀ v ∈ ([1, 2147483648] : List Nat), v < 4294967296) ∧
      vszX (bitHist [1, 2147483648]) 2 1
        = pad8 (2 * 1) + 2 + (excPositions 1 [1, 2147483648]).length
          + ((([1, 2147483648] : List Nat).filter (fun v => 2 ^ 1 - 1 < v)).map
              (fun v => Lfun (bitWidth32 (v / 2 ^ 1)))).sum :=
  ⟨by decide, claim_C4_vbyte_cost_charged [1, 2147483648] 2 1 (by decide)⟩

/-- **C4, counterexample.** On `[1, 2^31]` at base `1` the charged cost
is `1 + 2 + 1 + Lfun 31 = 15`, while the formula of the claim — with the
vbyte codec's true byte length `(vbPut32 (2^30)).length = 5` for the high
part — gives `9`. -/
theorem claim_C4_counterexample :
    vszX (bitHist [1, 2147483648]) 2 1
      ≠ pad8 (2 * 1) + 2 + (excPositions 1 [1, 2147483648]).length
        + ((excVals 1 [1, 2147483648]).map (fun v => (vbPut32 v).length)).sum := by
  rw [vszX_charged_eq [1, 2147483648] 2 1 (by decide)]
  have hfilt : ([1, 2147483648] : List Nat).filter (fun v => 2 ^ 1 - 1 < v)
      = [2147483648] := by decide
  rw [hfilt, List.map_cons, List.map_nil, List.sum_cons, List.sum_nil]
  rw [show (2147483648 : Nat) / 2 ^ 1 = 1073741824 by norm_num]
  rw [bitWidth32_of 1073741824 31 (by omega) (by norm_num) (by norm_num)]
  decide

end TurboPFor
